import Mathlib

/-!
# tiff-analysis: a shallow embedding of `tiff-analysis.c`

The C program is a single translation unit.  Its functions become Lean
functions over `Nat`: bytes are naturals below 256, `u32` arithmetic is taken
modulo `2^32` where it can wrap, buffers are `List Nat`.  A loop that the C
text does not bound by construction takes a fuel argument and reports running
out of it; a read of memory that was never written, or that lies outside the
mapped file, is reported as a fault.
-/

namespace TiffAnalysis

/-! ## Machine words and outcomes -/

/-- The modulus of `u32` arithmetic. -/
def U32 : Nat := 4294967296

/-- Result of running a part of the program: it returned a value, it ran into
undefined behaviour (a read of uninitialised or out-of-bounds memory, a write
past a fixed-size table), or the fuel ran out before it returned. -/
inductive Outcome (α : Type) where
  | done (a : α)
  | fault
  | timeout
  deriving DecidableEq, Repr

/-! ## Predictor reversal (`reverse_differencing`, lines 295-305) -/

/-- Inner loop of `reverse_differencing`:
`for (u32 j = samples; j < stride && i < len; ++j, ++i) { *fore++ += *back++; }`.
The first argument counts the values of `j` still to be visited
(`stride - j`); `fore` always equals `buf + i`, so only `back` and `i` are
carried.  The result is the buffer and the final `i`. -/
def rdInner : Nat → List Nat → Nat → Nat → Nat → List Nat × Nat
  | 0, buf, _, _, i => (buf, i)
  | n + 1, buf, len, back, i =>
    if i < len then
      rdInner n (buf.set i ((buf.getD i 0 + buf.getD back 0) % 256)) len (back + 1) (i + 1)
    else (buf, i)
/-- Outer loop of `reverse_differencing`, entered at index `i`:
`for (u32 i = 0; i + samples < len; ) { back = buf + i; i += samples; fore = buf + i; ... }`.
The sum `i + samples` is a `u32`.  `none` means that the fuel ran out. -/
def rdOuter (len stride samples : Nat) : Nat → List Nat → Nat → Option (List Nat)
  | 0, _, _ => none
  | fuel + 1, buf, i =>
    if (i + samples) % U32 < len then
      let r := rdInner (stride - samples) buf len i ((i + samples) % U32)
      rdOuter len stride samples fuel r.1 r.2
    else some buf
/-- The function `reverse_differencing(buf, len, stride, samples)`: the buffer
after the call. -/
def reverse_differencing (fuel : Nat) (buf : List Nat) (len stride samples : Nat) :
    Option (List Nat) :=
  rdOuter len stride samples fuel buf 0

/-! ## LZW decompression (`decompress_lzw`, lines 194-292) -/

/-- A partially initialised array: `none` marks a cell that was never written. -/
abbrev Cells := Nat → Option Nat

/-- The array with no cell written. -/
def Cells.empty : Cells := fun _ => none

/-- Store `v` at index `i`. -/
def Cells.write (m : Cells) (i v : Nat) : Cells := fun j => if j = i then some v else m j

/-- Local state of `decompress_lzw` (lines 196-204).  `table_ptr` and the
entries of `table_ix` are indices into `table_data`; `inp` holds the bytes from
`pmem` on; `dst` holds the bytes stored through `pdst` so far, in order, so
that `pdst - dst` is its length. -/
structure LzwState where
  table_data : Cells
  table_ptr : Nat
  table_ix : Cells
  table_count : Nat
  old_code : Nat
  read_state : Nat
  inp : List Nat
  len : Nat
  bit_offset : Nat
  dst : List Nat

/-- The variable `total_write`: it starts at 0 and is reassigned `pdst - dst`
after every store through `pdst`, so it always equals the number of bytes
stored, as a `u32`. -/
def LzwState.total_write (s : LzwState) : Nat := s.dst.length % U32

/-- Code-width loop (lines 207-211):
`for (u32 x = table_count >> 9; x > 0; ) { ++need_bits; table_count >>= 1; }`.
The body never assigns `x`.  Returns `need_bits` and `table_count` at loop
exit, `none` when the fuel runs out. -/
def widthLoop : Nat → Nat → Nat → Nat → Option (Nat × Nat)
  | 0, x, need_bits, table_count => if 0 < x then none else some (need_bits, table_count)
  | fuel + 1, x, need_bits, table_count =>
    if 0 < x then widthLoop fuel x ((need_bits + 1) % U32) (table_count >>> 1)
    else some (need_bits, table_count)

/-- Bit reader (lines 212-224): `for (; need_bits > 0 && len > 0; ) { ... }`.
Every pass takes at least one bit, so `need_bits` passes suffice; the first
argument bounds the passes.  Returns `(code, need_bits, inp, len, bit_offset)`,
or `none` when `*pmem` lies outside the buffer. -/
def readBits : Nat → Nat → Nat → List Nat → Nat → Nat →
    Option (Nat × Nat × List Nat × Nat × Nat)
  | 0, code, need_bits, inp, len, bit_offset => some (code, need_bits, inp, len, bit_offset)
  | n + 1, code, need_bits, inp, len, bit_offset =>
    if 0 < need_bits ∧ 0 < len then
      match inp with
      | [] => none
      | b :: rest =>
        let avail := 8 - bit_offset
        let take := if need_bits > avail then avail else need_bits
        let shift := if take < avail then avail - take else 0
        let code1 := ((code <<< take) % U32) ||| ((b >>> shift) &&& ((1 <<< take) - 1))
        if bit_offset + take ≥ 8 then readBits n code1 (need_bits - take) rest (len - 1) 0
        else readBits n code1 (need_bits - take) inp len (bit_offset + take)
    else some (code, need_bits, inp, len, bit_offset)

/-- One pass of the loop `for (u32 i = 0; i < 256; ++i)` of CLEAR (lines 228-232):
`table_ix[i] = table_ptr; *table_ptr++ = 1; *table_ptr++ = i;`. -/
def clearStep (t : LzwState) (i : Nat) : LzwState :=
  { t with
    table_ix := t.table_ix.write i t.table_ptr
    table_data := (t.table_data.write t.table_ptr 1).write (t.table_ptr + 1) i
    table_ptr := t.table_ptr + 2 }

/-- The first `n` passes of that loop, after `table_ptr = table_data`. -/
def clearFold (n : Nat) (s : LzwState) : LzwState :=
  (List.range n).foldl clearStep { s with table_ptr := 0 }

/-- CLEAR (lines 227-234): rebuild the 256 literal entries from the start of
`table_data`, each as a length byte 1 followed by the literal. -/
def clearTable (s : LzwState) : LzwState :=
  { clearFold 256 s with table_count := 258, read_state := 0 }

/-- The copy loop `for (u32 len = *p++; len > 0; --len) { *pdst++ = *p++; ... }`
of the defined-code branch (lines 242-245), after the length was read: `n`
bytes from `table_data[p]` on are appended to the output, with no test of the
capacity. -/
def emitLoop : Nat → Cells → Nat → List Nat → Option (List Nat)
  | 0, _, _, dst => some dst
  | n + 1, data, p, dst =>
    match data p with
    | none => none
    | some v => emitLoop n data (p + 1) (dst ++ [v])

/-- The copy loop of the other branch (lines 263-269): each byte is stored only
while `total_write < dst_size`, and `*p` is read only then. -/
def emitLoopChecked (dst_size : Nat) : Nat → Cells → Nat → List Nat → Option (List Nat)
  | 0, _, _, dst => some dst
  | n + 1, data, p, dst =>
    if dst.length % U32 < dst_size then
      match data p with
      | none => none
      | some v => emitLoopChecked dst_size n data (p + 1) (dst ++ [v])
    else emitLoopChecked dst_size n data (p + 1) dst

/-- The loop `for (u32 len = *p++; len > 0; --len) { *table_ptr++ = *p++; }`
(lines 250-252 and 279-281), after the length was read; a store at index 60000
or beyond leaves `table_data`. -/
def copyLoop : Nat → Cells → Nat → Nat → Option (Cells × Nat)
  | 0, data, _, tp => some (data, tp)
  | n + 1, data, p, tp =>
    match data p with
    | none => none
    | some v => if tp < 60000 then copyLoop n (data.write tp v) (p + 1) (tp + 1) else none

/-- The block that adds a dictionary entry (lines 247-254 and 276-283):
`table_ix[table_count++] = table_ptr`, then the length byte `*p + 1` (a `u8`),
the bytes of entry `old_code`, and last the first byte of entry `src`, which is
`code` in the defined-code branch and `old_code` in the other one. -/
def learn (s : LzwState) (src : Nat) : Option LzwState :=
  if s.table_count < 4096 then
    let ix := s.table_ix.write s.table_count s.table_ptr
    match ix s.old_code with
    | none => none
    | some p =>
      match s.table_data p with
      | none => none
      | some l0 =>
        if s.table_ptr < 60000 then
          let data1 := s.table_data.write s.table_ptr ((l0 + 1) % 256)
          match data1 p with
          | none => none
          | some l1 =>
            match copyLoop l1 data1 (p + 1) (s.table_ptr + 1) with
            | none => none
            | some (data2, tp2) =>
              match ix src with
              | none => none
              | some q =>
                match data2 (q + 1) with
                | none => none
                | some v =>
                  if tp2 < 60000 then
                    some { s with
                      table_ix := ix
                      table_count := (s.table_count + 1) % U32
                      table_data := data2.write tp2 v
                      table_ptr := tp2 + 1 }
                  else none
        else none
  else none

/-- The `default` case of the switch (lines 239-288) for a code other than 256
and 257. -/
def dataCode (dst_size : Nat) (s : LzwState) (code : Nat) : Option LzwState :=
  if code < s.table_count then
    match s.table_ix code with
    | none => none
    | some p =>
      match s.table_data p with
      | none => none
      | some l =>
        match emitLoop l s.table_data (p + 1) s.dst with
        | none => none
        | some dst1 =>
          let s1 := { s with dst := dst1 }
          if s1.read_state ≠ 0 then
            match learn s1 code with
            | none => none
            | some s2 => some { s2 with old_code := code }
          else some { s1 with read_state := 1, old_code := code }
  else
    match s.table_ix s.old_code with
    | none => none
    | some p =>
      match s.table_data p with
      | none => none
      | some l =>
        match emitLoopChecked dst_size l s.table_data (p + 1) s.dst with
        | none => none
        | some dst1 =>
          let dst2 : Option (List Nat) :=
            if dst1.length % U32 < dst_size then
              match s.table_data (p + 1) with
              | none => none
              | some v => some (dst1 ++ [v])
            else some dst1
          match dst2 with
          | none => none
          | some dst3 =>
            match learn { s with dst := dst3 } s.old_code with
            | none => none
            | some s2 => some { s2 with old_code := code }

/-- Main loop of `decompress_lzw` (lines 205-290).  The result is the returned
`total_write` together with the bytes stored through `pdst`. -/
def lzwLoop (dst_size : Nat) : Nat → LzwState → Outcome (Nat × List Nat)
  | 0, _ => .timeout
  | fuel + 1, s =>
    if 0 < s.len ∧ s.total_write < dst_size then
      match widthLoop fuel (s.table_count >>> 9) 9 s.table_count with
      | none => .timeout
      | some (need_bits, tc) =>
        match readBits need_bits 0 need_bits s.inp s.len s.bit_offset with
        | none => .fault
        | some (code, _, inp, len, bit_offset) =>
          let s1 := { s with table_count := tc, inp := inp, len := len, bit_offset := bit_offset }
          if code = 256 then lzwLoop dst_size fuel (clearTable s1)
          else if code = 257 then .done (s1.total_write, s1.dst)
          else
            match dataCode dst_size s1 code with
            | none => .fault
            | some s2 => lzwLoop dst_size fuel s2
    else .done (s.total_write, s.dst)

/-- State of `decompress_lzw` on entry. -/
def lzwInit (mem : List Nat) (len : Nat) : LzwState :=
  { table_data := Cells.empty, table_ptr := 0, table_ix := Cells.empty, table_count := 0,
    old_code := 0, read_state := 0, inp := mem, len := len, bit_offset := 0, dst := [] }

/-- The function `decompress_lzw(dst, dst_size, mem, len)`: the returned count and
the bytes stored through `pdst`, from index 0 on.  A store at an index of
`dst_size` or beyond is recorded like any other, so that an overrun of `dst`
shows in the result. -/
def decompress_lzw (fuel dst_size : Nat) (mem : List Nat) (len : Nat) :
    Outcome (Nat × List Nat) :=
  lzwLoop dst_size fuel (lzwInit mem len)

/-! ## Reading the mapped file -/

/-- One byte of the mapped file; `none` outside it. -/
def read8 (mem : List Nat) (a : Nat) : Option Nat := mem[a]?

/-- The macro `read16(mem + a)` on a little-endian machine. -/
def read16 (mem : List Nat) (a : Nat) : Option Nat :=
  match read8 mem a, read8 mem (a + 1) with
  | some b0, some b1 => some (b0 + 256 * b1)
  | _, _ => none

/-- The macro `read32(mem + a)` on a little-endian machine. -/
def read32 (mem : List Nat) (a : Nat) : Option Nat :=
  match read16 mem a, read16 mem (a + 2) with
  | some lo, some hi => some (lo + 65536 * hi)
  | _, _ => none

/-- The packed struct `tiff_ifd_entry` (lines 28-33). -/
structure tiff_ifd_entry where
  tag : Nat
  type : Nat
  count : Nat
  value : Nat
  deriving DecidableEq, Repr

/-- The 12-byte record at `mem + a` seen through a `tiff_ifd_entry*`. -/
def readEntry (mem : List Nat) (a : Nat) : Option tiff_ifd_entry :=
  match read16 mem a, read16 mem (a + 2), read32 mem (a + 4), read32 mem (a + 8) with
  | some tag, some type, some count, some value => some ⟨tag, type, count, value⟩
  | _, _, _, _ => none

/-- The function `value_u32` (lines 42-50). -/
def value_u32 (entry : tiff_ifd_entry) : Nat :=
  match entry.type with
  | 1 => entry.value
  | 3 => entry.value
  | 4 => entry.value
  | _ => 0

/-- The function `value_u32a` (lines 53-70); the address is formed in pointer
arithmetic, `index * sizeof(u16)` being a `size_t`. -/
def value_u32a (mem : List Nat) (entry : tiff_ifd_entry) (index : Nat) : Option Nat :=
  if entry.count = 1 then
    if index = 0 then
      match entry.type with
      | 1 => some entry.value
      | 3 => some entry.value
      | 4 => some entry.value
      | _ => some 0
    else some 0
  else
    match entry.type with
    | 3 => read16 mem (entry.value + index * 2)
    | 4 => read32 mem (entry.value + index * 4)
    | _ => some 0

/-- The function `rational` (lines 73-82): numerator and denominator. -/
def rational (mem : List Nat) (entry : tiff_ifd_entry) : Option (Nat × Nat) :=
  match entry.type with
  | 5 =>
    match read32 mem entry.value, read32 mem (entry.value + 4) with
    | some num, some den => some (num, den)
    | _, _ => none
  | _ => some (0, 0)

/-- The function `value_ascii` (lines 85-91): the offset of the string, `none`
for `NULL`. -/
def value_ascii (entry : tiff_ifd_entry) : Option Nat :=
  match entry.type with
  | 2 => some entry.value
  | _ => none

/-- The bytes `printf("%s", mem + a)` reads: up to the first zero byte, which
must lie inside the file. -/
def cstring (mem : List Nat) (a : Nat) : Option (List Nat) :=
  let s := (mem.drop a).takeWhile (fun b => b != 0)
  if a + s.length < mem.length then some s else none

/-- The loops `for (u32 i = 0; i < entry->count; ++i) { u32 x = value_u32a(mem, entry, i); ... }`
(tags 258, 273, 279, 339): the values printed. -/
def valueArray (mem : List Nat) (entry : tiff_ifd_entry) : Option (List Nat) :=
  (List.range entry.count).mapM (value_u32a mem entry)

/-! ## Strips -/

/-- The bytes `dump_uncompressed(mem + off, len)` prints (lines 172-191); they
must lie inside the file. -/
def dump_uncompressed (mem : List Nat) (off len : Nat) : Option (List Nat) :=
  if off + len ≤ mem.length then some ((mem.drop off).take len) else none

/-- What `Outcome` a partial result stands for (`none` is a fault). -/
def Outcome.ofOption {α : Type} : Option α → Outcome α
  | some a => .done a
  | none => .fault

/-- The function `dump(mem + off, len, compression, predictor, stride, samples)`
(lines 308-327), with `APP_DECOMPRESS` set: the bytes handed to
`dump_uncompressed`.  The local `u8 buf[0x40000]` (line 317) has 262144 bytes.
`decompress_lzw` reports every byte it stored through `pdst`, from index 0 on;
when it stored more than 262144 of them, a store went to `buf[0x40000]` or
beyond, outside the array, and `dump_uncompressed(buf, n)` would read there
too: that run is a fault.  (Once `total_write` has reached `dst_size` the loop
of `decompress_lzw` ends at its next test, so a store outside `buf` is never
followed by a `timeout` of the decoder.) -/
def dump (fuel : Nat) (mem : List Nat) (off len compression predictor stride samples : Nat) :
    Outcome (List Nat) :=
  if compression = 5 then
    match decompress_lzw fuel 262144 (mem.drop off) len with
    | .done (n, buf) =>
      if buf.length ≤ 262144 then
        if predictor = 2 then
          match reverse_differencing fuel buf n stride samples with
          | some buf1 => .done (buf1.take n)
          | none => .timeout
        else .done (buf.take n)
      else .fault
    | .fault => .fault
    | .timeout => .timeout
  else Outcome.ofOption (dump_uncompressed mem off len)

/-! ## The directory walk of `main` -/

/-- What the walk hands on: a directory was entered, an entry record was read
at an address, a strip was dumped. -/
inductive Event where
  | ifd (pifd : Nat)
  | entry (addr : Nat) (e : tiff_ifd_entry)
  | strip (sid : Nat) (bytes : List Nat)
  deriving DecidableEq, Repr

/-- The per-directory locals of `main` (lines 383-388). -/
structure IfdVars where
  strip_offsets : Option tiff_ifd_entry
  strip_byte_counts : Option tiff_ifd_entry
  image_width : Nat
  image_height : Nat
  compression_scheme : Nat
  predictor_scheme : Nat
  samples_per_pixel : Nat
  deriving DecidableEq, Repr

/-- Their initial values. -/
def IfdVars.init : IfdVars := ⟨none, none, 0, 0, 0, 0, 1⟩

/-- The `switch (entry->tag)` of `main` (lines 392-553): the effect on the
locals; `none` when a value read leaves the file.  Cases that only print a
value computed by `value_u32` leave the locals as they are. -/
def processEntry (mem : List Nat) (v : IfdVars) (entry : tiff_ifd_entry) : Option IfdVars :=
  match entry.tag with
  | 256 => some { v with image_width := value_u32 entry }
  | 257 => some { v with image_height := value_u32 entry }
  | 258 => (valueArray mem entry).map fun _ => v
  | 259 => some { v with compression_scheme := value_u32 entry }
  | 273 => (valueArray mem entry).map fun _ => { v with strip_offsets := some entry }
  | 277 => some { v with samples_per_pixel := value_u32 entry }
  | 279 => (valueArray mem entry).map fun _ => { v with strip_byte_counts := some entry }
  | 282 => (rational mem entry).map fun _ => v
  | 283 => (rational mem entry).map fun _ => v
  | 285 =>
    match value_ascii entry with
    | some a => (cstring mem a).map fun _ => v
    | none => some v
  | 317 => some { v with predictor_scheme := value_u32 entry }
  | 339 => (valueArray mem entry).map fun _ => v
  | _ => some v

/-- The entry loop `for (u32 iifd = 0; iifd < ifd_count; ++iifd)` (lines 389-554),
from index `iifd` with `n` entries to go: entry `iifd` is the record at
`mem + pifd + sizeof(ifd_count) + iifd * sizeof(tiff_ifd_entry)`. -/
def scanEntries (mem : List Nat) (pifd : Nat) : Nat → Nat → IfdVars → List Event →
    Option (IfdVars × List Event)
  | 0, _, v, tr => some (v, tr)
  | n + 1, iifd, v, tr =>
    match readEntry mem (pifd + 2 + iifd * 12) with
    | none => none
    | some e =>
      match processEntry mem v e with
      | none => none
      | some v1 => scanEntries mem pifd n (iifd + 1) v1 (tr ++ [Event.entry (pifd + 2 + iifd * 12) e])

/-- The strip loop (lines 561-567), from index `sid` with `n` strips to go,
entered only when `strip_offsets` was set; a null `strip_byte_counts` is
dereferenced by `value_u32a`. -/
def stripLoop (fuel : Nat) (mem : List Nat) (v : IfdVars) (so : tiff_ifd_entry) :
    Nat → Nat → List Event → Outcome (List Event)
  | 0, _, tr => .done tr
  | n + 1, sid, tr =>
    match value_u32a mem so sid with
    | none => .fault
    | some off =>
      match v.strip_byte_counts with
      | none => .fault
      | some sbc =>
        match value_u32a mem sbc sid with
        | none => .fault
        | some len =>
          match dump fuel mem off len v.compression_scheme v.predictor_scheme
              ((v.image_width * v.samples_per_pixel) % U32) v.samples_per_pixel with
          | .done bytes => stripLoop fuel mem v so n (sid + 1) (tr ++ [Event.strip sid bytes])
          | .fault => .fault
          | .timeout => .timeout

/-- One pass of the directory loop of `main` (lines 381-568) for the directory
at `pifd`: the new value of `pifd` and the events of the pass. -/
def ifdBody (fuel : Nat) (mem : List Nat) (pifd : Nat) : Outcome (Nat × List Event) :=
  match read16 mem pifd with
  | none => .fault
  | some ifd_count =>
    match scanEntries mem pifd ifd_count 0 IfdVars.init [Event.ifd pifd] with
    | none => .fault
    | some (v, tr) =>
      match read32 mem (pifd + 2 + ifd_count * 12) with
      | none => .fault
      | some next =>
        match v.strip_offsets with
        | none => .done (next, tr)
        | some so =>
          match stripLoop fuel mem v so so.count 0 tr with
          | .done tr1 => .done (next, tr1)
          | .fault => .fault
          | .timeout => .timeout

/-- The directory loop `for (; pifd; ) { ... }` of `main` (lines 380-569). -/
def ifdLoop (mem : List Nat) : Nat → Nat → List Event → Outcome (List Event)
  | 0, _, _ => .timeout
  | fuel + 1, pifd, tr =>
    if pifd ≠ 0 then
      match ifdBody fuel mem pifd with
      | .done (next, evs) => ifdLoop mem fuel next (tr ++ evs)
      | .fault => .fault
      | .timeout => .timeout
    else .done tr

/-- The function `main` from line 360 on, for the mapped file `mem`: the exit
code and the events of the walk. -/
def main (fuel : Nat) (mem : List Nat) : Outcome (Nat × List Event) :=
  match read16 mem 0 with
  | none => .fault
  | some byte_order =>
    if byte_order = 0x4949 then
      match read16 mem 2 with
      | none => .fault
      | some x42 =>
        if x42 ≠ 42 then .done (1, [])
        else
          match read32 mem 4 with
          | none => .fault
          | some pifd =>
            match ifdLoop mem fuel pifd [] with
            | .done tr => .done (0, tr)
            | .fault => .fault
            | .timeout => .timeout
    else .done (1, [])

/-! ## The specification's side -/

/-- Horizontal differencing as the specification words it: within each row of
`stride` bytes, `sample[x] -= sample[x - samples]` for `x ≥ samples`, on bytes. -/
def diffEncode (X : List Nat) (stride samples : Nat) : List Nat :=
  (List.range X.length).map fun p =>
    if p % stride < samples then X.getD p 0
    else (X.getD p 0 + 256 - X.getD (p - samples) 0 % 256) % 256

/-- The recurrence that predictor reversal establishes at position `p`. -/
def RdSpecAt (inp out : List Nat) (stride samples p : Nat) : Prop :=
  out.getD p 0 =
    if p % stride < samples then inp.getD p 0
    else (inp.getD p 0 + out.getD (p - samples) 0) % 256

/-- Loop invariant of `reverse_differencing`: positions below `k` are final,
positions from `k` on still hold the input. -/
structure RdInv (inp buf : List Nat) (stride samples k : Nat) : Prop where
  len : buf.length = inp.length
  done : ∀ p, p < k → RdSpecAt inp buf stride samples p
  rest : ∀ p, k ≤ p → buf.getD p 0 = inp.getD p 0

/-- The `w` low bits of `c`, most significant first. -/
def bitsMSB : Nat → Nat → List Bool
  | 0, _ => []
  | w + 1, c => c.testBit w :: bitsMSB w c

/-- The number a bit string spells, most significant bit first. -/
def bitsVal (bs : List Bool) : Nat := bs.foldl (fun a b => 2 * a + b.toNat) 0

/-- The bits of a byte sequence, each byte most significant bit first. -/
def bytesToBits (mem : List Nat) : List Bool := mem.flatMap (bitsMSB 8)

/-- A code sequence packed most significant bit first as 9-bit codes. -/
def pack9 (codes : List Nat) : List Bool := codes.flatMap (bitsMSB 9)

/-- The specification's dictionary: literal codes 0-255 map to single bytes,
codes from 258 on to the strings learned since the last CLEAR. -/
def specEntry (dict : List (List Nat)) (c : Nat) : Option (List Nat) :=
  if c < 256 then some [c]
  else if 258 ≤ c then dict[c - 258]?
  else none

/-- The specification's `Streaming` step for code `c` after `prev`: the string
to emit and the string to learn; `none` is `BitstreamCorrupt`. -/
def specStreaming (dict : List (List Nat)) (prev c : Nat) : Option (List Nat × List Nat) :=
  match specEntry dict c with
  | some s => (specEntry dict prev).map fun w => (s, w ++ s.take 1)
  | none =>
    if c = 258 + dict.length then
      (specEntry dict prev).map fun w => (w ++ w.take 1, w ++ w.take 1)
    else none

/-- One data code in the specification's `AfterClear` (`prev = none`) or
`Streaming` state: the string emitted and the dictionary afterwards. -/
def specStep (dict : List (List Nat)) (prev : Option Nat) (c : Nat) :
    Option (List Nat × List (List Nat)) :=
  match prev with
  | none => (specEntry dict c).map fun s => (s, dict)
  | some p => (specStreaming dict p c).map fun el => (el.1, dict ++ [el.2])

/-- The specification's state machine run over a sequence of data codes: the
bytes emitted and the final dictionary. -/
def specCodes : List Nat → List (List Nat) → Option Nat → List Nat →
    Option (List Nat × List (List Nat))
  | [], dict, _, out => some (out, dict)
  | c :: cs, dict, prev, out =>
    match specStep dict prev c with
    | some (e, dict1) => specCodes cs dict1 (some c) (out ++ e)
    | none => none

/-- The previous code after a run of data codes. -/
def lastCode : List Nat → Option Nat → Option Nat
  | [], prev => prev
  | c :: cs, _ => lastCode cs (some c)

/-- The bits a reader at bit `off` of the first byte of `inp` has before it. -/
def remBits (inp : List Nat) (off : Nat) : List Bool := (bytesToBits inp).drop off

/-- Entry `c` of the decoder's table holds the string `w`, stored below
`table_ptr`: `table_ix[c]` points at the length byte, the bytes follow. -/
def HasEntry (s : LzwState) (c : Nat) (w : List Nat) : Prop :=
  ∃ p, s.table_ix c = some p ∧ s.table_data p = some w.length ∧
    (∀ j, j < w.length → s.table_data (p + 1 + j) = some (w.getD j 0)) ∧
    p + 1 + w.length ≤ s.table_ptr

/-- The decoder state `s` stands for the specification's state: dictionary
`dict`, previous code `prev` (`none` in `AfterClear`) and output `out`. -/
structure Sim (s : LzwState) (dict : List (List Nat)) (prev : Option Nat)
    (out : List Nat) : Prop where
  count : s.table_count = 258 + dict.length
  entries : ∀ c w, specEntry dict c = some w → HasEntry s c w
  lens : ∀ k w, dict[k]? = some w → 2 ≤ w.length ∧ w.length ≤ k + 2
  ptr : 2 * s.table_ptr ≤ 1024 + dict.length * (dict.length + 5)
  prev_ok : match prev with
    | none => s.read_state = 0
    | some c => s.read_state = 1 ∧ s.old_code = c ∧ (specEntry dict c).isSome
  out_eq : s.dst = out

/-- The bit reader of state `s` is inside the buffer and has the bits `bits`
before it. -/
def Reader (s : LzwState) (bits : List Bool) : Prop :=
  s.len = s.inp.length ∧ s.bit_offset < 8 ∧ (∀ b ∈ s.inp, b < 256) ∧
    remBits s.inp s.bit_offset = bits

/-- Test stream: CLEAR and the literals 0..253 as 9-bit codes, then END as a
10-bit code (the width the specification asks for once the next free code is
511), padded with zero bits: 289 bytes. -/
def lzwStream511 : List Nat :=
  [128, 0, 0, 32, 32, 24, 16, 10, 6, 3, 130, 1, 32, 160, 88, 48, 26, 14, 7, 132, 2, 33, 32, 152,
   80, 42, 22, 11, 134, 3, 33, 160, 216, 112, 58, 30, 15, 136, 4, 34, 33, 24, 144, 74, 38, 19,
   138, 5, 34, 161, 88, 176, 90, 46, 23, 140, 6, 35, 33, 152, 208, 106, 54, 27, 142, 7, 35, 161,
   216, 240, 122, 62, 31, 144, 8, 36, 34, 25, 16, 138, 70, 35, 146, 9, 36, 162, 89, 48, 154, 78,
   39, 148, 10, 37, 34, 153, 80, 170, 86, 43, 150, 11, 37, 162, 217, 112, 186, 94, 47, 152, 12,
   38, 35, 25, 144, 202, 102, 51, 154, 13, 38, 163, 89, 176, 218, 110, 55, 156, 14, 39, 35, 153,
   208, 234, 118, 59, 158, 15, 39, 163, 217, 240, 250, 126, 63, 160, 16, 40, 36, 26, 17, 10, 134,
   67, 162, 17, 40, 164, 90, 49, 26, 142, 71, 164, 18, 41, 36, 154, 81, 42, 150, 75, 166, 19, 41,
   164, 218, 113, 58, 158, 79, 168, 20, 42, 37, 26, 145, 74, 166, 83, 170, 21, 42, 165, 90, 177,
   90, 174, 87, 172, 22, 43, 37, 154, 209, 106, 182, 91, 174, 23, 43, 165, 218, 241, 122, 190,
   95, 176, 24, 44, 38, 27, 17, 138, 198, 99, 178, 25, 44, 166, 91, 49, 154, 206, 103, 180, 26,
   45, 38, 155, 81, 170, 214, 107, 182, 27, 45, 166, 219, 113, 186, 222, 111, 184, 28, 46, 39,
   27, 145, 202, 230, 115, 186, 29, 46, 167, 91, 177, 218, 238, 119, 188, 30, 47, 39, 155, 209,
   234, 246, 123, 190, 31, 47, 167, 219, 241, 250, 128, 128]

/-- Test stream: the first 288 bytes of the specification's encoding of a byte
sequence that starts 0, 1, ..., 254 with no repeated pair: CLEAR and the
literals 0..253 as 9-bit codes, then the first nine bits of the 10-bit code
254. -/
def lzwPrefix255 : List Nat :=
  [128, 0, 0, 32, 32, 24, 16, 10, 6, 3, 130, 1, 32, 160, 88, 48, 26, 14, 7, 132, 2, 33, 32, 152,
   80, 42, 22, 11, 134, 3, 33, 160, 216, 112, 58, 30, 15, 136, 4, 34, 33, 24, 144, 74, 38, 19,
   138, 5, 34, 161, 88, 176, 90, 46, 23, 140, 6, 35, 33, 152, 208, 106, 54, 27, 142, 7, 35, 161,
   216, 240, 122, 62, 31, 144, 8, 36, 34, 25, 16, 138, 70, 35, 146, 9, 36, 162, 89, 48, 154, 78,
   39, 148, 10, 37, 34, 153, 80, 170, 86, 43, 150, 11, 37, 162, 217, 112, 186, 94, 47, 152, 12,
   38, 35, 25, 144, 202, 102, 51, 154, 13, 38, 163, 89, 176, 218, 110, 55, 156, 14, 39, 35, 153,
   208, 234, 118, 59, 158, 15, 39, 163, 217, 240, 250, 126, 63, 160, 16, 40, 36, 26, 17, 10, 134,
   67, 162, 17, 40, 164, 90, 49, 26, 142, 71, 164, 18, 41, 36, 154, 81, 42, 150, 75, 166, 19, 41,
   164, 218, 113, 58, 158, 79, 168, 20, 42, 37, 26, 145, 74, 166, 83, 170, 21, 42, 165, 90, 177,
   90, 174, 87, 172, 22, 43, 37, 154, 209, 106, 182, 91, 174, 23, 43, 165, 218, 241, 122, 190,
   95, 176, 24, 44, 38, 27, 17, 138, 198, 99, 178, 25, 44, 166, 91, 49, 154, 206, 103, 180, 26,
   45, 38, 155, 81, 170, 214, 107, 182, 27, 45, 166, 219, 113, 186, 222, 111, 184, 28, 46, 39,
   27, 145, 202, 230, 115, 186, 29, 46, 167, 91, 177, 218, 238, 119, 188, 30, 47, 39, 155, 209,
   234, 246, 123, 190, 31, 47, 167, 219, 241, 250, 127]

/-- Test state: the decoder after CLEAR and the literal 65. -/
def lzwStateAfter65 : LzwState :=
  { clearTable (lzwInit [] 0) with old_code := 65, read_state := 1, dst := [65] }

/-- Test state: the decoder after CLEAR with one input byte `0` left, one bit
of it already read. -/
def lzwStateLastByte : LzwState :=
  { clearTable (lzwInit [0] 1) with bit_offset := 1 }

/-- A chain of directories as the specification describes it: `dirs` lists the
offset and the entry count of each directory, `p` is the pointer to the first.
Every offset is non-zero, the `u16` at offset `o` is the entry count `k`, the
`u32` at `o + 2 + 12 * k` points to the next directory, and the last one is
followed by 0. -/
def IsChain (mem : List Nat) : List (Nat × Nat) → Nat → Prop
  | [], p => p = 0
  | d :: ds, p =>
    p = d.1 ∧ d.1 ≠ 0 ∧ read16 mem d.1 = some d.2 ∧
      ∃ next, read32 mem (d.1 + 2 + 12 * d.2) = some next ∧ IsChain mem ds next

/-- Whether an event is a dumped strip. -/
def Event.isStrip : Event → Bool
  | .strip _ _ => true
  | _ => false

/-- The directory and entry events the specification expects of the directory
at offset `d.1` with `d.2` entries: entry `i` is the record at
`d.1 + 2 + 12 * i`, in file order. -/
def dirEvents (mem : List Nat) (d : Nat × Nat) : List Event :=
  Event.ifd d.1 ::
    (List.range d.2).filterMap fun i =>
      (readEntry mem (d.1 + 2 + 12 * i)).map (Event.entry (d.1 + 2 + 12 * i))

/-- Test file: a header and two directories, the first at offset 8 with the one
entry ImageWidth = 4, the second at offset 26 with no entry. -/
def tiffTwoDirs : List Nat :=
  [0x49, 0x49, 42, 0, 8, 0, 0, 0,
   1, 0,
   0, 1, 3, 0, 1, 0, 0, 0, 4, 0, 0, 0,
   26, 0, 0, 0,
   0, 0,
   0, 0, 0, 0]

/-- Test file: a header and one directory at offset 8 with five entries
(Compression = LZW, Predictor = 2, SamplesPerPixel = 0, StripOffsets = 74,
StripByteCounts = 4), followed by the strip CLEAR, 65, END. -/
def tiffSamplesZero : List Nat :=
  [0x49, 0x49, 42, 0, 8, 0, 0, 0,
   5, 0,
   3, 1, 3, 0, 1, 0, 0, 0, 5, 0, 0, 0,
   0x3d, 1, 3, 0, 1, 0, 0, 0, 2, 0, 0, 0,
   0x15, 1, 3, 0, 1, 0, 0, 0, 0, 0, 0, 0,
   0x11, 1, 4, 0, 1, 0, 0, 0, 74, 0, 0, 0,
   0x17, 1, 4, 0, 1, 0, 0, 0, 4, 0, 0, 0,
   0, 0, 0, 0,
   0x80, 0x10, 0x60, 0x20]

/-- A chain of directories that ends with the pointer `q` instead of 0: as
`IsChain`, except that the last directory is followed by `q`. -/
def ChainTo (mem : List Nat) : List (Nat × Nat) → Nat → Nat → Prop
  | [], p, q => p = q
  | d :: ds, p, q =>
    p = d.1 ∧ d.1 ≠ 0 ∧ read16 mem d.1 = some d.2 ∧
      ∃ next, read32 mem (d.1 + 2 + 12 * d.2) = some next ∧ ChainTo mem ds next q

/-- Test file: a header and one directory at offset 8 with no entry whose next
pointer is 8 again. -/
def tiffSelfLoop : List Nat :=
  [0x49, 0x49, 42, 0, 8, 0, 0, 0,
   0, 0,
   8, 0, 0, 0]

/-- Test file: a header and two directories with no entry, at offsets 8 and 14,
the second pointing back to the first. -/
def tiffTwoCycle : List Nat :=
  [0x49, 0x49, 42, 0, 8, 0, 0, 0,
   0, 0,
   14, 0, 0, 0,
   0, 0,
   8, 0, 0, 0]

/-- Test record: the 12 bytes of an ImageWidth entry of type Short and count 1
whose inline field holds 4 in its first two bytes and 1 in its last two. -/
def entryShortDirty : List Nat := [0, 1, 3, 0, 1, 0, 0, 0, 4, 0, 1, 0]

/-- Test file: a header and one directory at offset 8 whose only entry is
BitsPerSample of type Short and count 2 with the two values 2 and 0 inline. -/
def tiffTwoShorts : List Nat :=
  [0x49, 0x49, 42, 0, 8, 0, 0, 0,
   1, 0,
   2, 1, 3, 0, 2, 0, 0, 0, 2, 0, 0, 0,
   0, 0, 0, 0]

/-- The byte sequence `b` written `n` times in a row. -/
def lzwBlocks (b : List Nat) : Nat → List Nat
  | 0 => []
  | n + 1 => b ++ lzwBlocks b n

/-- Test strip of 337044 bytes: 37449 times the nine bytes that spell CLEAR, 1,
2, 3, 4, 5, 6, 7 in 9-bit codes, then the codes 258 and END, zero padded.  Each
block decodes to seven bytes, 262143 in all, and entry 258 of the last block is
the two-byte string 1, 2. -/
def lzwOverrunStrip : List Nat :=
  lzwBlocks [128, 0, 64, 64, 48, 32, 20, 12, 7] 37449 ++ [129, 64, 64]

/-- Test file for Scenario A: a header and one directory at offset 8 with seven
entries (ImageWidth = 4, ImageHeight = 1, Compression = LZW, StripOffsets = 98,
SamplesPerPixel = 1, StripByteCounts = 7, Predictor = 2), followed by the strip
CLEAR, 10, 3, 3, 3, END in 9-bit codes. -/
def tiffScenarioA : List Nat :=
  [0x49, 0x49, 42, 0, 8, 0, 0, 0,
   7, 0,
   0, 1, 3, 0, 1, 0, 0, 0, 4, 0, 0, 0,
   1, 1, 3, 0, 1, 0, 0, 0, 1, 0, 0, 0,
   3, 1, 3, 0, 1, 0, 0, 0, 5, 0, 0, 0,
   0x11, 1, 4, 0, 1, 0, 0, 0, 98, 0, 0, 0,
   0x15, 1, 3, 0, 1, 0, 0, 0, 1, 0, 0, 0,
   0x17, 1, 4, 0, 1, 0, 0, 0, 7, 0, 0, 0,
   0x3d, 1, 3, 0, 1, 0, 0, 0, 2, 0, 0, 0,
   0, 0, 0, 0,
   128, 2, 128, 96, 48, 28, 4]

/-! ## Predictor reversal: proofs -/

theorem getD_set_ne (l : List Nat) (i p v d : Nat) (h : i ≠ p) :
    (l.set i v).getD p d = l.getD p d := by
  simp [List.getD_eq_getElem?_getD, List.getElem?_set, h]

theorem getD_set_eq (l : List Nat) (i v d : Nat) (h : i < l.length) :
    (l.set i v).getD i d = v := by
  simp [List.getD_eq_getElem?_getD, List.getElem?_set, h]

theorem rdInner_inv (inp : List Nat) (stride samples : Nat) (hs : 1 ≤ samples) :
    ∀ n buf i r j, stride * r + j = i → samples ≤ j → j + n = stride →
      i ≤ inp.length → RdInv inp buf stride samples i →
      RdInv inp (rdInner n buf inp.length (i - samples) i).1 stride samples
          (rdInner n buf inp.length (i - samples) i).2 ∧
        (rdInner n buf inp.length (i - samples) i).2 ≤ inp.length ∧
        i ≤ (rdInner n buf inp.length (i - samples) i).2 ∧
        ((rdInner n buf inp.length (i - samples) i).2 = stride * (r + 1) ∨
          (rdInner n buf inp.length (i - samples) i).2 = inp.length) := by
  intro n
  induction n with
  | zero =>
    intro buf i r j hi hj hn hle hinv
    simp only [rdInner]
    refine ⟨hinv, hle, le_refl _, Or.inl ?_⟩
    rw [← hi, Nat.mul_add, Nat.mul_one]; omega
  | succ n ih =>
    intro buf i r j hi hj hn hle hinv
    by_cases hlt : i < inp.length
    · simp only [rdInner, hlt, if_true]
      have hil : i < buf.length := by rw [hinv.len]; exact hlt
      have hsi : samples ≤ i := by omega
      have hback : i - samples + 1 = (i + 1) - samples := by omega
      have hjlt : j < stride := by omega
      have hmod : i % stride = j := by
        rw [← hi, Nat.mul_add_mod]; exact Nat.mod_eq_of_lt hjlt
      have hinv2 : RdInv inp (buf.set i ((buf.getD i 0 + buf.getD (i - samples) 0) % 256))
          stride samples (i + 1) := by
        refine ⟨by simp [hinv.len], ?_, ?_⟩
        · intro p hp
          unfold RdSpecAt
          by_cases hpi : p = i
          · subst hpi
            rw [getD_set_eq _ _ _ _ hil, getD_set_ne _ _ _ _ _ (by omega)]
            rw [hmod, if_neg (by omega), hinv.rest p (le_refl _)]
          · have hp2 : p < i := by omega
            rw [getD_set_ne _ _ _ _ _ (Ne.symm hpi), getD_set_ne _ _ _ _ _ (by omega)]
            exact hinv.done p hp2
        · intro p hp
          rw [getD_set_ne _ _ _ _ _ (by omega)]
          exact hinv.rest p (by omega)
      have := ih _ (i + 1) r (j + 1) (by omega) (by omega) (by omega) (by omega) hinv2
      rw [hback]
      obtain ⟨h1, h2, h3, h4⟩ := this
      exact ⟨h1, h2, by omega, h4⟩
    · simp only [rdInner, hlt, if_false]
      exact ⟨hinv, hle, le_refl _, Or.inr (by omega)⟩

theorem rdInv_skip (inp buf : List Nat) (stride samples i k r : Nat)
    (hi : i = stride * r) (hk : k ≤ samples) (hst : samples ≤ stride)
    (hinv : RdInv inp buf stride samples i) : RdInv inp buf stride samples (i + k) := by
  refine ⟨hinv.len, ?_, fun p hp => hinv.rest p (by omega)⟩
  intro p hp
  by_cases hpi : p < i
  · exact hinv.done p hpi
  · unfold RdSpecAt
    have hd : p = stride * r + (p - i) := by omega
    have hmod : p % stride = p - i := by
      rw [hd, Nat.mul_add_mod, Nat.mod_eq_of_lt (by omega)]; omega
    rw [hmod, if_pos (by omega)]
    exact hinv.rest p (by omega)

theorem rdOuter_inv (inp : List Nat) (stride samples : Nat) (hs : 1 ≤ samples)
    (hst : samples ≤ stride) (hlen : inp.length + samples < U32) :
    ∀ fuel buf i, ((∃ r, i = stride * r) ∨ i = inp.length) → i ≤ inp.length →
      inp.length - i < fuel → RdInv inp buf stride samples i →
      ∃ out, rdOuter inp.length stride samples fuel buf i = some out ∧
        RdInv inp out stride samples inp.length := by
  intro fuel
  induction fuel with
  | zero => intro buf i _ _ h; omega
  | succ fuel ih =>
    intro buf i hrow hle hfuel hinv
    have hmod : (i + samples) % U32 = i + samples := Nat.mod_eq_of_lt (by omega)
    simp only [rdOuter, hmod]
    by_cases hg : i + samples < inp.length
    · simp only [hg, if_true]
      rcases hrow with ⟨r, hr⟩ | hr
      · have hinv2 := rdInv_skip inp buf stride samples i samples r hr (le_refl _) hst hinv
        have hin := rdInner_inv inp stride samples hs (stride - samples) buf (i + samples) r
          samples (by omega) (le_refl _) (by omega) (by omega) hinv2
        have hb : i + samples - samples = i := by omega
        rw [hb] at hin
        obtain ⟨h1, h2, h3, h4⟩ := hin
        refine ih _ _ ?_ h2 (by omega) h1
        rcases h4 with h4 | h4
        · exact Or.inl ⟨r + 1, h4⟩
        · exact Or.inr h4
      · omega
    · simp only [hg, if_false]
      refine ⟨buf, rfl, ?_⟩
      rcases hrow with ⟨r, hr⟩ | hr
      · have := rdInv_skip inp buf stride samples i (inp.length - i) r hr (by omega) hst hinv
        have hb : i + (inp.length - i) = inp.length := by omega
        rw [hb] at this
        exact this
      · rw [← hr]; exact hinv

theorem rdInv_init (inp : List Nat) (stride samples : Nat) :
    RdInv inp inp stride samples 0 :=
  ⟨rfl, fun p hp => by omega, fun _ _ => rfl⟩

theorem rdOuter_mono (len stride samples : Nat) :
    ∀ fuel fuel2 buf i out, fuel ≤ fuel2 →
      rdOuter len stride samples fuel buf i = some out →
      rdOuter len stride samples fuel2 buf i = some out := by
  intro fuel
  induction fuel with
  | zero => intro fuel2 buf i out _ h; simp [rdOuter] at h
  | succ fuel ih =>
    intro fuel2 buf i out hle h
    obtain ⟨f2, rfl⟩ : ∃ f2, fuel2 = f2 + 1 := ⟨fuel2 - 1, by omega⟩
    simp only [rdOuter] at h ⊢
    split
    · rename_i hg
      rw [if_pos hg] at h
      exact ih _ _ _ _ (by omega) h
    · rename_i hg
      rw [if_neg hg] at h
      exact h

/-- C4.  For a buffer of any length below `2^31`, a trailing partial row
included, and `stride ≥ samples ≥ 1`, `reverse_differencing` returns, keeps the
length, leaves the first `samples` bytes of every row of `stride` bytes as they
are, and makes every other byte the sum modulo 256 of its input byte and the
output byte `samples` places before it. -/
theorem reverse_differencing_spec (buf : List Nat) (stride samples : Nat)
    (hlen : buf.length < 2147483648) (hs : 1 ≤ samples) (hst : samples ≤ stride)
    (hsu : stride < U32) :
    ∃ out, (∀ fuel, buf.length < fuel →
        reverse_differencing fuel buf buf.length stride samples = some out) ∧
      out.length = buf.length ∧
      ∀ p, p < buf.length →
        out.getD p 0 =
          if p % stride < samples then buf.getD p 0
          else (buf.getD p 0 + out.getD (p - samples) 0) % 256 := by
  by_cases hsl : samples < buf.length
  · have hl : buf.length + samples < U32 := by unfold U32; omega
    obtain ⟨out, hrun, hinv⟩ := rdOuter_inv buf stride samples hs hst hl (buf.length + 1) buf 0
      (Or.inl ⟨0, by simp⟩) (Nat.zero_le _) (by omega) (rdInv_init _ _ _)
    refine ⟨out, ?_, hinv.len, fun p hp => hinv.done p hp⟩
    intro fuel hf
    exact rdOuter_mono _ _ _ _ _ _ _ _ (by omega) hrun
  · refine ⟨buf, ?_, rfl, ?_⟩
    · intro fuel hf
      obtain ⟨f, rfl⟩ : ∃ f, fuel = f + 1 := ⟨fuel - 1, by omega⟩
      have hmod : (0 + samples) % U32 = samples := by
        rw [Nat.zero_add]; exact Nat.mod_eq_of_lt (by omega)
      simp only [reverse_differencing, rdOuter, hmod, if_neg hsl]
    · intro p hp
      have : p % stride = p := Nat.mod_eq_of_lt (by omega)
      rw [this, if_pos (by omega)]

theorem getD_diffEncode (X : List Nat) (stride samples p : Nat) (hp : p < X.length) :
    (diffEncode X stride samples).getD p 0 =
      if p % stride < samples then X.getD p 0
      else (X.getD p 0 + 256 - X.getD (p - samples) 0 % 256) % 256 := by
  simp [diffEncode, List.getD_eq_getElem?_getD, List.getElem?_map, List.getElem?_range, hp]

theorem length_diffEncode (X : List Nat) (stride samples : Nat) :
    (diffEncode X stride samples).length = X.length := by
  simp [diffEncode]

theorem list_eq_of_getD (a b : List Nat) (hl : a.length = b.length)
    (h : ∀ p, p < b.length → a.getD p 0 = b.getD p 0) : a = b := by
  apply List.ext_getElem hl
  intro n h1 h2
  have := h n h2
  simpa [List.getD_eq_getElem?_getD, List.getElem?_eq_getElem h1, List.getElem?_eq_getElem h2]
    using this

theorem diffEncode_noop (X : List Nat) (stride samples : Nat) (h1 : 1 ≤ stride)
    (h : stride ≤ samples) : diffEncode X stride samples = X := by
  apply list_eq_of_getD _ _ (length_diffEncode _ _ _)
  intro p hp
  rw [getD_diffEncode _ _ _ _ hp, if_pos]
  exact lt_of_lt_of_le (Nat.mod_lt _ (by omega)) h

theorem rdOuter_noop (len stride samples : Nat) (hs : 1 ≤ samples) (h : stride ≤ samples)
    (hlen : len + samples < U32) :
    ∀ fuel buf i, i ≤ len → len - i < fuel →
      rdOuter len stride samples fuel buf i = some buf := by
  intro fuel
  induction fuel with
  | zero => intro buf i _ h; omega
  | succ fuel ih =>
    intro buf i hle hf
    have hmod : (i + samples) % U32 = i + samples := Nat.mod_eq_of_lt (by omega)
    have h0 : stride - samples = 0 := by omega
    simp only [rdOuter, hmod, h0, rdInner]
    split
    · exact ih _ _ (by omega) (by omega)
    · rfl

/-- C3, as amended.  For `samples ≥ 1`, `stride ≥ 1` and a byte buffer `X` whose
length is a multiple of `stride` and satisfies `|X| + samples < 2^32`:
`reverse_differencing` applied to the horizontal differencing of `X` returns
and leaves the buffer equal to `X`.  (The multiple-of-`stride` hypothesis is not
used.) -/
theorem reverse_differencing_roundtrip (X : List Nat) (stride samples : Nat)
    (hs : 1 ≤ samples) (h1 : 1 ≤ stride)
    (hbytes : ∀ b ∈ X, b < 256) (_hrows : stride ∣ X.length)
    (hlen : X.length + samples < U32) :
    ∀ fuel, X.length < fuel →
      reverse_differencing fuel (diffEncode X stride samples)
        (diffEncode X stride samples).length stride samples = some X := by
  intro fuel hf
  rw [length_diffEncode]
  by_cases hst : stride ≤ samples
  · rw [diffEncode_noop X stride samples h1 hst]
    exact rdOuter_noop _ _ _ hs hst hlen _ _ _ (Nat.zero_le _) (by omega)
  · have hst2 : samples ≤ stride := by omega
    have hl : (diffEncode X stride samples).length + samples < U32 := by
      rw [length_diffEncode]; exact hlen
    obtain ⟨out, hrun, hinv⟩ := rdOuter_inv (diffEncode X stride samples) stride samples hs hst2
      hl fuel (diffEncode X stride samples) 0 (Or.inl ⟨0, by simp⟩) (Nat.zero_le _)
      (by rw [length_diffEncode]; omega) (rdInv_init _ _ _)
    rw [length_diffEncode] at hrun hinv
    have hout : out = X := by
      apply list_eq_of_getD _ _ (by rw [hinv.len, length_diffEncode])
      intro p
      induction p using Nat.strong_induction_on with
      | _ p ih =>
        intro hp
        have hb : ∀ q, q < X.length → X.getD q 0 < 256 := by
          intro q hq
          rw [List.getD_eq_getElem?_getD, List.getElem?_eq_getElem hq]
          exact hbytes _ (List.getElem_mem _)
        have hd := hinv.done p hp
        unfold RdSpecAt at hd
        rw [hd, getD_diffEncode _ _ _ _ hp]
        by_cases hc : p % stride < samples
        · simp only [hc, if_true]
        · simp only [hc, if_false]
          have hsp : samples ≤ p := by
            have := Nat.mod_le p stride
            omega
          rw [ih (p - samples) (by omega) (by omega)]
          have ha := hb p hp
          have hb2 := hb (p - samples) (by omega)
          rw [Nat.mod_eq_of_lt hb2]
          omega
    rw [hout] at hrun
    exact hrun

/-- C3 fails as stated: for the buffer of `2^31 + 1` zero bytes with `stride = 1`
and `samples = 2^31`, the `u32` sum `i + samples` wraps to 0 on every second
pass, and `reverse_differencing` never returns. -/
theorem reverse_differencing_roundtrip_wraps :
    ¬ ∃ fuel out, reverse_differencing fuel
        (diffEncode (List.replicate 2147483649 0) 1 2147483648)
        (diffEncode (List.replicate 2147483649 0) 1 2147483648).length 1 2147483648
          = some out := by
  rintro ⟨fuel, out, h⟩
  rw [length_diffEncode, List.length_replicate] at h
  have key : ∀ fuel buf i, (i = 0 ∨ i = 2147483648) →
      rdOuter 2147483649 1 2147483648 fuel buf i = none := by
    intro fuel
    induction fuel with
    | zero => intro buf i _; rfl
    | succ fuel ih =>
      intro buf i hi
      rcases hi with rfl | rfl
      · simp only [rdOuter]
        have : (0 + 2147483648) % U32 = 2147483648 := by decide
        rw [this]
        simp only [show (2147483648 : Nat) < 2147483649 by decide, if_true,
          show (1 : Nat) - 2147483648 = 0 by decide, rdInner]
        exact ih _ _ (Or.inr rfl)
      · simp only [rdOuter]
        have : (2147483648 + 2147483648) % U32 = 0 := by decide
        rw [this]
        simp only [show (0 : Nat) < 2147483649 by decide, if_true,
          show (1 : Nat) - 2147483648 = 0 by decide, rdInner]
        exact ih _ _ (Or.inl rfl)
  rw [reverse_differencing, key fuel _ 0 (Or.inl rfl)] at h
  exact Option.noConfusion h

/-- C4 at the row 10, 3, 3, 3 with `stride = 4` and `samples = 1`. -/
theorem reverse_differencing_spec_witness :
    ∃ out, (∀ fuel, [10, 3, 3, 3].length < fuel →
        reverse_differencing fuel [10, 3, 3, 3] [10, 3, 3, 3].length 4 1 = some out) ∧
      out.length = [10, 3, 3, 3].length ∧
      ∀ p, p < [10, 3, 3, 3].length →
        out.getD p 0 =
          if p % 4 < 1 then [10, 3, 3, 3].getD p 0
          else ([10, 3, 3, 3].getD p 0 + out.getD (p - 1) 0) % 256 :=
  reverse_differencing_spec [10, 3, 3, 3] 4 1 (by decide) (by decide) (by decide) (by decide)

/-- The amended C3 at the row 10, 13, 16, 19. -/
theorem reverse_differencing_roundtrip_witness :
    reverse_differencing 5 (diffEncode [10, 13, 16, 19] 4 1)
      (diffEncode [10, 13, 16, 19] 4 1).length 4 1 = some [10, 13, 16, 19] :=
  reverse_differencing_roundtrip [10, 13, 16, 19] 4 1 (by decide) (by decide) (by decide)
    ⟨1, rfl⟩ (by decide) 5 (by decide)

/-! ## The bit reader -/

theorem length_bitsMSB (w c : Nat) : (bitsMSB w c).length = w := by
  induction w with
  | zero => rfl
  | succ w ih => simp [bitsMSB, ih]

theorem bitsVal_foldl (bs : List Bool) (a : Nat) :
    bs.foldl (fun a b => 2 * a + b.toNat) a = a * 2 ^ bs.length + bitsVal bs := by
  induction bs generalizing a with
  | nil => simp [bitsVal]
  | cons b bs ih =>
    simp only [List.foldl_cons, List.length_cons, bitsVal]
    rw [ih (2 * a + b.toNat), ih (2 * 0 + b.toNat)]
    ring

theorem bitsVal_append (a b : List Bool) :
    bitsVal (a ++ b) = bitsVal a * 2 ^ b.length + bitsVal b := by
  unfold bitsVal
  rw [List.foldl_append, bitsVal_foldl]
  rfl

theorem bitsVal_cons (b : Bool) (bs : List Bool) :
    bitsVal (b :: bs) = b.toNat * 2 ^ bs.length + bitsVal bs := by
  have := bitsVal_append [b] bs
  simpa [bitsVal] using this

theorem bitsVal_lt (bs : List Bool) : bitsVal bs < 2 ^ bs.length := by
  induction bs with
  | nil => simp [bitsVal]
  | cons b bs ih =>
    rw [bitsVal_cons, List.length_cons, pow_succ]
    have : b.toNat ≤ 1 := by cases b <;> simp
    nlinarith

theorem bitsVal_bitsMSB (w c : Nat) : bitsVal (bitsMSB w c) = c % 2 ^ w := by
  induction w with
  | zero => simp [bitsMSB, bitsVal, Nat.mod_one]
  | succ w ih =>
    rw [bitsMSB, bitsVal_cons, ih, length_bitsMSB, Nat.mod_pow_succ, Nat.toNat_testBit]
    ring

theorem byte_bits_aux : ∀ b, b < 256 → ∀ off, off < 8 → ∀ take, take < 9 → off + take ≤ 8 →
    (b >>> (8 - off - take)) &&& ((1 <<< take) - 1)
      = bitsVal (((bitsMSB 8 b).drop off).take take) := by
  decide!

theorem remBits_cons (b : Nat) (tl : List Nat) (off : Nat) (h : off ≤ 8) :
    remBits (b :: tl) off = (bitsMSB 8 b).drop off ++ bytesToBits tl := by
  unfold remBits bytesToBits
  rw [List.flatMap_cons, List.drop_append_of_le_length]
  rw [length_bitsMSB]; exact h

theorem remBits_zero (inp : List Nat) : remBits inp 0 = bytesToBits inp := rfl

theorem readBits_done (n code len off : Nat) (inp : List Nat) :
    readBits n code 0 inp len off = some (code, 0, inp, len, off) := by
  cases n <;> simp [readBits]

/-- Reading `need` bits: the code grows by the bits read, and the reader is
left at the first bit after them. -/
theorem readBits_spec : ∀ n code need inp off bs rest, need ≤ n → off < 8 →
    (∀ b ∈ inp, b < 256) → remBits inp off = bs ++ rest → bs.length = need →
    (code + 1) * 2 ^ need ≤ U32 →
    ∃ inp1 off1, readBits n code need inp inp.length off
        = some (code * 2 ^ need + bitsVal bs, 0, inp1, inp1.length, off1) ∧
      off1 < 8 ∧ (∀ b ∈ inp1, b < 256) ∧ remBits inp1 off1 = rest := by
  intro n
  induction n with
  | zero =>
    intro code need inp off bs rest hn hoff hb hrem hlen _
    have h0 : need = 0 := by omega
    subst h0
    have hbs : bs = [] := List.length_eq_zero.mp hlen
    subst hbs
    exact ⟨inp, off, by simp [readBits, bitsVal], hoff, hb, by simpa using hrem⟩
  | succ n ih =>
    intro code need inp off bs rest hn hoff hb hrem hlen hcode
    by_cases h0 : need = 0
    · subst h0
      have hbs : bs = [] := List.length_eq_zero.mp hlen
      subst hbs
      exact ⟨inp, off, by simp [readBits, bitsVal], hoff, hb, by simpa using hrem⟩
    · cases inp with
      | nil =>
        exfalso
        have : (remBits [] off).length = 0 := by simp [remBits, bytesToBits]
        rw [hrem, List.length_append] at this
        omega
      | cons b tl =>
        have hb256 : b < 256 := hb b (List.mem_cons_self _ _)
        have htl : ∀ x ∈ tl, x < 256 := fun x hx => hb x (List.mem_cons_of_mem _ hx)
        have hrem0 := hrem
        rw [remBits_cons b tl off (by omega)] at hrem
        have hpos : 0 < need ∧ 0 < (b :: tl).length := ⟨by omega, by simp⟩
        obtain ⟨t, htake, ht1, ht2, ht3⟩ : ∃ t, (if need > 8 - off then 8 - off else need) = t ∧
            t ≤ need ∧ t ≤ 8 - off ∧ 0 < t := by
          by_cases hc : need > 8 - off
          · exact ⟨8 - off, by simp [hc], by omega, le_refl _, by omega⟩
          · exact ⟨need, by simp [hc], le_refl _, by omega, by omega⟩
        have hshift : (if t < 8 - off then 8 - off - t else 0) = 8 - off - t := by
          split <;> omega
        simp only [readBits, hpos, and_self, if_true, htake, hshift]
        have hsplit : bs = bs.take t ++ bs.drop t := (List.take_append_drop _ _).symm
        have hdl : ((bitsMSB 8 b).drop off).length = 8 - off := by
          rw [List.length_drop, length_bitsMSB]
        have htk : bs.take t = ((bitsMSB 8 b).drop off).take t := by
          have := congrArg (List.take t) hrem
          rw [List.take_append_of_le_length (by omega),
            List.take_append_of_le_length (by omega)] at this
          exact this.symm
        have hdr : ((bitsMSB 8 b).drop off).drop t ++ bytesToBits tl = bs.drop t ++ rest := by
          have := congrArg (List.drop t) hrem
          rw [List.drop_append_of_le_length (by omega),
            List.drop_append_of_le_length (by omega)] at this
          exact this
        have hv : (b >>> (8 - off - t)) &&& ((1 <<< t) - 1) = bitsVal (bs.take t) := by
          rw [htk]; exact byte_bits_aux b hb256 off hoff t (by omega) (by omega)
        have hlt : bitsVal (bs.take t) < 2 ^ t := by
          have := bitsVal_lt (bs.take t)
          rwa [List.length_take, hlen, Nat.min_eq_left ht1] at this
        have hpow : (2:Nat) ^ need = 2 ^ t * 2 ^ (need - t) := by
          rw [← pow_add]; congr 1; omega
        have hp2 : 0 < 2 ^ (need - t) := Nat.two_pow_pos _
        have hc1 : code * 2 ^ t < U32 := by
          calc code * 2 ^ t ≤ code * 2 ^ t * 2 ^ (need - t) := Nat.le_mul_of_pos_right _ hp2
            _ = code * 2 ^ need := by rw [hpow]; ring
            _ < (code + 1) * 2 ^ need := by
              have := Nat.two_pow_pos need
              nlinarith
            _ ≤ U32 := hcode
        have hcode1 : ((code <<< t) % U32) ||| ((b >>> (8 - off - t)) &&& ((1 <<< t) - 1))
            = code * 2 ^ t + bitsVal (bs.take t) := by
          rw [hv, Nat.shiftLeft_eq, Nat.mod_eq_of_lt hc1, Nat.mul_comm code,
            ← Nat.mul_add_lt_is_or hlt]
        rw [hcode1]
        have hval : (code * 2 ^ t + bitsVal (bs.take t)) * 2 ^ (need - t) + bitsVal (bs.drop t)
            = code * 2 ^ need + bitsVal bs := by
          conv_rhs => rw [hsplit, bitsVal_append, List.length_drop, hlen, hpow]
          ring
        have hbound : (code * 2 ^ t + bitsVal (bs.take t) + 1) * 2 ^ (need - t) ≤ U32 := by
          have h1 : code * 2 ^ t + bitsVal (bs.take t) + 1 ≤ (code + 1) * 2 ^ t := by
            rw [Nat.add_mul]; omega
          calc (code * 2 ^ t + bitsVal (bs.take t) + 1) * 2 ^ (need - t)
              ≤ (code + 1) * 2 ^ t * 2 ^ (need - t) := Nat.mul_le_mul_right _ h1
            _ = (code + 1) * 2 ^ need := by rw [hpow]; ring
            _ ≤ U32 := hcode
        by_cases hge : off + t ≥ 8
        · simp only [hge, if_true]
          have ht8 : t = 8 - off := by omega
          have hrest : remBits tl 0 = bs.drop t ++ rest := by
            rw [remBits_zero, ← hdr, ht8, List.drop_of_length_le (by omega), List.nil_append]
          obtain ⟨inp1, off1, hr, h1, h2, h3⟩ := ih (code * 2 ^ t + bitsVal (bs.take t))
            (need - t) tl 0 (bs.drop t) rest (by omega) (by decide) htl hrest
            (by rw [List.length_drop]; omega) hbound
          refine ⟨inp1, off1, ?_, h1, h2, h3⟩
          simp only [List.length_cons, Nat.add_sub_cancel]
          rw [hr, hval]
        · simp only [hge, if_false]
          have htn : t = need := by
            by_cases hc : need > 8 - off
            · simp [hc] at htake; omega
            · simp [hc] at htake; omega
          have hrest : remBits (b :: tl) (off + t) = bs.drop t ++ rest := by
            rw [remBits_cons b tl (off + t) (by omega), ← hdr, List.drop_drop]
          obtain ⟨inp1, off1, hr, h1, h2, h3⟩ := ih (code * 2 ^ t + bitsVal (bs.take t))
            (need - t) (b :: tl) (off + t) (bs.drop t) rest (by omega) (by omega) hb hrest
            (by rw [List.length_drop]; omega) hbound
          refine ⟨inp1, off1, ?_, h1, h2, h3⟩
          rw [hr, hval]

/-! ## The dictionary table -/

theorem write_same (m : Cells) (i v : Nat) : m.write i v i = some v := by
  simp [Cells.write]

theorem write_other (m : Cells) (i v j : Nat) (h : j ≠ i) : m.write i v j = m j := by
  simp [Cells.write, h]

theorem getD_append_left (w : List Nat) (b j : Nat) (h : j < w.length) :
    (w ++ [b]).getD j 0 = w.getD j 0 := by
  simp [List.getD_eq_getElem?_getD, List.getElem?_append_left h]

theorem getD_append_last (w : List Nat) (b : Nat) : (w ++ [b]).getD w.length 0 = b := by
  simp [List.getD_eq_getElem?_getD]

theorem emitLoop_spec (data : Cells) : ∀ (w : List Nat) (p : Nat) (dst : List Nat),
    (∀ j, j < w.length → data (p + j) = some (w.getD j 0)) →
    emitLoop w.length data p dst = some (dst ++ w) := by
  intro w
  induction w with
  | nil => intro p dst _; simp [emitLoop]
  | cons x w ih =>
    intro p dst h
    have h0 := h 0 (by simp)
    simp only [Nat.add_zero, List.getD_cons_zero] at h0
    simp only [List.length_cons, emitLoop, h0]
    rw [ih (p + 1) (dst ++ [x])]
    · simp
    · intro j hj
      have := h (j + 1) (by simp; omega)
      simpa [Nat.add_assoc, Nat.add_comm 1 j] using this

theorem emitLoopChecked_spec (dst_size : Nat) (data : Cells) :
    ∀ (w : List Nat) (p : Nat) (dst : List Nat),
    (∀ j, j < w.length → data (p + j) = some (w.getD j 0)) →
    dst.length + w.length < U32 →
    emitLoopChecked dst_size w.length data p dst
      = some (dst ++ w.take (dst_size - dst.length)) := by
  intro w
  induction w with
  | nil => intro p dst _ _; simp [emitLoopChecked]
  | cons x w ih =>
    intro p dst h hlen
    have h0 := h 0 (by simp)
    simp only [Nat.add_zero, List.getD_cons_zero] at h0
    have hnext : ∀ j, j < w.length → data (p + 1 + j) = some (w.getD j 0) := by
      intro j hj
      have := h (j + 1) (by simp; omega)
      simpa [Nat.add_assoc, Nat.add_comm 1 j] using this
    simp only [List.length_cons] at hlen
    have hmod : dst.length % U32 = dst.length := Nat.mod_eq_of_lt (by omega)
    simp only [List.length_cons, emitLoopChecked, hmod]
    by_cases hc : dst.length < dst_size
    · simp only [hc, if_true, h0]
      rw [ih (p + 1) (dst ++ [x]) hnext (by simp; omega)]
      obtain ⟨k, hk⟩ : ∃ k, dst_size - dst.length = k + 1 := ⟨dst_size - dst.length - 1, by omega⟩
      have hk2 : dst_size - (dst ++ [x]).length = k := by simp; omega
      rw [hk, hk2]
      simp
    · simp only [hc, if_false]
      rw [ih (p + 1) dst hnext (by omega)]
      have : dst_size - dst.length = 0 := by omega
      simp [this]

theorem copyLoop_spec : ∀ (w : List Nat) (data : Cells) (p tp : Nat),
    (∀ j, j < w.length → data (p + j) = some (w.getD j 0)) →
    p + w.length ≤ tp → tp + w.length ≤ 60000 →
    ∃ data1, copyLoop w.length data p tp = some (data1, tp + w.length) ∧
      (∀ a, a < tp → data1 a = data a) ∧
      (∀ j, j < w.length → data1 (tp + j) = some (w.getD j 0)) := by
  intro w
  induction w with
  | nil => intro data p tp _ _ _; exact ⟨data, by simp [copyLoop], fun _ _ => rfl, by simp⟩
  | cons x w ih =>
    intro data p tp h hsrc hcap
    simp only [List.length_cons] at hsrc hcap
    have h0 := h 0 (by simp)
    simp only [Nat.add_zero, List.getD_cons_zero] at h0
    have htp : tp < 60000 := by omega
    simp only [List.length_cons, copyLoop, h0, htp, if_true]
    obtain ⟨data1, hrun, hlow, hnew⟩ := ih (data.write tp x) (p + 1) (tp + 1)
      (by
        intro j hj
        rw [write_other _ _ _ _ (by omega)]
        have := h (j + 1) (by simp; omega)
        simpa [Nat.add_assoc, Nat.add_comm 1 j] using this)
      (by omega) (by omega)
    refine ⟨data1, ?_, ?_, ?_⟩
    · rw [hrun]; congr 2; omega
    · intro a ha
      rw [hlow a (by omega), write_other _ _ _ _ (by omega)]
    · intro j hj
      cases j with
      | zero =>
        rw [Nat.add_zero, hlow tp (by omega), write_same]
        simp
      | succ j =>
        have := hnew j (by simp at hj; omega)
        simpa [Nat.add_assoc, Nat.add_comm 1 j] using this

/-- Adding an entry: the new code holds the old string followed by the first
byte of the source string, and every other entry stays as it was. -/
theorem learn_spec (s : LzwState) (src : Nat) (w v : List Nat)
    (hold : HasEntry s s.old_code w) (hsrc : HasEntry s src v) (hv : 0 < v.length)
    (hw : w.length ≤ 254) (hcount : s.table_count < 4096)
    (ho : s.old_code ≠ s.table_count) (hs : src ≠ s.table_count)
    (hcap : s.table_ptr + w.length + 2 ≤ 60000) :
    ∃ s1, learn s src = some s1 ∧ s1.table_count = s.table_count + 1 ∧
      s1.table_ptr = s.table_ptr + w.length + 2 ∧
      HasEntry s1 s.table_count (w ++ [v.getD 0 0]) ∧
      (∀ c u, c ≠ s.table_count → HasEntry s c u → HasEntry s1 c u) ∧
      s1.old_code = s.old_code ∧ s1.read_state = s.read_state ∧ s1.inp = s.inp ∧
      s1.len = s.len ∧ s1.bit_offset = s.bit_offset ∧ s1.dst = s.dst := by
  obtain ⟨p, hp, hpl, hpc, hpb⟩ := hold
  obtain ⟨q, hq, hql, hqc, hqb⟩ := hsrc
  have hq0 := hqc 0 hv
  simp only [Nat.add_zero] at hq0
  have hptr : s.table_ptr < 60000 := by omega
  obtain ⟨data2, hrun, hlow, hnew⟩ := copyLoop_spec w
    (s.table_data.write s.table_ptr ((w.length + 1) % 256)) (p + 1) (s.table_ptr + 1)
    (by
      intro j hj
      rw [write_other _ _ _ _ (by omega)]
      exact hpc j hj)
    (by omega) (by omega)
  have hmod : (w.length + 1) % 256 = w.length + 1 := Nat.mod_eq_of_lt (by omega)
  have hd2q : data2 (q + 1) = some (v.getD 0 0) := by
    rw [hlow _ (by omega), write_other _ _ _ _ (by omega)]
    exact hq0
  have hcm : (s.table_count + 1) % U32 = s.table_count + 1 :=
    Nat.mod_eq_of_lt (by unfold U32; omega)
  refine ⟨{ s with
      table_ix := s.table_ix.write s.table_count s.table_ptr
      table_count := s.table_count + 1
      table_data := data2.write (s.table_ptr + 1 + w.length) (v.getD 0 0)
      table_ptr := s.table_ptr + 1 + w.length + 1 }, ?_, rfl, by simp only; omega, ?_, ?_,
    rfl, rfl, rfl, rfl, rfl, rfl⟩
  · simp only [learn, hcount, if_true, write_other _ _ _ _ ho, hp, hpl, hptr,
      write_other _ _ _ _ (show p ≠ s.table_ptr by omega), hrun, write_other _ _ _ _ hs, hq,
      hd2q, show s.table_ptr + 1 + w.length < 60000 by omega, hcm]
  · refine ⟨s.table_ptr, by simp [write_same], ?_, ?_, by simp; omega⟩
    · simp only
      rw [write_other _ _ _ _ (by omega), hlow _ (by omega), write_same, hmod]
      simp
    · intro j hj
      simp only
      by_cases hjw : j < w.length
      · rw [write_other _ _ _ _ (by omega), hnew j hjw]
        rw [getD_append_left _ _ _ hjw]
      · have hje : j = w.length := by simp at hj; omega
        subst hje
        rw [write_same, getD_append_last]
  · intro c u hc ⟨r, hr, hrl, hrc, hrb⟩
    have hframe : ∀ a, a < s.table_ptr →
        (data2.write (s.table_ptr + 1 + w.length) (v.getD 0 0)) a = s.table_data a := by
      intro a ha
      rw [write_other _ _ _ _ (by omega), hlow _ (by omega), write_other _ _ _ _ (by omega)]
    refine ⟨r, by simp only; rw [write_other _ _ _ _ hc]; exact hr, ?_, ?_, by simp only; omega⟩
    · simp only; rw [hframe _ (by omega)]; exact hrl
    · intro j hj
      simp only; rw [hframe _ (by omega)]; exact hrc j hj

/-- State of the loop of CLEAR after `n` literals. -/
theorem clear_fold (s : LzwState) : ∀ n,
    (clearFold n s).table_ptr = 2 * n ∧
      (∀ c, c < n → (clearFold n s).table_ix c = some (2 * c) ∧
        (clearFold n s).table_data (2 * c) = some 1 ∧
        (clearFold n s).table_data (2 * c + 1) = some c) ∧
      (clearFold n s).old_code = s.old_code ∧ (clearFold n s).inp = s.inp ∧
      (clearFold n s).len = s.len ∧ (clearFold n s).bit_offset = s.bit_offset ∧
      (clearFold n s).dst = s.dst := by
  intro n
  induction n with
  | zero => exact ⟨rfl, fun c hc => by omega, rfl, rfl, rfl, rfl, rfl⟩
  | succ n ih =>
    have hstep : clearFold (n + 1) s = clearStep (clearFold n s) n := by
      simp only [clearFold, List.range_succ, List.foldl_append, List.foldl_cons, List.foldl_nil]
    rw [hstep]
    obtain ⟨h1, h2, h3, h4, h5, h6, h7⟩ := ih
    refine ⟨by simp only [clearStep]; omega, ?_, h3, h4, h5, h6, h7⟩
    intro c hc
    simp only [clearStep]
    by_cases hcn : c = n
    · subst hcn
      simp only [h1]
      refine ⟨write_same _ _ _, ?_, write_same _ _ _⟩
      rw [write_other _ _ _ _ (by omega), write_same]
    · have hlt : c < n := by omega
      obtain ⟨a1, a2, a3⟩ := h2 c hlt
      simp only [h1]
      refine ⟨?_, ?_, ?_⟩
      · rw [write_other _ _ _ _ hcn]; exact a1
      · rw [write_other _ _ _ _ (by omega), write_other _ _ _ _ (by omega)]; exact a2
      · rw [write_other _ _ _ _ (by omega), write_other _ _ _ _ (by omega)]; exact a3

/-- After CLEAR the decoder stands for the specification's `AfterClear` state
with an empty dictionary. -/
theorem clearTable_sim (s : LzwState) :
    Sim (clearTable s) [] none s.dst ∧ (clearTable s).inp = s.inp ∧
      (clearTable s).len = s.len ∧ (clearTable s).bit_offset = s.bit_offset := by
  obtain ⟨h1, h2, _, h4, h5, h6, h7⟩ := clear_fold s 256
  have hptr : (clearTable s).table_ptr = 512 := by
    simp only [clearTable]; rw [h1]
  refine ⟨⟨by simp only [clearTable]; rfl, ?_, ?_, ?_, by simp only [clearTable],
    by simp only [clearTable]; exact h7⟩, by simp only [clearTable]; exact h4,
    by simp only [clearTable]; exact h5, by simp only [clearTable]; exact h6⟩
  · intro c w hcw
    unfold specEntry at hcw
    by_cases hc : c < 256
    · simp only [hc, if_true, Option.some.injEq] at hcw
      subst hcw
      obtain ⟨a1, a2, a3⟩ := h2 c hc
      refine ⟨2 * c, by simp only [clearTable]; exact a1, by simp only [clearTable]; exact a2,
        ?_, ?_⟩
      · intro j hj
        have : j = 0 := by simpa using hj
        subst this
        simp only [clearTable]
        simpa using a3
      · rw [hptr]; simp; omega
    · simp [hc] at hcw
  · intro k w hk; simp at hk
  · rw [hptr]; simp

/-! ## The decoder against the specification's state machine -/

theorem specEntry_cases (dict : List (List Nat)) (c : Nat) (w : List Nat)
    (h : specEntry dict c = some w) :
    (c < 256 ∧ w = [c]) ∨ (258 ≤ c ∧ c < 258 + dict.length ∧ dict[c - 258]? = some w) := by
  unfold specEntry at h
  by_cases h1 : c < 256
  · simp only [h1, if_true, Option.some.injEq] at h
    exact Or.inl ⟨h1, h.symm⟩
  · by_cases h2 : 258 ≤ c
    · simp only [h1, h2, if_true, if_false] at h
      have hlt : c - 258 < dict.length := by
        by_contra hc
        rw [List.getElem?_eq_none (by omega)] at h
        exact Option.noConfusion h
      exact Or.inr ⟨h2, by omega, h⟩
    · simp [h1, h2] at h

theorem specEntry_append (dict : List (List Nat)) (l : List Nat) (c : Nat) (w : List Nat)
    (h : specEntry dict c = some w) : specEntry (dict ++ [l]) c = some w := by
  rcases specEntry_cases dict c w h with ⟨h1, h2⟩ | ⟨h1, h2, h3⟩
  · simp [specEntry, h1, h2]
  · have : ¬ c < 256 := by omega
    simp only [specEntry, this, h1, if_true, if_false]
    rw [List.getElem?_append_left (by omega)]
    exact h3

theorem specEntry_new (dict : List (List Nat)) (l : List Nat) :
    specEntry (dict ++ [l]) (258 + dict.length) = some l := by
  have h1 : ¬ 258 + dict.length < 256 := by omega
  have h2 : 258 ≤ 258 + dict.length := by omega
  simp only [specEntry, h1, h2, if_true, if_false]
  simp

theorem specEntry_append_inv (dict : List (List Nat)) (l : List Nat) (c : Nat) (w : List Nat)
    (h : specEntry (dict ++ [l]) c = some w) (hc : c ≠ 258 + dict.length) :
    specEntry dict c = some w := by
  rcases specEntry_cases _ c w h with ⟨h1, h2⟩ | ⟨h1, h2, h3⟩
  · simp [specEntry, h1, h2]
  · have : ¬ c < 256 := by omega
    simp only [List.length_append, List.length_singleton] at h2
    simp only [specEntry, this, h1, if_true, if_false]
    rw [List.getElem?_append_left (by omega)] at h3
    exact h3

theorem hasEntry_congr (s t : LzwState) (c : Nat) (w : List Nat)
    (h1 : t.table_ix = s.table_ix) (h2 : t.table_data = s.table_data)
    (h3 : s.table_ptr ≤ t.table_ptr) (h : HasEntry s c w) : HasEntry t c w := by
  obtain ⟨p, a1, a2, a3, a4⟩ := h
  exact ⟨p, by rw [h1]; exact a1, by rw [h2]; exact a2, by rw [h2]; exact a3, by omega⟩

theorem sim_entry_len (s : LzwState) (dict : List (List Nat)) (prev : Option Nat)
    (out : List Nat) (hsim : Sim s dict prev out) (c : Nat) (w : List Nat)
    (h : specEntry dict c = some w) : 1 ≤ w.length ∧ w.length ≤ dict.length + 1 := by
  rcases specEntry_cases dict c w h with ⟨_, h2⟩ | ⟨h1, h2, h3⟩
  · subst h2; simp
  · have := hsim.lens _ _ h3
    omega

theorem take_one_eq (w : List Nat) (h : 0 < w.length) : w.take 1 = [w.getD 0 0] := by
  cases w with
  | nil => simp at h
  | cons x w => simp

theorem dict_bound (d : Nat) (hd : d ≤ 253) : d * (d + 5) ≤ 65274 := by
  calc d * (d + 5) ≤ 253 * (253 + 5) := Nat.mul_le_mul hd (by omega)
    _ = 65274 := by norm_num

/-- A data code in a state that stands for a specification state: the decoder
emits and learns what the specification's step does. -/
theorem dataCode_sim (dst_size : Nat) (s : LzwState) (dict : List (List Nat))
    (prev : Option Nat) (out : List Nat) (c : Nat) (e : List Nat) (dict1 : List (List Nat))
    (hsim : Sim s dict prev out) (hstep : specStep dict prev c = some (e, dict1))
    (hd : dict.length ≤ 253) (hcap : (out ++ e).length ≤ dst_size) (hsz : dst_size < U32) :
    ∃ s1, dataCode dst_size s c = some s1 ∧ Sim s1 dict1 (some c) (out ++ e) ∧
      s1.inp = s.inp ∧ s1.len = s.len ∧ s1.bit_offset = s.bit_offset := by
  have hcount := hsim.count
  have hout := hsim.out_eq
  have hptr := hsim.ptr
  have hdb := dict_bound dict.length hd
  cases prev with
  | none =>
    have hread : s.read_state = 0 := hsim.prev_ok
    cases hce : specEntry dict c with
    | none => simp [specStep, hce] at hstep
    | some w =>
      simp only [specStep, hce, Option.map_some', Option.some.injEq, Prod.mk.injEq] at hstep
      obtain ⟨rfl, rfl⟩ := hstep
      have hlt : c < s.table_count := by
        rcases specEntry_cases dict c w hce with ⟨h1, _⟩ | ⟨_, h2, _⟩ <;> omega
      obtain ⟨p, hp, hpl, hpc, hpb⟩ := hsim.entries c w hce
      have hemit := emitLoop_spec s.table_data w (p + 1) s.dst hpc
      refine ⟨{ s with dst := s.dst ++ w, read_state := 1, old_code := c }, ?_, ?_, rfl, rfl, rfl⟩
      · simp only [dataCode, hlt, if_true, hp, hpl, hemit, hread, ne_eq, not_true_eq_false,
          if_false]
      · refine ⟨hcount, ?_, hsim.lens, hptr, ⟨rfl, rfl, by rw [hce]; rfl⟩, by simp only; rw [hout]⟩
        intro c1 w1 h1
        exact hasEntry_congr s _ c1 w1 rfl rfl (le_refl _) (hsim.entries c1 w1 h1)
  | some pc =>
    obtain ⟨hread, hold, hprev⟩ : s.read_state = 1 ∧ s.old_code = pc ∧
        (specEntry dict pc).isSome := hsim.prev_ok
    obtain ⟨wp, hwp⟩ := Option.isSome_iff_exists.mp hprev
    have hwpl := sim_entry_len s dict _ out hsim pc wp hwp
    have hwpo : specEntry dict s.old_code = some wp := by rw [hold]; exact hwp
    have hpclt : pc < s.table_count := by
      rcases specEntry_cases dict pc wp hwp with ⟨h1, _⟩ | ⟨_, h2, _⟩ <;> omega
    -- the state reached once the new entry is in place
    have hfinish : ∀ (s0 s2 : LzwState) (b : Nat) (dst1 : List Nat),
        s0.table_ix = s.table_ix → s0.table_data = s.table_data → s0.table_ptr = s.table_ptr →
        s0.table_count = s.table_count →
        s2.table_count = s0.table_count + 1 → s2.table_ptr = s0.table_ptr + wp.length + 2 →
        HasEntry s2 s0.table_count (wp ++ [b]) →
        (∀ c1 u, c1 ≠ s0.table_count → HasEntry s0 c1 u → HasEntry s2 c1 u) →
        s2.read_state = 1 → s2.dst = dst1 →
        (specEntry (dict ++ [wp ++ [b]]) c).isSome →
        Sim { s2 with old_code := c } (dict ++ [wp ++ [b]]) (some c) dst1 := by
      intro s0 s2 b dst1 e1 e2 e3 e4 hc2 hp2 hnew hframe hr2 hd2 hcs
      refine ⟨by simp only [List.length_append, List.length_singleton]; omega, ?_, ?_, ?_,
        ⟨hr2, rfl, hcs⟩, hd2⟩
      · intro c1 w1 h1
        by_cases hc1 : c1 = 258 + dict.length
        · subst hc1
          rw [specEntry_new] at h1
          cases h1
          have := hnew
          rw [e4, hcount] at this
          exact hasEntry_congr s2 _ _ _ rfl rfl (le_refl _) this
        · have h0 := hsim.entries c1 w1 (specEntry_append_inv dict _ c1 w1 h1 hc1)
          have h00 : HasEntry s0 c1 w1 :=
            hasEntry_congr s s0 c1 w1 e1 e2 (by omega) h0
          exact hasEntry_congr s2 _ _ _ rfl rfl (le_refl _)
            (hframe c1 w1 (by rw [e4, hcount]; exact hc1) h00)
      · intro k w1 hk
        by_cases hkl : k < dict.length
        · rw [List.getElem?_append_left hkl] at hk
          exact hsim.lens k w1 hk
        · by_cases hke : k = dict.length
          · subst hke
            simp only [List.getElem?_concat_length, Option.some.injEq] at hk
            subst hk
            simp only [List.length_append, List.length_singleton]
            omega
          · rw [List.getElem?_eq_none (by simp; omega)] at hk
            exact Option.noConfusion hk
      · simp only [List.length_append, List.length_singleton]
        rw [hp2, e3]
        nlinarith
    cases hce : specEntry dict c with
    | some w =>
      simp only [specStep, specStreaming, hce, hwp, Option.map_some', Option.some.injEq,
        Prod.mk.injEq] at hstep
      obtain ⟨rfl, rfl⟩ := hstep
      have hwl := sim_entry_len s dict _ out hsim c w hce
      have hlt : c < s.table_count := by
        rcases specEntry_cases dict c w hce with ⟨h1, _⟩ | ⟨_, h2, _⟩ <;> omega
      obtain ⟨p, hp, hpl, hpc, hpb⟩ := hsim.entries c w hce
      have hemit := emitLoop_spec s.table_data w (p + 1) s.dst hpc
      obtain ⟨s2, hl, hc2, hp2, hnew, hframe, _, hr2, hi2, hn2, hb2, hd2⟩ :=
        learn_spec { s with dst := s.dst ++ w } c wp w
          (hasEntry_congr s _ _ _ rfl rfl (le_refl _) (hsim.entries _ _ hwpo))
          (hasEntry_congr s _ _ _ rfl rfl (le_refl _) (hsim.entries c w hce))
          (by omega) (by omega) (by simp only; omega) (by simp only; omega)
          (by simp only; omega) (by simp only; omega)
      refine ⟨{ s2 with old_code := c }, ?_, ?_, hi2, hn2, hb2⟩
      · have hne : ¬ s.read_state = 0 := by omega
        simp only [dataCode, hlt, if_true, hp, hpl, hemit, ne_eq, hne, not_false_eq_true, hl]
      · rw [take_one_eq w (by omega)]
        refine hfinish { s with dst := s.dst ++ w } s2 (w.getD 0 0) (out ++ w) rfl rfl rfl rfl
          hc2 hp2 hnew hframe (hr2.trans hread) (by rw [hd2]; simp only; rw [hout]) ?_
        rw [specEntry_append dict _ c w hce]; rfl
    | none =>
      simp only [specStep, specStreaming, hce, hwp] at hstep
      by_cases hcn : c = 258 + dict.length
      · simp only [hcn, if_true, Option.map_some', Option.some.injEq, Prod.mk.injEq] at hstep
        obtain ⟨rfl, rfl⟩ := hstep
        rw [take_one_eq wp (by omega)] at hcap ⊢
        have hnlt : ¬ c < s.table_count := by omega
        obtain ⟨p, hp, hpl, hpc, hpb⟩ := hsim.entries _ _ hwpo
        have hcap2 : s.dst.length + wp.length + 1 ≤ dst_size := by
          rw [hout]; simpa [Nat.add_assoc] using hcap
        have hemit := emitLoopChecked_spec dst_size s.table_data wp (p + 1) s.dst hpc (by omega)
        rw [List.take_of_length_le (by omega)] at hemit
        have hp0 := hpc 0 (by omega)
        simp only [Nat.add_zero] at hp0
        have hlen2 : (s.dst ++ wp).length % U32 < dst_size := by
          rw [Nat.mod_eq_of_lt (by simp; omega)]; simp; omega
        obtain ⟨s2, hl, hc2, hp2, hnew, hframe, _, hr2, hi2, hn2, hb2, hd2⟩ :=
          learn_spec { s with dst := s.dst ++ wp ++ [wp.getD 0 0] } s.old_code wp wp
            (hasEntry_congr s _ _ _ rfl rfl (le_refl _) (hsim.entries _ _ hwpo))
            (hasEntry_congr s _ _ _ rfl rfl (le_refl _) (hsim.entries _ _ hwpo))
            (by omega) (by omega) (by simp only; omega) (by simp only; omega)
            (by simp only; omega) (by simp only; omega)
        refine ⟨{ s2 with old_code := c }, ?_, ?_, hi2, hn2, hb2⟩
        · simp only [dataCode, hnlt, if_false, hp, hpl, hemit, hlen2, if_true, hp0]
          rw [hl]
        · refine hfinish { s with dst := s.dst ++ wp ++ [wp.getD 0 0] } s2 (wp.getD 0 0)
            (out ++ (wp ++ [wp.getD 0 0])) rfl rfl rfl rfl hc2 hp2 hnew hframe
            (hr2.trans hread) (by rw [hd2]; simp only; rw [hout]; simp) ?_
          rw [hcn, specEntry_new]; rfl
      · simp [hcn] at hstep

/-! ## The main loop -/

theorem widthLoop_small (fuel tc : Nat) (h : tc < 512) :
    widthLoop fuel (tc >>> 9) 9 tc = some (9, tc) := by
  have hx : tc >>> 9 = 0 := by
    rw [Nat.shiftRight_eq_div_pow]
    exact Nat.div_eq_of_lt h
  cases fuel <;> simp [widthLoop, hx]

theorem widthLoop_hang (x : Nat) (hx : 0 < x) : ∀ fuel need_bits tc,
    widthLoop fuel x need_bits tc = none := by
  intro fuel
  induction fuel with
  | zero => intro nb tc; simp [widthLoop, hx]
  | succ fuel ih => intro nb tc; simp only [widthLoop, hx, if_true]; exact ih _ _

theorem specStep_code (dict : List (List Nat)) (prev : Option Nat) (c : Nat)
    (r : List Nat × List (List Nat)) (h : specStep dict prev c = some r) :
    c < 256 ∨ (258 ≤ c ∧ c ≤ 258 + dict.length) := by
  cases hce : specEntry dict c with
  | some w =>
    rcases specEntry_cases dict c w hce with ⟨h1, _⟩ | ⟨h1, h2, _⟩
    · exact Or.inl h1
    · exact Or.inr ⟨h1, by omega⟩
  | none =>
    cases prev with
    | none => simp [specStep, hce] at h
    | some pc =>
      by_cases hcn : c = 258 + dict.length
      · exact Or.inr ⟨by omega, by omega⟩
      · simp [specStep, specStreaming, hce, hcn] at h

theorem sim_reader_congr (s t : LzwState) (dict : List (List Nat)) (prev : Option Nat)
    (out : List Nat) (h : Sim s dict prev out) (h1 : t.table_data = s.table_data)
    (h2 : t.table_ptr = s.table_ptr) (h3 : t.table_ix = s.table_ix)
    (h4 : t.table_count = s.table_count) (h5 : t.old_code = s.old_code)
    (h6 : t.read_state = s.read_state) (h7 : t.dst = s.dst) : Sim t dict prev out := by
  refine ⟨by rw [h4]; exact h.count, ?_, h.lens, by rw [h2]; exact h.ptr, ?_,
    by rw [h7]; exact h.out_eq⟩
  · intro c w hc
    exact hasEntry_congr s t c w h3 h1 (by omega) (h.entries c w hc)
  · have := h.prev_ok
    cases prev with
    | none => simp only at this ⊢; rw [h6]; exact this
    | some pc => simp only at this ⊢; rw [h6, h5]; exact this

/-- One pass of the main loop on a data code. -/
theorem lzwLoop_step (dst_size : Nat) (s : LzwState) (dict : List (List Nat))
    (prev : Option Nat) (out : List Nat) (c : Nat) (e : List Nat) (dict1 : List (List Nat))
    (rest : List Bool)
    (hsim : Sim s dict prev out) (hrd : Reader s (bitsMSB 9 c ++ rest))
    (hstep : specStep dict prev c = some (e, dict1)) (hne : 0 < e.length)
    (hd : dict.length ≤ 253) (hcap : (out ++ e).length ≤ dst_size) (hsz : dst_size < U32) :
    ∃ s1, (∀ fuel, lzwLoop dst_size (fuel + 1) s = lzwLoop dst_size fuel s1) ∧
      Sim s1 dict1 (some c) (out ++ e) ∧ Reader s1 rest := by
  obtain ⟨hlen, hoff, hbytes, hbits⟩ := hrd
  have hcode := specStep_code dict prev c _ hstep
  have hc512 : c < 512 := by omega
  obtain ⟨inp1, off1, hread, hoff1, hb1, hrem1⟩ := readBits_spec 9 0 9 s.inp s.bit_offset
    (bitsMSB 9 c) rest (le_refl _) hoff hbytes hbits (length_bitsMSB 9 c) (by decide)
  rw [bitsVal_bitsMSB, Nat.mod_eq_of_lt (by simpa using hc512), ← hlen] at hread
  simp only [Nat.zero_mul, Nat.zero_add] at hread
  have hpos : 0 < s.len := by
    rw [hlen]
    cases hinp : s.inp with
    | nil =>
      rw [hinp] at hbits
      have h0 : (remBits [] s.bit_offset).length = 0 := by simp [remBits, bytesToBits]
      rw [hbits, List.length_append, length_bitsMSB] at h0
      omega
    | cons b tl => simp
  have htw : s.total_write < dst_size := by
    unfold LzwState.total_write
    rw [hsim.out_eq]
    have : out.length < dst_size := by simp at hcap; omega
    exact lt_of_le_of_lt (Nat.mod_le _ _) this
  have hw := fun fuel => widthLoop_small fuel s.table_count (by rw [hsim.count]; omega)
  obtain ⟨s2, hdc, hsim2, hi2, hl2, hb2⟩ := dataCode_sim dst_size
    { s with table_count := s.table_count, inp := inp1, len := inp1.length, bit_offset := off1 }
    dict prev out c e dict1
    (sim_reader_congr s _ dict prev out hsim rfl rfl rfl rfl rfl rfl rfl) hstep hd hcap hsz
  refine ⟨s2, ?_, hsim2, ⟨by rw [hl2, hi2], by rw [hb2]; exact hoff1, by rw [hi2]; exact hb1,
    by rw [hi2, hb2]; exact hrem1⟩⟩
  intro fuel
  have h256 : c ≠ 256 := by omega
  have h257 : c ≠ 257 := by omega
  simp only [lzwLoop, hpos, htw, and_self, if_true, hw fuel, hread, h256, h257, if_false, hdc]

/-- One pass of the main loop up to the switch: with fewer than 512 table
entries nine bits are read, and the switch runs on the code they spell. -/
theorem lzwLoop_read (dst_size : Nat) (s : LzwState) (c : Nat) (rest : List Bool)
    (hrd : Reader s (bitsMSB 9 c ++ rest)) (hc : c < 512) (htc : s.table_count < 512)
    (htw : s.total_write < dst_size) :
    ∃ inp1 off1, off1 < 8 ∧ (∀ b ∈ inp1, b < 256) ∧ remBits inp1 off1 = rest ∧
      ∀ fuel, lzwLoop dst_size (fuel + 1) s =
        if c = 256 then
          lzwLoop dst_size fuel (clearTable { s with
            table_count := s.table_count, inp := inp1, len := inp1.length, bit_offset := off1 })
        else if c = 257 then
          .done (s.total_write, s.dst)
        else
          match dataCode dst_size { s with
              table_count := s.table_count, inp := inp1, len := inp1.length,
              bit_offset := off1 } c with
          | none => .fault
          | some s2 => lzwLoop dst_size fuel s2 := by
  obtain ⟨hlen, hoff, hbytes, hbits⟩ := hrd
  obtain ⟨inp1, off1, hread, hoff1, hb1, hrem1⟩ := readBits_spec 9 0 9 s.inp s.bit_offset
    (bitsMSB 9 c) rest (le_refl _) hoff hbytes hbits (length_bitsMSB 9 c) (by decide)
  rw [bitsVal_bitsMSB, Nat.mod_eq_of_lt (by simpa using hc), ← hlen] at hread
  simp only [Nat.zero_mul, Nat.zero_add] at hread
  have hpos : 0 < s.len := by
    rw [hlen]
    cases hinp : s.inp with
    | nil =>
      rw [hinp] at hbits
      have h0 : (remBits [] s.bit_offset).length = 0 := by simp [remBits, bytesToBits]
      rw [hbits, List.length_append, length_bitsMSB] at h0
      omega
    | cons b tl => simp
  refine ⟨inp1, off1, hoff1, hb1, hrem1, ?_⟩
  intro fuel
  simp only [lzwLoop, hpos, htw, and_self, if_true, widthLoop_small fuel s.table_count htc, hread]
  rfl

theorem specStep_mono (dict : List (List Nat)) (prev : Option Nat) (c : Nat) (e : List Nat)
    (dict1 : List (List Nat)) (h : specStep dict prev c = some (e, dict1)) :
    dict.length ≤ dict1.length := by
  cases prev with
  | none =>
    cases hce : specEntry dict c with
    | none => simp [specStep, hce] at h
    | some w =>
      simp only [specStep, hce, Option.map_some', Option.some.injEq, Prod.mk.injEq] at h
      rw [← h.2]
  | some pc =>
    cases hs : specStreaming dict pc c with
    | none => simp [specStep, hs] at h
    | some el =>
      simp only [specStep, hs, Option.map_some', Option.some.injEq, Prod.mk.injEq] at h
      rw [← h.2]; simp

theorem specCodes_mono : ∀ (cs : List Nat) (dict : List (List Nat)) (prev : Option Nat)
    (out out1 : List Nat) (dict1 : List (List Nat)),
    specCodes cs dict prev out = some (out1, dict1) →
    dict.length ≤ dict1.length ∧ out.length ≤ out1.length := by
  intro cs
  induction cs with
  | nil =>
    intro dict prev out out1 dict1 h
    simp only [specCodes, Option.some.injEq, Prod.mk.injEq] at h
    rw [h.1, h.2]; exact ⟨le_refl _, le_refl _⟩
  | cons c cs ih =>
    intro dict prev out out1 dict1 h
    cases hst : specStep dict prev c with
    | none => simp [specCodes, hst] at h
    | some r =>
      obtain ⟨e, d1⟩ := r
      simp only [specCodes, hst] at h
      have h1 := specStep_mono dict prev c e d1 hst
      have h2 := ih d1 (some c) (out ++ e) out1 dict1 h
      simp only [List.length_append] at h2
      omega

theorem specStep_emit_pos (s : LzwState) (dict : List (List Nat)) (prev : Option Nat)
    (out : List Nat) (hsim : Sim s dict prev out) (c : Nat) (e : List Nat)
    (dict1 : List (List Nat)) (h : specStep dict prev c = some (e, dict1)) : 0 < e.length := by
  cases prev with
  | none =>
    cases hce : specEntry dict c with
    | none => simp [specStep, hce] at h
    | some w =>
      simp only [specStep, hce, Option.map_some', Option.some.injEq, Prod.mk.injEq] at h
      rw [← h.1]
      exact (sim_entry_len s dict _ out hsim c w hce).1
  | some pc =>
    cases hwp : specEntry dict pc with
    | none => cases hce : specEntry dict c <;> simp [specStep, specStreaming, hce, hwp] at h
    | some wp =>
      have hwpl := sim_entry_len s dict _ out hsim pc wp hwp
      cases hce : specEntry dict c with
      | some w =>
        simp only [specStep, specStreaming, hce, hwp, Option.map_some', Option.some.injEq,
          Prod.mk.injEq] at h
        rw [← h.1]
        exact (sim_entry_len s dict _ out hsim c w hce).1
      | none =>
        by_cases hcn : c = 258 + dict.length
        · subst hcn
          simp only [specStep, specStreaming, hce, hwp, if_true, Option.map_some',
            Option.some.injEq, Prod.mk.injEq] at h
          rw [← h.1]; simp; omega
        · simp [specStep, specStreaming, hce, hwp, hcn] at h

theorem pack9_cons (c : Nat) (cs : List Nat) : pack9 (c :: cs) = bitsMSB 9 c ++ pack9 cs := by
  simp [pack9]

theorem pack9_append (a b : List Nat) : pack9 (a ++ b) = pack9 a ++ pack9 b := by
  simp [pack9]

/-- The main loop over a run of data codes the specification accepts. -/
theorem lzwLoop_codes (dst_size : Nat) (hsz : dst_size < U32) :
    ∀ (cs : List Nat) (s : LzwState) (dict : List (List Nat)) (prev : Option Nat)
      (out out1 : List Nat) (dict1 : List (List Nat)) (rest : List Bool),
      Sim s dict prev out → Reader s (pack9 cs ++ rest) →
      specCodes cs dict prev out = some (out1, dict1) →
      dict1.length ≤ 253 → out1.length ≤ dst_size →
      ∃ s1, (∀ fuel, lzwLoop dst_size (fuel + cs.length) s = lzwLoop dst_size fuel s1) ∧
        Sim s1 dict1 (lastCode cs prev) out1 ∧ Reader s1 rest := by
  intro cs
  induction cs with
  | nil =>
    intro s dict prev out out1 dict1 rest hsim hrd hspec _ _
    simp only [specCodes, Option.some.injEq, Prod.mk.injEq] at hspec
    obtain ⟨rfl, rfl⟩ := hspec
    exact ⟨s, fun _ => rfl, hsim, by simpa [pack9] using hrd⟩
  | cons c cs ih =>
    intro s dict prev out out1 dict1 rest hsim hrd hspec hd hcap
    cases hst : specStep dict prev c with
    | none => simp [specCodes, hst] at hspec
    | some r =>
      obtain ⟨e, d1⟩ := r
      simp only [specCodes, hst] at hspec
      have hm1 := specStep_mono dict prev c e d1 hst
      have hm2 := specCodes_mono cs d1 (some c) (out ++ e) out1 dict1 hspec
      rw [pack9_cons, List.append_assoc] at hrd
      obtain ⟨s1, hrun1, hsim1, hrd1⟩ := lzwLoop_step dst_size s dict prev out c e d1
        (pack9 cs ++ rest) hsim hrd hst (specStep_emit_pos s dict prev out hsim c e d1 hst)
        (by omega) (by omega) hsz
      obtain ⟨s2, hrun2, hsim2, hrd2⟩ := ih s1 d1 (some c) (out ++ e) out1 dict1 rest
        hsim1 hrd1 hspec hd hcap
      refine ⟨s2, ?_, hsim2, hrd2⟩
      intro fuel
      rw [List.length_cons, ← Nat.add_assoc, hrun1, hrun2]

/-- The pass of the main loop that reads CLEAR. -/
theorem lzwLoop_clear (dst_size : Nat) (s : LzwState) (rest : List Bool)
    (hrd : Reader s (bitsMSB 9 256 ++ rest)) (htc : s.table_count < 512)
    (htw : s.total_write < dst_size) :
    ∃ s1, (∀ fuel, lzwLoop dst_size (fuel + 1) s = lzwLoop dst_size fuel s1) ∧
      Sim s1 [] none s.dst ∧ Reader s1 rest := by
  obtain ⟨inp1, off1, hoff1, hb1, hrem1, hrun⟩ :=
    lzwLoop_read dst_size s 256 rest hrd (by decide) htc htw
  obtain ⟨hsim, hi, hl, hb⟩ := clearTable_sim { s with
    table_count := s.table_count, inp := inp1, len := inp1.length, bit_offset := off1 }
  refine ⟨_, fun fuel => by rw [hrun fuel]; simp, hsim, ?_⟩
  exact ⟨by rw [hl, hi], by rw [hb]; exact hoff1, by rw [hi]; exact hb1,
    by rw [hi, hb]; exact hrem1⟩

/-- The pass of the main loop that meets END, or the capacity. -/
theorem lzwLoop_end (dst_size : Nat) (s : LzwState) (dict : List (List Nat))
    (prev : Option Nat) (out : List Nat) (rest : List Bool)
    (hsim : Sim s dict prev out) (hrd : Reader s (bitsMSB 9 257 ++ rest))
    (hd : dict.length ≤ 253) (hcap : out.length ≤ dst_size) (hsz : dst_size < U32) :
    ∀ fuel, lzwLoop dst_size (fuel + 1) s = .done (out.length, out) := by
  have htot : s.total_write = out.length := by
    unfold LzwState.total_write
    rw [hsim.out_eq]
    exact Nat.mod_eq_of_lt (by omega)
  intro fuel
  by_cases hlt : out.length < dst_size
  · obtain ⟨inp1, off1, _, _, _, hrun⟩ := lzwLoop_read dst_size s 257 rest hrd (by decide)
      (by rw [hsim.count]; omega) (by rw [htot]; exact hlt)
    rw [hrun fuel, htot, hsim.out_eq]
    simp
  · simp only [lzwLoop, htot, hlt, and_false, if_false, hsim.out_eq]

/-- C1.  A stream CLEAR, c1..cn, END of 9-bit codes, packed most significant bit
first and followed by any padding, whose data codes the specification's
AfterClear/Streaming machine accepts (c1 a literal, every later code defined or
the next free one) with the next free code at most 511 at every read, given a
capacity of at least the reference output: `decompress_lzw` returns, with the
length of that output as its result and exactly its bytes stored to `dst`. -/
theorem decompress_lzw_spec (cs : List Nat) (pad : List Bool) (mem : List Nat)
    (dst_size : Nat) (out : List Nat) (dict : List (List Nat))
    (hbytes : ∀ b ∈ mem, b < 256)
    (hmem : bytesToBits mem = pack9 (256 :: cs ++ [257]) ++ pad)
    (hspec : specCodes cs [] none [] = some (out, dict))
    (hnext : 258 + dict.length ≤ 511)
    (hcap : out.length ≤ dst_size) (hsz : dst_size < U32) :
    ∀ fuel, cs.length + 2 ≤ fuel →
      decompress_lzw fuel dst_size mem mem.length = .done (out.length, out) := by
  intro fuel hfuel
  obtain ⟨f, rfl⟩ : ∃ f, fuel = f + cs.length + 1 + 1 := ⟨fuel - cs.length - 2, by omega⟩
  unfold decompress_lzw
  by_cases h0 : dst_size = 0
  · have hout : out = [] := List.length_eq_zero.mp (by omega)
    subst hout
    subst h0
    simp [lzwLoop, lzwInit, LzwState.total_write]
  · have hrd0 : Reader (lzwInit mem mem.length)
        (bitsMSB 9 256 ++ (pack9 cs ++ (bitsMSB 9 257 ++ pad))) := by
      refine ⟨rfl, by simp [lzwInit], hbytes, ?_⟩
      show remBits mem 0 = _
      rw [remBits_zero, hmem, List.cons_append, pack9_cons, pack9_append, List.append_assoc,
        List.append_assoc]
      simp [pack9]
    obtain ⟨s1, hrun1, hsim1, hrd1⟩ := lzwLoop_clear dst_size (lzwInit mem mem.length) _ hrd0
      (by simp [lzwInit]) (by simp [LzwState.total_write, lzwInit]; omega)
    obtain ⟨s2, hrun2, hsim2, hrd2⟩ := lzwLoop_codes dst_size hsz cs s1 [] none [] out
      dict (bitsMSB 9 257 ++ pad) hsim1 hrd1 hspec (by omega) hcap
    rw [hrun1, Nat.add_right_comm f cs.length 1, hrun2]
    exact lzwLoop_end dst_size s2 dict _ out pad hsim2 hrd2 (by omega) hcap hsz f

/-- C1 at the stream CLEAR, 65, 258, END, whose second data code is the next
free code. -/
theorem decompress_lzw_spec_witness :
    decompress_lzw 4 100 [128, 16, 96, 80, 16] 5 = .done (3, [65, 65, 65]) :=
  decompress_lzw_spec [65, 258] [false, false, false, false] [128, 16, 96, 80, 16] 100
    [65, 65, 65] [[65, 65]] (by decide) (by decide) (by decide) (by decide) (by decide)
    (by decide) 4 (by decide)

/-! ## Fuel, and the code-width loop that never exits -/

theorem widthLoop_stable (f g x nb tc : Nat) (r : Nat × Nat)
    (h : widthLoop f x nb tc = some r) : widthLoop g x nb tc = some r := by
  by_cases hx : 0 < x
  · rw [widthLoop_hang x hx] at h; exact Option.noConfusion h
  · cases f <;> cases g <;> simp_all [widthLoop]

/-- More fuel does not change a result that is not `timeout`. -/
theorem lzwLoop_stable (dst_size : Nat) : ∀ (f : Nat) (s : LzwState),
    lzwLoop dst_size f s ≠ .timeout → ∀ g, f ≤ g →
    lzwLoop dst_size g s = lzwLoop dst_size f s := by
  intro f
  induction f with
  | zero => intro s h; exact absurd rfl h
  | succ f ih =>
    intro s h g hg
    obtain ⟨g, rfl⟩ : ∃ g1, g = g1 + 1 := ⟨g - 1, by omega⟩
    have hfg : f ≤ g := by omega
    simp only [lzwLoop] at h ⊢
    by_cases hguard : 0 < s.len ∧ s.total_write < dst_size
    · simp only [hguard, and_self, if_true] at h ⊢
      cases hw : widthLoop f (s.table_count >>> 9) 9 s.table_count with
      | none => simp [hw] at h
      | some r =>
        obtain ⟨nb, tc⟩ := r
        rw [widthLoop_stable f g _ _ _ _ hw]
        simp only [hw] at h ⊢
        cases hr : readBits nb 0 nb s.inp s.len s.bit_offset with
        | none => rfl
        | some t =>
          obtain ⟨code, x1, inp, len, off⟩ := t
          simp only [hr] at h ⊢
          by_cases h256 : code = 256
          · simp only [h256, if_true] at h ⊢
            exact ih _ h g hfg
          · by_cases h257 : code = 257
            · subst h257
              simp
            · simp only [h256, h257, if_false] at h ⊢
              cases hd : dataCode dst_size
                  { s with table_count := tc, inp := inp, len := len, bit_offset := off } code with
              | none => rfl
              | some s2 =>
                simp only [hd] at h ⊢
                exact ih _ h g hfg
    · simp only [hguard, if_false]

theorem lzwLoop_hang_state (dst_size : Nat) (s : LzwState) (htc : 512 ≤ s.table_count)
    (hlen : 0 < s.len) (htw : s.total_write < dst_size) :
    ∀ fuel, lzwLoop dst_size fuel s = .timeout := by
  intro fuel
  cases fuel with
  | zero => rfl
  | succ f =>
    have hx : 0 < s.table_count >>> 9 := by
      rw [Nat.shiftRight_eq_div_pow]
      exact Nat.div_pos htc (by decide)
    simp only [lzwLoop, hlen, htw, and_self, if_true, widthLoop_hang _ hx]

theorem lastCode_some : ∀ (cs : List Nat) (p : Nat), ∃ q, lastCode cs (some p) = some q := by
  intro cs
  induction cs with
  | nil => intro p; exact ⟨p, rfl⟩
  | cons c cs ih => intro p; exact ih c

theorem lastCode_none (cs : List Nat) (h : lastCode cs none = none) : cs = [] := by
  cases cs with
  | nil => rfl
  | cons c cs =>
    obtain ⟨q, hq⟩ := lastCode_some cs c
    simp only [lastCode] at h
    rw [hq] at h
    exact Option.noConfusion h

/-- A state that hangs after a fixed number of passes hangs for every fuel. -/
theorem lzwLoop_never (dst_size : Nat) (s : LzwState) (k : Nat)
    (h : ∀ fuel, lzwLoop dst_size (fuel + k) s = .timeout) :
    ∀ fuel, lzwLoop dst_size fuel s = .timeout := by
  intro fuel
  by_contra hne
  have := lzwLoop_stable dst_size fuel s hne (fuel + k) (by omega)
  rw [h fuel] at this
  exact hne this.symm

/-- The table reaches 512 entries with input and capacity left: after CLEAR,
a run of data codes that leaves 253 learned strings and one more data code,
`decompress_lzw` never returns. -/
theorem decompress_lzw_hangs (cs : List Nat) (c : Nat) (rest : List Bool) (mem : List Nat)
    (dst_size : Nat) (out e : List Nat) (dict dict1 : List (List Nat))
    (hbytes : ∀ b ∈ mem, b < 256)
    (hmem : bytesToBits mem = pack9 (256 :: cs ++ [c]) ++ rest) (hrest : rest ≠ [])
    (hspec : specCodes cs [] none [] = some (out, dict)) (hd : dict.length = 253)
    (hstep : specStep dict (lastCode cs none) c = some (e, dict1))
    (hcap : (out ++ e).length < dst_size) (hsz : dst_size < U32) :
    ∀ fuel, decompress_lzw fuel dst_size mem mem.length = .timeout := by
  unfold decompress_lzw
  apply lzwLoop_never dst_size _ (cs.length + 1 + 1)
  intro fuel
  have hrd0 : Reader (lzwInit mem mem.length)
      (bitsMSB 9 256 ++ (pack9 cs ++ (bitsMSB 9 c ++ rest))) := by
    refine ⟨rfl, by simp [lzwInit], hbytes, ?_⟩
    show remBits mem 0 = _
    rw [remBits_zero, hmem, List.cons_append, pack9_cons, pack9_append, List.append_assoc,
      List.append_assoc]
    simp [pack9]
  obtain ⟨s1, hrun1, hsim1, hrd1⟩ := lzwLoop_clear dst_size (lzwInit mem mem.length) _ hrd0
    (by simp [lzwInit]) (by simp [LzwState.total_write, lzwInit]; omega)
  have hm := specCodes_mono cs [] none [] out dict hspec
  obtain ⟨s2, hrun2, hsim2, hrd2⟩ := lzwLoop_codes dst_size hsz cs s1 [] none [] out
    dict (bitsMSB 9 c ++ rest) hsim1 hrd1 hspec (by omega) (by simp at hcap; omega)
  obtain ⟨s3, hrun3, hsim3, hrd3⟩ := lzwLoop_step dst_size s2 dict _ out c e dict1 rest hsim2
    hrd2 hstep (specStep_emit_pos s2 dict _ out hsim2 c e dict1 hstep) (by omega)
    (by omega) hsz
  rw [← Nat.add_assoc, ← Nat.add_assoc, hrun1, Nat.add_right_comm fuel cs.length 1, hrun2, hrun3]
  have hd1 : dict1.length = 254 := by
    cases hp : lastCode cs none with
    | none =>
      have hnil := lastCode_none cs hp
      subst hnil
      simp only [specCodes, Option.some.injEq, Prod.mk.injEq] at hspec
      rw [← hspec.2] at hd
      simp at hd
    | some pc =>
      rw [hp] at hstep
      cases hs : specStreaming dict pc c with
      | none => simp [specStep, hs] at hstep
      | some el =>
        simp only [specStep, hs, Option.map_some', Option.some.injEq, Prod.mk.injEq] at hstep
        rw [← hstep.2]; simp; omega
  obtain ⟨hl3, ho3, hb3, hr3⟩ := hrd3
  apply lzwLoop_hang_state dst_size s3 (by rw [hsim3.count]; omega)
  · rw [hl3]
    cases hi : s3.inp with
    | nil =>
      rw [hi] at hr3
      have h0 : (remBits [] s3.bit_offset).length = 0 := by simp [remBits, bytesToBits]
      rw [hr3] at h0
      exact absurd (List.length_eq_zero.mp h0) hrest
    | cons b tl => simp
  · unfold LzwState.total_write
    rw [hsim3.out_eq]
    exact lt_of_le_of_lt (Nat.mod_le _ _) hcap

/-! ## Streams that reach 512 table entries -/

theorem specCodes_range254 :
    specCodes (List.range 254) [] none []
      = some (List.range 254, (List.range 253).map fun i => [i, i + 1]) := by
  decide!

theorem bits_lzwStream511 :
    bytesToBits lzwStream511
      = pack9 (256 :: List.range 254 ++ [128]) ++ bitsMSB 8 128 := by
  decide!

theorem bits_lzwPrefix255 :
    bytesToBits lzwPrefix255 = pack9 (256 :: List.range 254 ++ [127]) := by
  decide!

theorem bytesToBits_append (a b : List Nat) :
    bytesToBits (a ++ b) = bytesToBits a ++ bytesToBits b := by
  simp [bytesToBits]

theorem lzwStream511_bytes : ∀ b ∈ lzwStream511, b < 256 := by
  decide!

theorem lzwPrefix255_bytes : ∀ b ∈ lzwPrefix255, b < 256 := by
  decide!

/-- C6 fails on the code.  With 511 table entries the width loop leaves
`need_bits` at 9 where the claim has 10; on the stream CLEAR, literals 0..253
(9 bits each), END as a 10-bit code, the decoder therefore reads the nine bits
`010000000` as the literal 128, learns entry 511, and with 512 entries and one
input byte left the width loop never exits: `decompress_lzw` does not return. -/
theorem decompress_lzw_width_at_511 :
    (∀ fuel, widthLoop fuel (511 >>> 9) 9 511 = some (9, 511)) ∧
      ∀ fuel, decompress_lzw fuel 1000 lzwStream511 lzwStream511.length = .timeout := by
  refine ⟨fun fuel => widthLoop_small fuel 511 (by decide), ?_⟩
  exact decompress_lzw_hangs (List.range 254) 128 (bitsMSB 8 128) lzwStream511 1000
    (List.range 254) [128] ((List.range 253).map fun i => [i, i + 1])
    (((List.range 253).map fun i => [i, i + 1]) ++ [[253, 128]])
    lzwStream511_bytes bits_lzwStream511 (by decide) specCodes_range254 (by simp)
    (by decide!) (by simp) (by decide)

/-- C2 fails on the code.  The specification's encoding of any byte sequence
that starts 0, 1, ..., 254 with no repeated pair begins with the 288 bytes
`lzwPrefix255`; on every input that continues them, with room for 256 bytes or
more, the table reaches 512 entries and `decompress_lzw` never returns. -/
theorem decompress_lzw_roundtrip_hangs (b : Nat) (tail : List Nat) (dst_size : Nat)
    (hb : ∀ x ∈ b :: tail, x < 256) (hcap : 255 < dst_size) (hsz : dst_size < U32) :
    ∀ fuel, decompress_lzw fuel dst_size (lzwPrefix255 ++ b :: tail)
      (lzwPrefix255 ++ b :: tail).length = .timeout := by
  refine decompress_lzw_hangs (List.range 254) 127 (bytesToBits (b :: tail))
    (lzwPrefix255 ++ b :: tail) dst_size
    (List.range 254) [127] ((List.range 253).map fun i => [i, i + 1])
    (((List.range 253).map fun i => [i, i + 1]) ++ [[253, 127]])
    ?_ ?_ ?_ specCodes_range254 (by simp) (by decide!) (by simpa using hcap) hsz
  · intro x hx
    rcases List.mem_append.mp hx with h | h
    · exact lzwPrefix255_bytes x h
    · exact hb x h
  · rw [bytesToBits_append, bits_lzwPrefix255]
  · simp [bytesToBits, bitsMSB]

/-- The theorem for C2 at the continuation 31, 224 (the next two bytes of the
encoding of 0, 1, ..., 255, 0, 3, ...) and a capacity of 4096 bytes. -/
theorem decompress_lzw_roundtrip_hangs_witness :
    (255 < 4096 ∧ 4096 < U32) ∧
      ∀ fuel, decompress_lzw fuel 4096 (lzwPrefix255 ++ [31, 224])
        (lzwPrefix255 ++ [31, 224]).length = .timeout :=
  ⟨⟨by decide, by decide⟩,
    decompress_lzw_roundtrip_hangs 31 [224] 4096 (by decide) (by decide) (by decide)⟩

/-! ## Capacity, codes beyond the table, input that ends inside a code -/

set_option maxRecDepth 100000 in
/-- C5 fails on the code.  On CLEAR, 65, 65, 258, END with `dst_size = 3` the
defined-code branch copies the two bytes of entry 258 with no test of the
capacity: a byte is stored at index 3 and the result is 4. -/
theorem decompress_lzw_overrun :
    decompress_lzw 6 3 [128, 16, 72, 48, 40, 8] 6 = .done (4, [65, 65, 65, 65]) := by
  decide

set_option maxRecDepth 100000 in
/-- C7 fails as stated: on CLEAR, 65, 300, END the code 300 exceeds the next
free code 258, yet the decoder returns without any error and has emitted the
two bytes 65, 65 for it. -/
theorem decompress_lzw_accepts_code_300 :
    decompress_lzw 6 100 [128, 16, 101, 144, 16] 5 = .done (3, [65, 65, 65]) := by
  decide

set_option maxRecDepth 100000 in
/-- C8 fails as stated: on CLEAR followed by seven zero pad bits and no END the
decoder returns without any error and has emitted the byte 0 for the pad
bits. -/
theorem decompress_lzw_reads_pad_bits :
    decompress_lzw 6 100 [128, 0] 2 = .done (1, [0]) := by
  decide

/-- C7, as amended.  When `decompress_lzw` reads a data code `c` that is not
below `table_count` (the next free code or any greater one) in a state whose
entry `old_code` holds the string `w`, no error is raised: the code is handled
as the used-before-defined case.  It emits `w` followed by the first byte of
`w`, as far as the capacity allows, stores that string as entry `table_count`,
increments `table_count` and makes `c` the previous code. -/
theorem dataCode_beyond_table (dst_size : Nat) (s : LzwState) (c : Nat) (w : List Nat)
    (hc : s.table_count ≤ c) (hold : HasEntry s s.old_code w) (hw : 0 < w.length)
    (hw2 : w.length ≤ 254) (hcount : s.table_count < 4096)
    (ho : s.old_code ≠ s.table_count) (hcap : s.table_ptr + w.length + 2 ≤ 60000)
    (hlen : s.dst.length + w.length + 1 < U32) :
    ∃ s1, dataCode dst_size s c = some s1 ∧
      s1.dst = s.dst ++ (w ++ [w.getD 0 0]).take (dst_size - s.dst.length) ∧
      s1.old_code = c ∧ s1.table_count = s.table_count + 1 ∧
      HasEntry s1 s.table_count (w ++ [w.getD 0 0]) := by
  have hnlt : ¬ c < s.table_count := by omega
  obtain ⟨p, hp, hpl, hpc, hpb⟩ := hold
  have hemit := emitLoopChecked_spec dst_size s.table_data w (p + 1) s.dst hpc (by omega)
  have hp0 := hpc 0 hw
  simp only [Nat.add_zero] at hp0
  have hdl : (s.dst ++ w.take (dst_size - s.dst.length)).length % U32
      = s.dst.length + min (dst_size - s.dst.length) w.length := by
    rw [Nat.mod_eq_of_lt]
    · simp
    · simp; omega
  -- the bytes stored, by whether the capacity is reached inside `w`
  obtain ⟨dst3, hdst3, hdst3e⟩ : ∃ dst3,
      (if (s.dst ++ w.take (dst_size - s.dst.length)).length % U32 < dst_size then
        (match s.table_data (p + 1) with
          | none => none
          | some v => some (s.dst ++ w.take (dst_size - s.dst.length) ++ [v]))
      else some (s.dst ++ w.take (dst_size - s.dst.length))) = some dst3 ∧
      dst3 = s.dst ++ (w ++ [w.getD 0 0]).take (dst_size - s.dst.length) := by
    by_cases hroom : s.dst.length + w.length < dst_size
    · refine ⟨s.dst ++ w ++ [w.getD 0 0], ?_, ?_⟩
      · rw [hdl, if_pos (by omega), hp0]
        simp only [List.take_of_length_le (show w.length ≤ dst_size - s.dst.length by omega)]
      · rw [List.take_of_length_le (by simp; omega), List.append_assoc]
    · refine ⟨s.dst ++ w.take (dst_size - s.dst.length), ?_, ?_⟩
      · rw [hdl, if_neg (by omega)]
      · rw [List.take_append_of_le_length (by omega)]
  obtain ⟨s2, hl, hc2, _, hnew, _, _, _, _, _, _, hd2⟩ :=
    learn_spec { s with dst := dst3 } s.old_code w w
      (hasEntry_congr s _ _ _ rfl rfl (le_refl _) ⟨p, hp, hpl, hpc, hpb⟩)
      (hasEntry_congr s _ _ _ rfl rfl (le_refl _) ⟨p, hp, hpl, hpc, hpb⟩)
      hw hw2 hcount ho ho hcap
  refine ⟨{ s2 with old_code := c }, ?_, by simp only; rw [hd2, hdst3e], rfl, hc2,
    hasEntry_congr s2 _ _ _ rfl rfl (le_refl _) hnew⟩
  simp only [dataCode, hnlt, if_false, hp, hpl, hemit, hdst3, hl]

set_option maxRecDepth 100000 in
/-- The amended C7 at the state after CLEAR, 65 and the code 300. -/
theorem dataCode_beyond_table_witness :
    ∃ s1, dataCode 100 lzwStateAfter65 300 = some s1 ∧
      s1.dst = lzwStateAfter65.dst ++
        ([65] ++ [[65].getD 0 0]).take (100 - lzwStateAfter65.dst.length) ∧
      s1.old_code = 300 ∧ s1.table_count = lzwStateAfter65.table_count + 1 ∧
      HasEntry s1 lzwStateAfter65.table_count ([65] ++ [[65].getD 0 0]) :=
  dataCode_beyond_table 100 lzwStateAfter65 300 [65] (by decide)
    ⟨130, by decide, by decide,
      fun j hj => by
        have h0 : j = 0 := by simpa using hj
        subst h0
        decide,
      by decide⟩
    (by decide) (by decide) (by decide) (by decide) (by decide) (by decide)

theorem learn_fields (s : LzwState) (src : Nat) (s1 : LzwState) (h : learn s src = some s1) :
    s1.len = s.len ∧ s1.inp = s.inp ∧ s1.dst = s.dst := by
  unfold learn at h
  simp only at h
  split at h
  · split at h
    · exact Option.noConfusion h
    · split at h
      · exact Option.noConfusion h
      · split at h
        · split at h
          · exact Option.noConfusion h
          · split at h
            · exact Option.noConfusion h
            · split at h
              · exact Option.noConfusion h
              · split at h
                · exact Option.noConfusion h
                · split at h
                  · cases h; exact ⟨rfl, rfl, rfl⟩
                  · exact Option.noConfusion h
        · exact Option.noConfusion h
  · exact Option.noConfusion h

/-- The `default` case leaves the reader where it is. -/
theorem dataCode_len (dst_size : Nat) (s : LzwState) (c : Nat) (s1 : LzwState)
    (h : dataCode dst_size s c = some s1) : s1.len = s.len := by
  unfold dataCode at h
  simp only at h
  split at h
  · split at h
    · exact Option.noConfusion h
    · split at h
      · exact Option.noConfusion h
      · split at h
        · exact Option.noConfusion h
        · split at h
          · split at h
            · exact Option.noConfusion h
            · rename_i hl
              cases h
              exact (learn_fields _ _ _ hl).1
          · cases h; rfl
  · split at h
    · exact Option.noConfusion h
    · split at h
      · exact Option.noConfusion h
      · split at h
        · exact Option.noConfusion h
        · split at h
          · exact Option.noConfusion h
          · split at h
            · exact Option.noConfusion h
            · rename_i hl
              cases h
              exact (learn_fields _ _ _ hl).1

theorem readBits_last_byte (n need b off : Nat) (hoff : off < 8) (hneed : 8 - off < need) :
    readBits (n + 1) 0 need [b] 1 off = some (b % 2 ^ (8 - off), need - (8 - off), [], 0, 0) := by
  have h1 : (if need > 8 - off then 8 - off else need) = 8 - off := by
    rw [if_pos (by omega)]
  have h2 : ((0 <<< (8 - off)) % U32) ||| ((b >>> 0) &&& ((1 <<< (8 - off)) - 1))
      = b % 2 ^ (8 - off) := by
    rw [Nat.zero_shiftLeft, Nat.zero_mod, Nat.zero_or, Nat.shiftRight_zero, Nat.one_shiftLeft,
      Nat.and_pow_two_sub_one_eq_mod]
  have h3 : 0 < need ∧ 0 < 1 := ⟨by omega, by decide⟩
  have h4 : off + (8 - off) ≥ 8 := by omega
  rw [readBits]
  simp only [h3, and_self, if_true, h1, lt_irrefl, if_false, h2, h4]
  cases n <;> simp [readBits]

/-- C8, as amended.  When the input runs out while a code is only partly read
(one byte `b` is left at bit offset `bit_offset`, so `8 - bit_offset < 9` bits
remain), `decompress_lzw` reports no error: the bits read, as the number
`b mod 2^(8 - bit_offset)`, go through the code switch exactly like a complete
data code, and the function then returns the bytes written, those produced for
that number included. -/
theorem lzwLoop_partial_code (dst_size fuel : Nat) (s : LzwState) (b : Nat)
    (hinp : s.inp = [b]) (hlen : s.len = 1) (hb : b < 256) (hoff : s.bit_offset < 8)
    (htc : s.table_count < 512) (htw : s.total_write < dst_size) :
    lzwLoop dst_size (fuel + 2) s =
      match dataCode dst_size { s with
          inp := [], len := 0, bit_offset := 0 }
          (b % 2 ^ (8 - s.bit_offset)) with
      | none => .fault
      | some s2 => .done (s2.total_write, s2.dst) := by
  have hread : readBits 9 0 9 s.inp s.len s.bit_offset
      = some (b % 2 ^ (8 - s.bit_offset), 9 - (8 - s.bit_offset), [], 0, 0) := by
    rw [hinp, hlen]
    exact readBits_last_byte 8 9 b s.bit_offset hoff (by omega)
  have hv : b % 2 ^ (8 - s.bit_offset) < 256 := lt_of_le_of_lt (Nat.mod_le _ _) hb
  have h256 : b % 2 ^ (8 - s.bit_offset) ≠ 256 := by omega
  have h257 : b % 2 ^ (8 - s.bit_offset) ≠ 257 := by omega
  have hpos : 0 < s.len := by omega
  have hstep : lzwLoop dst_size (fuel + 1 + 1) s =
      match dataCode dst_size { s with
          inp := [], len := 0, bit_offset := 0 }
          (b % 2 ^ (8 - s.bit_offset)) with
      | none => .fault
      | some s2 => lzwLoop dst_size (fuel + 1) s2 := by
    rw [lzwLoop]
    simp only [hpos, htw, and_self, if_true, widthLoop_small (fuel + 1) _ htc, hread,
      h256, h257, if_false]
  rw [show fuel + 2 = fuel + 1 + 1 from rfl, hstep]
  cases hd : dataCode dst_size { s with
      inp := [], len := 0, bit_offset := 0 }
      (b % 2 ^ (8 - s.bit_offset)) with
  | none => rfl
  | some s2 =>
    have hl2 := dataCode_len _ _ _ _ hd
    simp only at hl2
    simp only [lzwLoop, hl2, lt_irrefl, false_and, if_false]

set_option maxRecDepth 100000 in
/-- The amended C8 at the state after CLEAR with seven bits of a zero byte left. -/
theorem lzwLoop_partial_code_witness :
    lzwLoop 100 (0 + 2) lzwStateLastByte =
      match dataCode 100 { lzwStateLastByte with
          inp := [], len := 0, bit_offset := 0 }
          (0 % 2 ^ (8 - lzwStateLastByte.bit_offset)) with
      | none => .fault
      | some s2 => .done (s2.total_write, s2.dst) :=
  lzwLoop_partial_code 100 0 lzwStateLastByte 0 (by decide) (by decide) (by decide)
    (by decide) (by decide) (by decide)

/-! ## The header check and the directory walk of `main` -/

/-- C9.  For a mapped file of at least 8 bytes, `main` goes on to the directory
walk, from the `u32` at byte 4, exactly when bytes 0-1 are `0x49 0x49` and the
little-endian `u16` at bytes 2-3 is 42; for every other header it returns exit
code 1 and no directory is read. -/
theorem main_header_check (fuel : Nat) (mem : List Nat) (h8 : 8 ≤ mem.length)
    (hbytes : ∀ b ∈ mem, b < 256) :
    main fuel mem =
      if mem.getD 0 0 = 0x49 ∧ mem.getD 1 0 = 0x49 ∧ mem.getD 2 0 + 256 * mem.getD 3 0 = 42 then
        match ifdLoop mem fuel
            (mem.getD 4 0 + 256 * mem.getD 5 0 + 65536 * (mem.getD 6 0 + 256 * mem.getD 7 0))
            [] with
        | .done tr => .done (0, tr)
        | .fault => .fault
        | .timeout => .timeout
      else .done (1, []) := by
  match mem, h8, hbytes with
  | b0 :: b1 :: b2 :: b3 :: b4 :: b5 :: b6 :: b7 :: rest, _, hb =>
    have h0 : b0 < 256 := hb b0 (by simp)
    have h1 : b1 < 256 := hb b1 (by simp)
    simp only [main, read16, read8, read32, List.getElem?_cons_zero, List.getElem?_cons_succ,
      List.getD_cons_zero, List.getD_cons_succ]
    by_cases hbo : b0 + 256 * b1 = 0x4949
    · have hb01 : b0 = 0x49 ∧ b1 = 0x49 := by omega
      simp only [hbo, if_true, hb01.1, hb01.2, true_and]
      by_cases h42 : b2 + 256 * b3 = 42
      · simp only [h42, ne_eq, not_true_eq_false, if_false, if_true]
      · simp only [h42, ne_eq, not_false_eq_true, if_true, if_false]
    · have hn : ¬ (b0 = 0x49 ∧ b1 = 0x49 ∧ b2 + 256 * b3 = 42) := by
        rintro ⟨rfl, rfl, _⟩
        exact hbo rfl
      simp only [hbo, hn, if_false]

/-- C9 at a file that is just a header with no directory. -/
theorem main_header_check_witness :
    main 1 [0x49, 0x49, 42, 0, 0, 0, 0, 0] =
      if [0x49, 0x49, 42, 0, 0, 0, 0, 0].getD 0 0 = 0x49 ∧
          [0x49, 0x49, 42, 0, 0, 0, 0, 0].getD 1 0 = 0x49 ∧
          [0x49, 0x49, 42, 0, 0, 0, 0, 0].getD 2 0
            + 256 * [0x49, 0x49, 42, 0, 0, 0, 0, 0].getD 3 0 = 42 then
        match ifdLoop [0x49, 0x49, 42, 0, 0, 0, 0, 0] 1
            ([0x49, 0x49, 42, 0, 0, 0, 0, 0].getD 4 0
              + 256 * [0x49, 0x49, 42, 0, 0, 0, 0, 0].getD 5 0
              + 65536 * ([0x49, 0x49, 42, 0, 0, 0, 0, 0].getD 6 0
                + 256 * [0x49, 0x49, 42, 0, 0, 0, 0, 0].getD 7 0))
            [] with
        | .done tr => .done (0, tr)
        | .fault => .fault
        | .timeout => .timeout
      else .done (1, []) :=
  main_header_check 1 [0x49, 0x49, 42, 0, 0, 0, 0, 0] (by decide) (by decide)

/-- More fuel does not change a result of `dump` that is not `timeout`. -/
theorem dump_stable (f g : Nat) (mem : List Nat)
    (off len compression predictor stride samples : Nat) (hfg : f ≤ g)
    (h : dump f mem off len compression predictor stride samples ≠ .timeout) :
    dump g mem off len compression predictor stride samples
      = dump f mem off len compression predictor stride samples := by
  unfold dump at h ⊢
  by_cases hc : compression = 5
  · simp only [hc, if_true] at h ⊢
    have hne : decompress_lzw f 262144 (mem.drop off) len ≠ .timeout := by
      intro ht
      rw [ht] at h
      exact h rfl
    have hst : decompress_lzw g 262144 (mem.drop off) len
        = decompress_lzw f 262144 (mem.drop off) len :=
      lzwLoop_stable 262144 f _ hne g hfg
    rw [hst]
    cases hd : decompress_lzw f 262144 (mem.drop off) len with
    | timeout => exact absurd hd hne
    | fault => rfl
    | done r =>
      obtain ⟨n, buf⟩ := r
      simp only [hd] at h ⊢
      by_cases hb : buf.length ≤ 262144
      · simp only [hb, if_true] at h ⊢
        by_cases hp : predictor = 2
        · simp only [hp, if_true] at h ⊢
          cases hr : reverse_differencing f buf n stride samples with
          | none => simp [hr] at h
          | some buf1 =>
            have := rdOuter_mono n stride samples f g buf 0 buf1 hfg hr
            unfold reverse_differencing
            rw [this]
        · simp only [hp, if_false]
      · simp only [hb, if_false]
  · simp only [hc, if_false]

theorem stripLoop_stable (f g : Nat) (mem : List Nat) (v : IfdVars) (so : tiff_ifd_entry)
    (hfg : f ≤ g) : ∀ (n sid : Nat) (tr : List Event),
    stripLoop f mem v so n sid tr ≠ .timeout →
    stripLoop g mem v so n sid tr = stripLoop f mem v so n sid tr := by
  intro n
  induction n with
  | zero => intro sid tr _; rfl
  | succ n ih =>
    intro sid tr h
    simp only [stripLoop] at h ⊢
    cases h1 : value_u32a mem so sid with
    | none => rfl
    | some off =>
      simp only [h1] at h ⊢
      cases h2 : v.strip_byte_counts with
      | none => rfl
      | some sbc =>
        simp only [h2] at h ⊢
        cases h3 : value_u32a mem sbc sid with
        | none => rfl
        | some len =>
          simp only [h3] at h ⊢
          have hne : dump f mem off len v.compression_scheme v.predictor_scheme
              ((v.image_width * v.samples_per_pixel) % U32) v.samples_per_pixel ≠ .timeout := by
            intro ht
            rw [ht] at h
            exact h rfl
          rw [dump_stable f g mem off len _ _ _ _ hfg hne]
          cases hd : dump f mem off len v.compression_scheme v.predictor_scheme
              ((v.image_width * v.samples_per_pixel) % U32) v.samples_per_pixel with
          | timeout => exact absurd hd hne
          | fault => rfl
          | done bytes =>
            simp only [hd] at h ⊢
            exact ih _ _ h

theorem ifdBody_stable (f g : Nat) (mem : List Nat) (pifd : Nat) (hfg : f ≤ g)
    (h : ifdBody f mem pifd ≠ .timeout) : ifdBody g mem pifd = ifdBody f mem pifd := by
  unfold ifdBody at h ⊢
  cases h1 : read16 mem pifd with
  | none => rfl
  | some k =>
    simp only [h1] at h ⊢
    cases h2 : scanEntries mem pifd k 0 IfdVars.init [Event.ifd pifd] with
    | none => rfl
    | some r =>
      obtain ⟨v, tr⟩ := r
      simp only [h2] at h ⊢
      cases h3 : read32 mem (pifd + 2 + k * 12) with
      | none => rfl
      | some next =>
        simp only [h3] at h ⊢
        cases h4 : v.strip_offsets with
        | none => rfl
        | some so =>
          simp only [h4] at h ⊢
          have hne : stripLoop f mem v so so.count 0 tr ≠ .timeout := by
            intro ht
            rw [ht] at h
            exact h rfl
          rw [stripLoop_stable f g mem v so hfg _ _ _ hne]

theorem scanEntries_events (mem : List Nat) (pifd : Nat) : ∀ (n iifd : Nat) (v : IfdVars)
    (tr : List Event) (v1 : IfdVars) (tr1 : List Event),
    scanEntries mem pifd n iifd v tr = some (v1, tr1) →
    tr1 = tr ++ (List.range n).filterMap (fun j =>
        (readEntry mem (pifd + 2 + 12 * (iifd + j))).map
          (Event.entry (pifd + 2 + 12 * (iifd + j)))) ∧
      ∀ j, j < n → (readEntry mem (pifd + 2 + 12 * (iifd + j))).isSome := by
  intro n
  induction n with
  | zero =>
    intro iifd v tr v1 tr1 h
    simp only [scanEntries, Option.some.injEq, Prod.mk.injEq] at h
    refine ⟨by simp [h.2], fun j hj => by omega⟩
  | succ n ih =>
    intro iifd v tr v1 tr1 h
    simp only [scanEntries] at h
    have hmul : iifd * 12 = 12 * iifd := Nat.mul_comm _ _
    rw [hmul] at h
    cases h1 : readEntry mem (pifd + 2 + 12 * iifd) with
    | none => simp [h1] at h
    | some e =>
      simp only [h1] at h
      cases h2 : processEntry mem v e with
      | none => simp [h2] at h
      | some v2 =>
        simp only [h2] at h
        obtain ⟨ht, hs⟩ := ih _ _ _ _ _ h
        have hidx : ∀ j, iifd + 1 + j = iifd + (j + 1) := fun j => by omega
        refine ⟨?_, ?_⟩
        · rw [ht, List.range_succ_eq_map, List.filterMap_cons]
          simp only [Nat.add_zero, h1, Option.map_some', List.filterMap_map, List.append_assoc,
            List.singleton_append, Function.comp_def, hidx]
        · intro j hj
          cases j with
          | zero => simp [h1]
          | succ j =>
            have := hs j (by omega)
            rw [hidx] at this
            exact this

theorem stripLoop_events (fuel : Nat) (mem : List Nat) (v : IfdVars) (so : tiff_ifd_entry) :
    ∀ (n sid : Nat) (tr tr1 : List Event),
    stripLoop fuel mem v so n sid tr = .done tr1 →
    ∃ strips, tr1 = tr ++ strips ∧ ∀ e ∈ strips, e.isStrip = true := by
  intro n
  induction n with
  | zero =>
    intro sid tr tr1 h
    simp only [stripLoop, Outcome.done.injEq] at h
    exact ⟨[], by simp [h], by simp⟩
  | succ n ih =>
    intro sid tr tr1 h
    simp only [stripLoop] at h
    cases h1 : value_u32a mem so sid with
    | none => simp [h1] at h
    | some off =>
      simp only [h1] at h
      cases h2 : v.strip_byte_counts with
      | none => simp [h2] at h
      | some sbc =>
        simp only [h2] at h
        cases h3 : value_u32a mem sbc sid with
        | none => simp [h3] at h
        | some len =>
          simp only [h3] at h
          cases hd : dump fuel mem off len v.compression_scheme v.predictor_scheme
              ((v.image_width * v.samples_per_pixel) % U32) v.samples_per_pixel with
          | timeout => simp [hd] at h
          | fault => simp [hd] at h
          | done bytes =>
            simp only [hd] at h
            obtain ⟨strips, hs1, hs2⟩ := ih _ _ _ h
            refine ⟨Event.strip sid bytes :: strips, by simp [hs1], ?_⟩
            intro e he
            rcases List.mem_cons.mp he with rfl | he
            · rfl
            · exact hs2 e he

theorem filter_entries (mem : List Nat) (d : Nat × Nat) :
    ((List.range d.2).filterMap fun i =>
        (readEntry mem (d.1 + 2 + 12 * i)).map (Event.entry (d.1 + 2 + 12 * i))).filter
      (fun e => !e.isStrip)
    = (List.range d.2).filterMap fun i =>
        (readEntry mem (d.1 + 2 + 12 * i)).map (Event.entry (d.1 + 2 + 12 * i)) := by
  apply List.filter_eq_self.mpr
  intro e he
  obtain ⟨i, _, hi⟩ := List.mem_filterMap.mp he
  cases hr : readEntry mem (d.1 + 2 + 12 * i) with
  | none => simp [hr] at hi
  | some x =>
    simp only [hr, Option.map_some', Option.some.injEq] at hi
    rw [← hi]; rfl

theorem filter_strips (strips : List Event) (h : ∀ e ∈ strips, e.isStrip = true) :
    strips.filter (fun e => !e.isStrip) = [] := by
  apply List.filter_eq_nil_iff.mpr
  intro e he
  simp [h e he]

theorem filter_ifd_cons (o : Nat) (l : List Event) :
    (Event.ifd o :: l).filter (fun e => !e.isStrip)
      = Event.ifd o :: l.filter (fun e => !e.isStrip) := by
  rw [List.filter_cons]
  rfl

/-- What a completed pass of the directory loop has read. -/
theorem ifdBody_events (fuel : Nat) (mem : List Nat) (d : Nat × Nat) (next : Nat)
    (evs : List Event) (hk : read16 mem d.1 = some d.2)
    (h : ifdBody fuel mem d.1 = .done (next, evs)) :
    read32 mem (d.1 + 2 + 12 * d.2) = some next ∧
      evs.filter (fun e => !e.isStrip) = dirEvents mem d ∧
      ∀ i, i < d.2 → (readEntry mem (d.1 + 2 + 12 * i)).isSome := by
  unfold ifdBody at h
  simp only [hk] at h
  cases h2 : scanEntries mem d.1 d.2 0 IfdVars.init [Event.ifd d.1] with
  | none => simp [h2] at h
  | some r =>
    obtain ⟨v, tr⟩ := r
    simp only [h2] at h
    obtain ⟨htr, hsome⟩ := scanEntries_events mem d.1 _ _ _ _ _ _ h2
    simp only [Nat.zero_add] at htr hsome
    rw [Nat.mul_comm d.2 12] at h
    cases h3 : read32 mem (d.1 + 2 + 12 * d.2) with
    | none => simp [h3] at h
    | some nx =>
      simp only [h3] at h
      have hfe := filter_entries mem d
      cases h4 : v.strip_offsets with
      | none =>
        simp only [h4, Outcome.done.injEq, Prod.mk.injEq] at h
        refine ⟨by rw [h.1], ?_, hsome⟩
        rw [← h.2, htr, List.singleton_append, filter_ifd_cons, hfe]
        rfl
      | some so =>
        simp only [h4] at h
        cases h5 : stripLoop fuel mem v so so.count 0 tr with
        | timeout => simp [h5] at h
        | fault => simp [h5] at h
        | done tr1 =>
          simp only [h5, Outcome.done.injEq, Prod.mk.injEq] at h
          obtain ⟨strips, hs1, hs2⟩ := stripLoop_events fuel mem v so _ _ _ _ h5
          refine ⟨by rw [h.1], ?_, hsome⟩
          rw [← h.2, hs1, htr, List.singleton_append, List.cons_append, filter_ifd_cons,
            List.filter_append, hfe, filter_strips strips hs2, List.append_nil]
          rfl

/-- The directory loop over a chain whose passes all complete. -/
theorem ifdLoop_chain (mem : List Nat) (fuel0 : Nat) : ∀ (dirs : List (Nat × Nat))
    (p : Nat) (tr0 : List Event) (fuel : Nat),
    IsChain mem dirs p → (∀ d ∈ dirs, ∃ r, ifdBody fuel0 mem d.1 = .done r) →
    fuel0 + dirs.length < fuel →
    ∃ tr, ifdLoop mem fuel p tr0 = .done (tr0 ++ tr) ∧
      tr.filter (fun e => !e.isStrip) = dirs.flatMap (dirEvents mem) ∧
      ∀ d ∈ dirs, ∀ i, i < d.2 → (readEntry mem (d.1 + 2 + 12 * i)).isSome := by
  intro dirs
  induction dirs with
  | nil =>
    intro p tr0 fuel hch _ hf
    obtain ⟨f, rfl⟩ : ∃ f, fuel = f + 1 := ⟨fuel - 1, by omega⟩
    have hp : p = 0 := hch
    subst hp
    exact ⟨[], by simp [ifdLoop], by simp, by simp⟩
  | cons d ds ih =>
    intro p tr0 fuel hch hbody hf
    obtain ⟨f, rfl⟩ : ∃ f, fuel = f + 1 := ⟨fuel - 1, by omega⟩
    obtain ⟨hp, hnz, hk, next, hnext, hrest⟩ := hch
    subst hp
    obtain ⟨r, hr⟩ := hbody d (List.mem_cons_self _ _)
    obtain ⟨nx, evs⟩ := r
    have hst : ifdBody f mem d.1 = .done (nx, evs) := by
      rw [ifdBody_stable fuel0 f mem d.1 (by simp at hf; omega) (by rw [hr]; simp), hr]
    obtain ⟨h32, hev, hsome⟩ := ifdBody_events f mem d nx evs hk hst
    have hnx : nx = next := by
      rw [hnext] at h32
      exact (Option.some.inj h32).symm
    subst hnx
    obtain ⟨tr, hrun, hfil, hall⟩ := ih nx (tr0 ++ evs) f hrest
      (fun d1 hd1 => hbody d1 (List.mem_cons_of_mem _ hd1)) (by simp at hf; omega)
    refine ⟨evs ++ tr, ?_, ?_, ?_⟩
    · simp only [ifdLoop, hnz, ne_eq, not_false_eq_true, if_true, hst]
      rw [hrun, List.append_assoc]
    · rw [List.filter_append, hev, hfil, List.flatMap_cons]
    · intro d1 hd1 i hi
      rcases List.mem_cons.mp hd1 with rfl | hd1
      · exact hsome i hi
      · exact hall d1 hd1 i hi

/-- C10, as amended.  For a mapped file with a little-endian header and magic
42, holding an in-bounds chain of N directories at non-zero offsets o1..oN (o1
the `u32` at byte 4, the next pointer of a directory at offset `o` with `k`
entries being the `u32` at `o + 2 + 12 * k`, `next(oN) = 0`), in which the
processing of the entries and strips of every directory completes: the
directory walk of `main` returns after exactly N passes, visiting o1..oN in
that order, and in each directory reads entry `i` from the 12-byte record at
`o + 2 + 12 * i`, in file order. -/
theorem main_walks_chain (mem : List Nat) (dirs : List (Nat × Nat)) (o1 fuel0 : Nat)
    (hbo : read16 mem 0 = some 0x4949) (h42 : read16 mem 2 = some 42)
    (hfirst : read32 mem 4 = some o1) (hchain : IsChain mem dirs o1)
    (hbody : ∀ d ∈ dirs, ∃ r, ifdBody fuel0 mem d.1 = .done r) :
    ∀ fuel, fuel0 + dirs.length < fuel →
      ∃ tr, main fuel mem = .done (0, tr) ∧
        tr.filter (fun e => !e.isStrip) = dirs.flatMap (dirEvents mem) ∧
        ∀ d ∈ dirs, ∀ i, i < d.2 → (readEntry mem (d.1 + 2 + 12 * i)).isSome := by
  intro fuel hf
  obtain ⟨tr, hrun, hfil, hall⟩ := ifdLoop_chain mem fuel0 dirs o1 [] fuel hchain hbody hf
  refine ⟨tr, ?_, hfil, hall⟩
  simp only [main, hbo, if_true, h42, ne_eq, not_true_eq_false, if_false, hfirst, hrun,
    List.nil_append]

/-- The amended C10 at a file with two directories. -/
theorem main_walks_chain_witness :
    ∃ tr, main 3 tiffTwoDirs = .done (0, tr) ∧
      tr.filter (fun e => !e.isStrip) = [(8, 1), (26, 0)].flatMap (dirEvents tiffTwoDirs) ∧
      ∀ d ∈ [(8, 1), (26, 0)], ∀ i, i < d.2 →
        (readEntry tiffTwoDirs (d.1 + 2 + 12 * i)).isSome :=
  main_walks_chain tiffTwoDirs [(8, 1), (26, 0)] 8 0 (by decide) (by decide) (by decide)
    ⟨rfl, by decide, by decide, 26, by decide, rfl, by decide, by decide, 0, by decide, rfl⟩
    (fun d hd => by
      simp only [List.mem_cons, List.mem_singleton, List.not_mem_nil, or_false] at hd
      rcases hd with rfl | rfl
      · exact ⟨_, rfl⟩
      · exact ⟨_, rfl⟩)
    3 (by decide)

/-- With `samples = 0` and `stride = 0` the index of `reverse_differencing`
never advances. -/
theorem rdOuter_stuck (len : Nat) (hlen : 0 < len) : ∀ (fuel : Nat) (buf : List Nat),
    rdOuter len 0 0 fuel buf 0 = none := by
  intro fuel
  induction fuel with
  | zero => intro buf; rfl
  | succ fuel ih =>
    intro buf
    simp only [rdOuter, Nat.add_zero, Nat.zero_mod, hlen, if_true, Nat.sub_self, rdInner]
    exact ih buf

theorem dump_samples_zero (f g : Nat) (mem : List Nat) (off len n : Nat) (buf : List Nat)
    (hg : decompress_lzw g 262144 (mem.drop off) len = .done (n, buf)) (hn : 0 < n) :
    ∀ r, dump f mem off len 5 2 0 0 ≠ .done r := by
  intro r h
  unfold dump at h
  simp only [if_true] at h
  cases hd : decompress_lzw f 262144 (mem.drop off) len with
  | timeout => simp [hd] at h
  | fault => simp [hd] at h
  | done x =>
    have h1 := lzwLoop_stable 262144 f _ (by
      show decompress_lzw f 262144 (mem.drop off) len ≠ .timeout
      rw [hd]; simp) (max f g) (le_max_left _ _)
    have h2 := lzwLoop_stable 262144 g _ (by
      show decompress_lzw g 262144 (mem.drop off) len ≠ .timeout
      rw [hg]; simp) (max f g) (le_max_right _ _)
    have h3 : decompress_lzw f 262144 (mem.drop off) len
        = decompress_lzw g 262144 (mem.drop off) len := h1.symm.trans h2
    rw [hd, hg] at h3
    cases h3
    by_cases hb : buf.length ≤ 262144
    · simp only [hd, hb, if_true, reverse_differencing, rdOuter_stuck n hn] at h
      exact Outcome.noConfusion h
    · simp only [hd, hb, if_false] at h
      exact Outcome.noConfusion h

set_option maxRecDepth 100000 in
/-- The walk of `main` over `tiffSamplesZero` never finishes its first pass. -/
theorem main_samplesZero_never : ∀ fuel r, main fuel tiffSamplesZero ≠ .done r := by
  intro fuel r h
  obtain ⟨tr, hscan⟩ : ∃ tr, scanEntries tiffSamplesZero 8 5 0 IfdVars.init [Event.ifd 8]
      = some (⟨some ⟨273, 4, 1, 74⟩, some ⟨279, 4, 1, 4⟩, 0, 0, 5, 2, 0⟩, tr) := ⟨_, rfl⟩
  have hdump : ∀ f r1, dump f tiffSamplesZero 74 4 5 2 0 0 ≠ .done r1 := fun f =>
    dump_samples_zero f 4 tiffSamplesZero 74 4 1 [65] (by decide) (by decide)
  have hbody : ∀ f r1, ifdBody f tiffSamplesZero 8 ≠ .done r1 := by
    intro f r1 hb
    simp only [ifdBody, show read16 tiffSamplesZero 8 = some 5 by decide, hscan,
      show read32 tiffSamplesZero (8 + 2 + 5 * 12) = some 0 by decide, stripLoop,
      show value_u32a tiffSamplesZero ⟨273, 4, 1, 74⟩ 0 = some 74 by decide,
      show value_u32a tiffSamplesZero ⟨279, 4, 1, 4⟩ 0 = some 4 by decide,
      show (0 * 0) % U32 = 0 by decide] at hb
    cases hd : dump f tiffSamplesZero 74 4 5 2 0 0 with
    | done x => exact hdump f x hd
    | fault => simp [hd] at hb
    | timeout => simp [hd] at hb
  simp only [main, show read16 tiffSamplesZero 0 = some 0x4949 by decide, if_true,
    show read16 tiffSamplesZero 2 = some 42 by decide, ne_eq, not_true_eq_false, if_false,
    show read32 tiffSamplesZero 4 = some 8 by decide] at h
  cases fuel with
  | zero => simp [ifdLoop] at h
  | succ f =>
    simp only [ifdLoop, ne_eq, show ¬ (8 : Nat) = 0 by decide, not_false_eq_true, if_true] at h
    cases hb : ifdBody f tiffSamplesZero 8 with
    | done x => exact hbody f x hb
    | fault => simp [hb] at h
    | timeout => simp [hb] at h

/-- C10 fails as stated: the file `tiffSamplesZero` holds an in-bounds chain of
one directory (offset 8, five entries, next pointer 0), yet the walk of `main`
never finishes its first pass, because its strip loop enters
`reverse_differencing` with `stride = samples = 0`. -/
theorem main_walk_hangs :
    read16 tiffSamplesZero 0 = some 0x4949 ∧ read16 tiffSamplesZero 2 = some 42 ∧
      read32 tiffSamplesZero 4 = some 8 ∧ IsChain tiffSamplesZero [(8, 5)] 8 ∧
      ¬ ∃ fuel r, main fuel tiffSamplesZero = .done r := by
  refine ⟨by decide, by decide, by decide,
    ⟨rfl, by decide, by decide, 0, by decide, rfl⟩, ?_⟩
  rintro ⟨fuel, r, h⟩
  exact main_samplesZero_never fuel r h

/-! ## The entry value resolver -/

theorem read16_bytes (mem : List Nat) (a : Nat) (h : a + 1 < mem.length) :
    read16 mem a = some (mem.getD a 0 + 256 * mem.getD (a + 1) 0) := by
  simp [read16, read8, List.getD_eq_getElem?_getD,
    List.getElem?_eq_getElem (show a < mem.length by omega), List.getElem?_eq_getElem h]

theorem read32_bytes (mem : List Nat) (a : Nat) (h : a + 3 < mem.length) :
    read32 mem a = some (mem.getD a 0 + 256 * mem.getD (a + 1) 0
      + 65536 * (mem.getD (a + 2) 0 + 256 * mem.getD (a + 3) 0)) := by
  rw [read32, read16_bytes mem a (by omega), read16_bytes mem (a + 2) (by omega)]

/-- C12 fails on the code.  For the ImageWidth record `entryShortDirty` (type
Short, count 1, inline bytes 4, 0, 1, 0) the first two bytes of the inline
field spell 4, but `value_u32` and `value_u32a` at index 0 return the whole
32-bit field, 65540. -/
theorem value_u32_short_takes_whole_field :
    readEntry entryShortDirty 0 = some ⟨256, 3, 1, 65540⟩ ∧
      read16 entryShortDirty 8 = some 4 ∧
      value_u32 ⟨256, 3, 1, 65540⟩ = 65540 ∧
      value_u32a entryShortDirty ⟨256, 3, 1, 65540⟩ 0 = some 65540 := by
  decide

/-- C13 fails on the code.  In `tiffTwoShorts` the BitsPerSample entry has type
Short and count 2, so its two values 2 and 0 sit in the four inline bytes; but
`value_u32a` takes the field as the byte offset 2 and returns the `u16` found
there and at offset 4: 42 (the magic number) and 8 (the first directory offset).
A Byte entry of count 2 yields 0, and with the usual inline pair 8, 8 the read
at offset `0x80008` leaves the file. -/
theorem value_u32a_small_array_not_inline :
    readEntry tiffTwoShorts 10 = some ⟨258, 3, 2, 2⟩ ∧
      value_u32a tiffTwoShorts ⟨258, 3, 2, 2⟩ 0 = some 42 ∧
      value_u32a tiffTwoShorts ⟨258, 3, 2, 2⟩ 1 = some 8 ∧
      value_u32a tiffTwoShorts ⟨258, 1, 2, 2⟩ 0 = some 0 ∧
      value_u32a tiffTwoShorts ⟨258, 3, 2, 524296⟩ 0 = none := by
  decide

/-- C18.  For an entry with `count ≠ 1`, `value_u32a` takes the value field as a
byte offset: for type Short it returns the little-endian `u16` at offset
`value + 2 * index`, for type Long the little-endian `u32` at offset
`value + 4 * index`, the offset being formed without 32-bit wrap-around, and 0
for every other type; for `count = 1` and index 0 it equals `value_u32`. -/
theorem value_u32a_spec (mem : List Nat) (entry : tiff_ifd_entry) (index : Nat) :
    (entry.count ≠ 1 → entry.type = 3 → entry.value + 2 * index + 1 < mem.length →
        value_u32a mem entry index = some (mem.getD (entry.value + 2 * index) 0
          + 256 * mem.getD (entry.value + 2 * index + 1) 0)) ∧
      (entry.count ≠ 1 → entry.type = 4 → entry.value + 4 * index + 3 < mem.length →
        value_u32a mem entry index = some (mem.getD (entry.value + 4 * index) 0
          + 256 * mem.getD (entry.value + 4 * index + 1) 0
          + 65536 * (mem.getD (entry.value + 4 * index + 2) 0
            + 256 * mem.getD (entry.value + 4 * index + 3) 0))) ∧
      (entry.count ≠ 1 → entry.type ≠ 3 → entry.type ≠ 4 →
        value_u32a mem entry index = some 0) ∧
      (entry.count = 1 → value_u32a mem entry 0 = some (value_u32 entry)) := by
  obtain ⟨tag, type, count, value⟩ := entry
  refine ⟨?_, ?_, ?_, ?_⟩
  · intro hc ht hin
    simp only at hc ht hin
    subst ht
    simp only [value_u32a, hc, if_false, Nat.mul_comm index 2]
    exact read16_bytes mem _ hin
  · intro hc ht hin
    simp only at hc ht hin
    subst ht
    simp only [value_u32a, hc, if_false, Nat.mul_comm index 4]
    exact read32_bytes mem _ hin
  · intro hc h3 h4
    simp only at hc h3 h4
    simp only [value_u32a, hc, if_false]
  · intro hc
    simp only at hc
    subst hc
    simp only [value_u32a, value_u32, if_true]
    split <;> rfl

/-- C18 at the StripOffsets-like entry of type Short, count 3, offset 2 in
`tiffTwoShorts`. -/
theorem value_u32a_spec_witness :
    value_u32a tiffTwoShorts ⟨273, 3, 3, 2⟩ 1 = some (tiffTwoShorts.getD (2 + 2 * 1) 0
      + 256 * tiffTwoShorts.getD (2 + 2 * 1 + 1) 0) :=
  (value_u32a_spec tiffTwoShorts ⟨273, 3, 3, 2⟩ 1).1 (by decide) rfl (by decide)

/-- C19.  For an entry whose type is not Rational (5), `rational` returns
numerator 0 and denominator 0 whatever the buffer holds; for a Rational entry it
returns the two little-endian `u32` at byte offset `value`; `value_u32` returns
0 for every type other than 1, 3 and 4.  Neither signals an error. -/
theorem rational_spec (mem : List Nat) (entry : tiff_ifd_entry) :
    (entry.type ≠ 5 → ∀ mem1, rational mem1 entry = some (0, 0)) ∧
      (entry.type = 5 → entry.value + 7 < mem.length →
        rational mem entry = some
          (mem.getD entry.value 0 + 256 * mem.getD (entry.value + 1) 0
            + 65536 * (mem.getD (entry.value + 2) 0 + 256 * mem.getD (entry.value + 3) 0),
           mem.getD (entry.value + 4) 0 + 256 * mem.getD (entry.value + 4 + 1) 0
            + 65536 * (mem.getD (entry.value + 4 + 2) 0
              + 256 * mem.getD (entry.value + 4 + 3) 0))) ∧
      (entry.type ≠ 1 → entry.type ≠ 3 → entry.type ≠ 4 → value_u32 entry = 0) := by
  obtain ⟨tag, type, count, value⟩ := entry
  refine ⟨?_, ?_, ?_⟩
  · intro ht mem1
    simp only at ht
    simp only [rational]
  · intro ht hin
    simp only at ht hin
    subst ht
    simp only [rational, read32_bytes mem value (by omega),
      read32_bytes mem (value + 4) (by omega)]
  · intro h1 h3 h4
    simp only at h1 h3 h4
    simp only [value_u32]

/-- C19 at an Ascii entry, a Rational entry at offset 0 and a Rational-typed
ImageWidth entry of `tiffTwoShorts`. -/
theorem rational_spec_witness :
    rational [] ⟨282, 2, 1, 0⟩ = some (0, 0) ∧
      rational tiffTwoShorts ⟨282, 5, 1, 0⟩ = some
        (tiffTwoShorts.getD 0 0 + 256 * tiffTwoShorts.getD (0 + 1) 0
          + 65536 * (tiffTwoShorts.getD (0 + 2) 0 + 256 * tiffTwoShorts.getD (0 + 3) 0),
         tiffTwoShorts.getD (0 + 4) 0 + 256 * tiffTwoShorts.getD (0 + 4 + 1) 0
          + 65536 * (tiffTwoShorts.getD (0 + 4 + 2) 0
            + 256 * tiffTwoShorts.getD (0 + 4 + 3) 0)) ∧
      value_u32 ⟨256, 5, 1, 7⟩ = 0 :=
  ⟨(rational_spec [] ⟨282, 2, 1, 0⟩).1 (by decide) [],
    (rational_spec tiffTwoShorts ⟨282, 5, 1, 0⟩).2.1 rfl (by decide),
    (rational_spec [] ⟨256, 5, 1, 7⟩).2.2 (by decide) (by decide) (by decide)⟩

/-! ## The strip orchestrator (`dump`) -/

theorem dump_not_lzw (fuel : Nat) (mem : List Nat)
    (off len compression predictor stride samples : Nat) (hc : compression ≠ 5)
    (hin : off + len ≤ mem.length) :
    dump fuel mem off len compression predictor stride samples
      = .done ((mem.drop off).take len) := by
  simp only [dump, hc, if_false, dump_uncompressed, hin, if_true, Outcome.ofOption]

/-- C15.  Scenario B: for a strip of `len` bytes at offset `off` of the file with
Compression = 1, whatever the predictor, the stride and the sample count,
`dump` hands on exactly the `len` bytes of the strip, unchanged and in order;
it does so with no fuel at all, that is without a pass of `decompress_lzw` or
`reverse_differencing`. -/
theorem dump_uncompressed_strip (fuel : Nat) (mem : List Nat)
    (off len predictor stride samples : Nat) (hin : off + len ≤ mem.length) :
    dump fuel mem off len 1 predictor stride samples = .done ((mem.drop off).take len) ∧
      dump 0 mem off len 1 predictor stride samples = .done ((mem.drop off).take len) :=
  ⟨dump_not_lzw fuel mem off len 1 predictor stride samples (by decide) hin,
    dump_not_lzw 0 mem off len 1 predictor stride samples (by decide) hin⟩

/-- C15 at a strip of three bytes with Predictor = 2. -/
theorem dump_uncompressed_strip_witness :
    dump 5 [9, 1, 2, 3, 9] 1 3 1 2 3 1 = .done (([9, 1, 2, 3, 9].drop 1).take 3) ∧
      dump 0 [9, 1, 2, 3, 9] 1 3 1 2 3 1 = .done (([9, 1, 2, 3, 9].drop 1).take 3) :=
  dump_uncompressed_strip 5 [9, 1, 2, 3, 9] 1 3 2 3 1 (by decide)

/-- C16 fails as stated: with Compression = 2 (CCITT) `dump` reports nothing and
hands the three strip bytes on as they are. -/
theorem dump_ccitt_passes_bytes :
    dump 0 [1, 2, 3] 0 3 2 0 0 0 = .done [1, 2, 3] := by
  decide

/-- C16, as amended.  For every compression scheme value other than 1 and 5
(CCITT 2, JPEG 6, PackBits 32773 among them) `dump` signals no error: it
takes the `default` case, the one of uncompressed strips, and hands the `len`
strip bytes on unchanged. -/
theorem dump_unknown_scheme (fuel : Nat) (mem : List Nat)
    (off len compression predictor stride samples : Nat) (_h1 : compression ≠ 1)
    (h5 : compression ≠ 5) (hin : off + len ≤ mem.length) :
    dump fuel mem off len compression predictor stride samples
      = .done ((mem.drop off).take len) ∧
    dump fuel mem off len compression predictor stride samples
      = dump fuel mem off len 1 predictor stride samples := by
  have h := dump_not_lzw fuel mem off len compression predictor stride samples h5 hin
  exact ⟨h, by rw [h, dump_not_lzw fuel mem off len 1 predictor stride samples (by decide) hin]⟩

/-- The amended C16 at a PackBits strip. -/
theorem dump_unknown_scheme_witness :
    dump 0 [9, 1, 2, 3, 9] 1 3 32773 0 0 1 = .done (([9, 1, 2, 3, 9].drop 1).take 3) ∧
      dump 0 [9, 1, 2, 3, 9] 1 3 32773 0 0 1 = dump 0 [9, 1, 2, 3, 9] 1 3 1 0 0 1 :=
  dump_unknown_scheme 0 [9, 1, 2, 3, 9] 1 3 32773 0 0 1 (by decide) (by decide) (by decide)

/-! ## The decoder reads only the strip -/

theorem learn_inp (s : LzwState) (x : List Nat) (src : Nat) :
    learn { s with inp := x } src = (learn s src).map fun t => { t with inp := x } := by
  unfold learn
  simp only
  split
  · split
    · rfl
    · split
      · rfl
      · split
        · split
          · rfl
          · split
            · rfl
            · split
              · rfl
              · split
                · rfl
                · split
                  · rfl
                  · rfl
        · rfl
  · rfl

theorem dataCode_inp (dst_size : Nat) (s : LzwState) (x : List Nat) (c : Nat) :
    dataCode dst_size { s with inp := x } c
      = (dataCode dst_size s c).map fun t => { t with inp := x } := by
  unfold dataCode
  simp only
  by_cases hlt : c < s.table_count
  · simp only [hlt, if_true]
    cases h1 : s.table_ix c with
    | none => rfl
    | some p =>
      simp only
      cases h2 : s.table_data p with
      | none => rfl
      | some l =>
        simp only
        cases h3 : emitLoop l s.table_data (p + 1) s.dst with
        | none => rfl
        | some dst1 =>
          simp only
          by_cases hr : s.read_state = 0
          · simp only [hr, ne_eq, not_true_eq_false, if_false, Option.map_some']
          · simp only [hr, ne_eq, not_false_eq_true, if_true]
            have := learn_inp { s with dst := dst1 } x c
            simp only at this
            rw [this]
            cases learn { s with dst := dst1 } c <;> rfl
  · simp only [hlt, if_false]
    cases h1 : s.table_ix s.old_code with
    | none => rfl
    | some p =>
      simp only
      cases h2 : s.table_data p with
      | none => rfl
      | some l =>
        simp only
        cases h3 : emitLoopChecked dst_size l s.table_data (p + 1) s.dst with
        | none => rfl
        | some dst1 =>
          simp only
          cases h4 : (if dst1.length % U32 < dst_size then
              (match s.table_data (p + 1) with
                | none => none
                | some v => some (dst1 ++ [v]))
            else some dst1) with
          | none => rfl
          | some dst3 =>
            simp only
            have := learn_inp { s with dst := dst3 } x s.old_code
            simp only at this
            rw [this]
            cases learn { s with dst := dst3 } s.old_code <;> rfl

theorem dataCode_inp_same (dst_size : Nat) (s : LzwState) (c : Nat) (s1 : LzwState)
    (h : dataCode dst_size s c = some s1) : s1.inp = s.inp := by
  unfold dataCode at h
  simp only at h
  split at h
  · split at h
    · exact Option.noConfusion h
    · split at h
      · exact Option.noConfusion h
      · split at h
        · exact Option.noConfusion h
        · split at h
          · split at h
            · exact Option.noConfusion h
            · rename_i hl
              cases h
              exact (learn_fields _ _ _ hl).2.1
          · cases h; rfl
  · split at h
    · exact Option.noConfusion h
    · split at h
      · exact Option.noConfusion h
      · split at h
        · exact Option.noConfusion h
        · split at h
          · exact Option.noConfusion h
          · split at h
            · exact Option.noConfusion h
            · rename_i hl
              cases h
              exact (learn_fields _ _ _ hl).2.1

theorem clearFold_inp (s : LzwState) (x : List Nat) : ∀ n,
    clearFold n { s with inp := x } = { clearFold n s with inp := x } := by
  intro n
  induction n with
  | zero => rfl
  | succ n ih =>
    have hstep : ∀ t : LzwState, clearFold (n + 1) t = clearStep (clearFold n t) n := by
      intro t
      simp only [clearFold, List.range_succ, List.foldl_append, List.foldl_cons, List.foldl_nil]
    rw [hstep, hstep, ih]
    rfl

theorem clearTable_inp (s : LzwState) (x : List Nat) :
    clearTable { s with inp := x } = { clearTable s with inp := x } := by
  simp only [clearTable, clearFold_inp]

theorem readBits_cons_step (n code need b : Nat) (rest : List Nat) (len off take code1 : Nat)
    (hT : take = if need > 8 - off then 8 - off else need)
    (hC : code1 = (((code <<< take) % U32) |||
      ((b >>> (if take < 8 - off then 8 - off - take else 0)) &&& ((1 <<< take) - 1))))
    (hg : 0 < need ∧ 0 < len) :
    readBits (n + 1) code need (b :: rest) len off =
      if off + take ≥ 8 then readBits n code1 (need - take) rest (len - 1) 0
      else readBits n code1 (need - take) (b :: rest) len (off + take) := by
  subst hT hC
  simp only [readBits, hg, and_self, if_true]

/-- The bit reader never looks past the `len` bytes it was given. -/
theorem readBits_prefix (extra : List Nat) : ∀ (n code need : Nat) (inp : List Nat)
    (len off : Nat), len ≤ inp.length →
    readBits n code need (inp ++ extra) len off
      = (readBits n code need inp len off).map
          (fun r => (r.1, r.2.1, r.2.2.1 ++ extra, r.2.2.2.1, r.2.2.2.2)) ∧
      ∀ r, readBits n code need inp len off = some r → r.2.2.2.1 ≤ r.2.2.1.length := by
  intro n
  induction n with
  | zero =>
    intro code need inp len off h
    exact ⟨rfl, by
      intro r hr
      simp only [readBits, Option.some.injEq] at hr
      rw [← hr]; exact h⟩
  | succ n ih =>
    intro code need inp len off h
    by_cases hg : 0 < need ∧ 0 < len
    · cases inp with
      | nil => simp at h; omega
      | cons b rest =>
        simp only [List.length_cons] at h
        rw [List.cons_append,
          readBits_cons_step n code need b (rest ++ extra) len off _ _ rfl rfl hg,
          readBits_cons_step n code need b rest len off _ _ rfl rfl hg]
        by_cases hge : off + (if need > 8 - off then 8 - off else need) ≥ 8
        · rw [if_pos hge, if_pos hge]
          exact ih _ _ rest (len - 1) 0 (by omega)
        · rw [if_neg hge, if_neg hge]
          have := ih (((code <<< (if need > 8 - off then 8 - off else need)) % U32) |||
              ((b >>> (if (if need > 8 - off then 8 - off else need) < 8 - off then
                8 - off - (if need > 8 - off then 8 - off else need) else 0)) &&&
                ((1 <<< (if need > 8 - off then 8 - off else need)) - 1)))
            (need - (if need > 8 - off then 8 - off else need)) (b :: rest) len
            (off + (if need > 8 - off then 8 - off else need)) (by simp; omega)
          rw [List.cons_append] at this
          exact this
    · simp only [readBits, hg, if_false, Option.map_some', true_and]
      intro r hr
      simp only [Option.some.injEq] at hr
      rw [← hr]; exact h

/-- The main loop never looks past the `len` bytes it was given. -/
theorem lzwLoop_prefix (dst_size : Nat) (extra : List Nat) : ∀ (fuel : Nat) (s : LzwState),
    s.len ≤ s.inp.length →
    lzwLoop dst_size fuel { s with inp := s.inp ++ extra } = lzwLoop dst_size fuel s := by
  intro fuel
  induction fuel with
  | zero => intro s _; rfl
  | succ fuel ih =>
    intro s hlen
    simp only [lzwLoop, LzwState.total_write]
    split
    · cases hw : widthLoop fuel (s.table_count >>> 9) 9 s.table_count with
      | none => rfl
      | some r =>
        obtain ⟨nb, tc⟩ := r
        simp only
        obtain ⟨hpre, hle⟩ := readBits_prefix extra nb 0 nb s.inp s.len s.bit_offset hlen
        rw [hpre]
        cases hr : readBits nb 0 nb s.inp s.len s.bit_offset with
        | none => rfl
        | some t =>
          obtain ⟨code, x1, inp, len, off⟩ := t
          have hl := hle _ hr
          simp only at hl
          simp only [Option.map_some']
          split
          · have := ih (clearTable { s with
                table_count := tc, inp := inp, len := len, bit_offset := off })
              (by rw [(clearTable_sim _).2.2.1, (clearTable_sim _).2.1]; exact hl)
            rw [← this, (clearTable_sim _).2.1]
            have hc := clearTable_inp { s with
              table_count := tc, inp := inp, len := len, bit_offset := off } (inp ++ extra)
            simp only at hc
            rw [hc]
          · split
            · rfl
            · have hd := dataCode_inp dst_size { s with
                table_count := tc, inp := inp, len := len, bit_offset := off } (inp ++ extra) code
              simp only at hd
              rw [hd]
              cases hdc : dataCode dst_size { s with
                  table_count := tc, inp := inp, len := len, bit_offset := off } code with
              | none => rfl
              | some s2 =>
                simp only [Option.map_some']
                have hi2 := dataCode_inp_same dst_size _ _ _ hdc
                have hl2 := dataCode_len dst_size _ _ _ hdc
                simp only at hi2 hl2
                have := ih s2 (by rw [hl2, hi2]; exact hl)
                rw [hi2] at this
                exact this
    · rfl
theorem decompress_lzw_slice (fuel dst_size : Nat) (mem : List Nat) (len : Nat)
    (h : len ≤ mem.length) :
    decompress_lzw fuel dst_size mem len = decompress_lzw fuel dst_size (mem.take len) len := by
  unfold decompress_lzw
  have := lzwLoop_prefix dst_size (mem.drop len) fuel (lzwInit (mem.take len) len)
    (by simp [lzwInit]; omega)
  rw [← this]
  simp only [lzwInit, List.take_append_drop]

/-- Where `decompress_lzw` stored no more than the 262144 bytes of `buf`: for an
LZW strip of `len` bytes at offset `off` of the file, `dump` hands on exactly the
`n` bytes `decompress_lzw` returns for the strip slice when Predictor is not 2,
and `reverse_differencing` of those `n` bytes with the given stride and sample
count when it is 2. -/
theorem dump_lzw_within_buf (fuel : Nat) (mem : List Nat)
    (off len predictor stride samples n : Nat) (buf : List Nat)
    (hin : off + len ≤ mem.length)
    (hd : decompress_lzw fuel 262144 ((mem.drop off).take len) len = .done (n, buf))
    (hb : buf.length ≤ 262144) :
    dump fuel mem off len 5 predictor stride samples =
      if predictor = 2 then
        match reverse_differencing fuel buf n stride samples with
        | some buf1 => .done (buf1.take n)
        | none => .timeout
      else .done (buf.take n) := by
  have hslice : decompress_lzw fuel 262144 (mem.drop off) len
      = decompress_lzw fuel 262144 ((mem.drop off).take len) len :=
    decompress_lzw_slice fuel 262144 (mem.drop off) len (by simp; omega)
  simp only [dump, if_true, hslice, hd, hb]

/-- Where `decompress_lzw` stored more than the 262144 bytes of `buf`, `dump`
has left the array. -/
theorem dump_lzw_beyond_buf (fuel : Nat) (mem : List Nat)
    (off len predictor stride samples n : Nat) (buf : List Nat)
    (hd : decompress_lzw fuel 262144 (mem.drop off) len = .done (n, buf))
    (hb : 262144 < buf.length) :
    dump fuel mem off len 5 predictor stride samples = .fault := by
  simp only [dump, if_true, hd, Nat.not_le.mpr hb, if_false]

/-- The strip loop of `main` passes `image_width * samples_per_pixel` modulo
`2^32` as the stride and `samples_per_pixel` as the sample count. -/
theorem stripLoop_dump (fuel : Nat) (mem : List Nat) (off len : Nat)
    (v : IfdVars) (so sbc : tiff_ifd_entry) (n sid : Nat) (tr : List Event)
    (h1 : value_u32a mem so sid = some off) (h2 : v.strip_byte_counts = some sbc)
    (h3 : value_u32a mem sbc sid = some len) :
    stripLoop fuel mem v so (n + 1) sid tr =
      match dump fuel mem off len v.compression_scheme v.predictor_scheme
          ((v.image_width * v.samples_per_pixel) % U32) v.samples_per_pixel with
      | .done bytes => stripLoop fuel mem v so n (sid + 1) (tr ++ [Event.strip sid bytes])
      | .fault => .fault
      | .timeout => .timeout := by
  simp only [stripLoop, h1, h2, h3]

set_option maxRecDepth 100000 in
/-- Scenario A: the strip of `tiffScenarioA` decodes to 10, 3, 3, 3 and, with
ImageWidth = 4, SamplesPerPixel = 1 and Predictor = 2, `dump` hands on
10, 13, 16, 19; so does the whole walk of that file. -/
theorem main_scenarioA :
    decompress_lzw 10 262144 ((tiffScenarioA.drop 98).take 7) 7 = .done (4, [10, 3, 3, 3]) ∧
      dump 10 tiffScenarioA 98 7 5 2 ((4 * 1) % U32) 1 = .done [10, 13, 16, 19] ∧
      main 10 tiffScenarioA = .done (0,
        [Event.ifd 8,
         Event.entry 10 ⟨256, 3, 1, 4⟩, Event.entry 22 ⟨257, 3, 1, 1⟩,
         Event.entry 34 ⟨259, 3, 1, 5⟩, Event.entry 46 ⟨273, 4, 1, 98⟩,
         Event.entry 58 ⟨277, 3, 1, 1⟩, Event.entry 70 ⟨279, 4, 1, 7⟩,
         Event.entry 82 ⟨317, 3, 1, 2⟩,
         Event.strip 0 [10, 13, 16, 19]]) :=
  ⟨by decide, by decide, by decide⟩

/-! ## The local buffer of `dump` -/

/-- The defined-code branch of the switch never looks at `dst_size`. -/
theorem dataCode_defined (d1 d2 : Nat) (s : LzwState) (c : Nat) (h : c < s.table_count) :
    dataCode d1 s c = dataCode d2 s c := by
  simp only [dataCode, h, if_true]

/-- Once `total_write` has reached `dst_size`, the loop of `decompress_lzw`
ends at its next test. -/
theorem lzwLoop_full (dst_size : Nat) (s : LzwState) (h : dst_size ≤ s.total_write)
    (fuel : Nat) : lzwLoop dst_size (fuel + 1) s = .done (s.total_write, s.dst) := by
  simp only [lzwLoop, Nat.not_lt.mpr h, and_false, if_false]

/-- A defined code met with room left for fewer bytes than its string: the
whole string is stored, and the function returns at the next test of the loop
with more than `dst_size` bytes stored. -/
theorem lzwLoop_overrun (dst_size : Nat) (s : LzwState) (dict : List (List Nat))
    (prev : Option Nat) (out : List Nat) (c : Nat) (e : List Nat) (dict1 : List (List Nat))
    (rest : List Bool)
    (hsim : Sim s dict prev out) (hrd : Reader s (bitsMSB 9 c ++ rest))
    (hstep : specStep dict prev c = some (e, dict1))
    (hdef : c < 258 + dict.length) (hd : dict.length ≤ 253)
    (hlt : out.length < dst_size) (hover : dst_size ≤ (out ++ e).length)
    (hsz : (out ++ e).length < U32) :
    ∀ fuel, lzwLoop dst_size (fuel + 2) s = .done ((out ++ e).length, out ++ e) := by
  have hcode := specStep_code dict prev c _ hstep
  have htw : s.total_write < dst_size := by
    unfold LzwState.total_write
    rw [hsim.out_eq]
    exact lt_of_le_of_lt (Nat.mod_le _ _) hlt
  obtain ⟨inp1, off1, _, _, _, hrun⟩ := lzwLoop_read dst_size s c rest hrd (by omega)
    (by rw [hsim.count]; omega) htw
  obtain ⟨s2, hdc, hsim2, _, _, _⟩ := dataCode_sim (out ++ e).length
    { s with table_count := s.table_count, inp := inp1, len := inp1.length, bit_offset := off1 }
    dict prev out c e dict1
    (sim_reader_congr s _ dict prev out hsim rfl rfl rfl rfl rfl rfl rfl) hstep hd
    (le_refl _) hsz
  have hdc2 : dataCode dst_size
      { s with table_count := s.table_count, inp := inp1, len := inp1.length,
               bit_offset := off1 } c = some s2 := by
    rw [dataCode_defined dst_size (out ++ e).length _ c (by
      show c < s.table_count
      rw [hsim.count]; exact hdef)]
    exact hdc
  have htot : s2.total_write = (out ++ e).length := by
    unfold LzwState.total_write
    rw [hsim2.out_eq]
    exact Nat.mod_eq_of_lt hsz
  intro fuel
  have h256 : c ≠ 256 := by omega
  have h257 : c ≠ 257 := by omega
  rw [show fuel + 2 = (fuel + 1) + 1 from rfl, hrun (fuel + 1)]
  simp only [h256, h257, if_false, hdc2]
  rw [lzwLoop_full dst_size s2 (by rw [htot]; exact hover) fuel, htot, hsim2.out_eq]

/-- The output so far is carried along by the specification's machine. -/
theorem specCodes_out : ∀ (cs : List Nat) (dict : List (List Nat)) (prev : Option Nat)
    (out : List Nat),
    specCodes cs dict prev out
      = (specCodes cs dict prev []).map (fun r => (out ++ r.1, r.2)) := by
  intro cs
  induction cs with
  | nil => intro dict prev out; simp [specCodes]
  | cons c cs ih =>
    intro dict prev out
    cases hst : specStep dict prev c with
    | none => simp [specCodes, hst]
    | some r =>
      obtain ⟨e, d1⟩ := r
      simp only [specCodes, hst, List.nil_append]
      rw [ih d1 (some c) (out ++ e), ih d1 (some c) e]
      cases specCodes cs d1 (some c) [] with
      | none => rfl
      | some x => simp [List.append_assoc]

theorem length_lzwBlocks (b : List Nat) : ∀ n, (lzwBlocks b n).length = n * b.length := by
  intro n
  induction n with
  | zero => simp [lzwBlocks]
  | succ n ih => simp only [lzwBlocks, List.length_append, ih]; rw [Nat.succ_mul]; omega

theorem lzwBlocks_bytes (b : List Nat) (hb : ∀ x ∈ b, x < 256) :
    ∀ n, ∀ x ∈ lzwBlocks b n, x < 256 := by
  intro n
  induction n with
  | zero => intro x hx; simp [lzwBlocks] at hx
  | succ n ih =>
    intro x hx
    simp only [lzwBlocks, List.mem_append] at hx
    rcases hx with hx | hx
    · exact hb x hx
    · exact ih x hx

/-- One block CLEAR, 1, 2, 3, 4, 5, 6, 7 met with room for its seven bytes. -/
theorem lzwLoop_block (dst_size : Nat) (hsz : dst_size < U32) (s : LzwState)
    (rest : List Bool)
    (hrd : Reader s (pack9 [256, 1, 2, 3, 4, 5, 6, 7] ++ rest)) (htc : s.table_count < 512)
    (hcap : s.dst.length + 7 ≤ dst_size) :
    ∃ s1, (∀ fuel, lzwLoop dst_size (fuel + 8) s = lzwLoop dst_size fuel s1) ∧
      Sim s1 [[1, 2], [2, 3], [3, 4], [4, 5], [5, 6], [6, 7]] (some 7)
        (s.dst ++ [1, 2, 3, 4, 5, 6, 7]) ∧
      Reader s1 rest := by
  rw [pack9_cons, List.append_assoc] at hrd
  have htw : s.total_write < dst_size := by
    unfold LzwState.total_write
    exact lt_of_le_of_lt (Nat.mod_le _ _) (by omega)
  obtain ⟨s1, hrun1, hsim1, hrd1⟩ := lzwLoop_clear dst_size s _ hrd htc htw
  have hspec : specCodes [1, 2, 3, 4, 5, 6, 7] [] none s.dst
      = some (s.dst ++ [1, 2, 3, 4, 5, 6, 7],
          [[1, 2], [2, 3], [3, 4], [4, 5], [5, 6], [6, 7]]) := by
    rw [specCodes_out]
    rw [show specCodes [1, 2, 3, 4, 5, 6, 7] [] none []
      = some ([1, 2, 3, 4, 5, 6, 7], [[1, 2], [2, 3], [3, 4], [4, 5], [5, 6], [6, 7]])
      from by decide]
    rfl
  obtain ⟨s2, hrun2, hsim2, hrd2⟩ := lzwLoop_codes dst_size hsz [1, 2, 3, 4, 5, 6, 7] s1 []
    none s.dst _ _ rest hsim1 hrd1 hspec (by decide) (by simp; omega)
  refine ⟨s2, ?_, hsim2, hrd2⟩
  intro fuel
  rw [show fuel + 8 = (fuel + 7) + 1 from rfl, hrun1 (fuel + 7)]
  exact hrun2 fuel

/-- A run of such blocks met with room for all their bytes. -/
theorem lzwLoop_blocks (dst_size : Nat) (hsz : dst_size < U32) :
    ∀ (n : Nat) (s : LzwState) (tail : List Bool),
      Reader s (bytesToBits (lzwBlocks [128, 0, 64, 64, 48, 32, 20, 12, 7] (n + 1)) ++ tail) →
      s.table_count < 512 → s.dst.length + 7 * (n + 1) ≤ dst_size →
      ∃ s1, (∀ fuel, lzwLoop dst_size (fuel + 8 * (n + 1)) s = lzwLoop dst_size fuel s1) ∧
        Sim s1 [[1, 2], [2, 3], [3, 4], [4, 5], [5, 6], [6, 7]] (some 7)
          (s.dst ++ lzwBlocks [1, 2, 3, 4, 5, 6, 7] (n + 1)) ∧
        Reader s1 tail := by
  have hblock : bytesToBits [128, 0, 64, 64, 48, 32, 20, 12, 7]
      = pack9 [256, 1, 2, 3, 4, 5, 6, 7] := by decide
  intro n
  induction n with
  | zero =>
    intro s tail hrd htc hcap
    simp only [lzwBlocks, List.append_nil, hblock] at hrd ⊢
    exact lzwLoop_block dst_size hsz s tail hrd htc (by omega)
  | succ n ih =>
    intro s tail hrd htc hcap
    rw [lzwBlocks, bytesToBits_append, hblock, List.append_assoc] at hrd
    obtain ⟨s1, hrun1, hsim1, hrd1⟩ := lzwLoop_block dst_size hsz s _ hrd htc (by omega)
    have hdst1 : s1.dst = s.dst ++ [1, 2, 3, 4, 5, 6, 7] := hsim1.out_eq
    obtain ⟨s2, hrun2, hsim2, hrd2⟩ := ih s1 tail hrd1 (by rw [hsim1.count]; decide)
      (by rw [hdst1, List.length_append]; simp only [List.length_cons, List.length_nil]; omega)
    refine ⟨s2, ?_, ?_, hrd2⟩
    · intro fuel
      rw [show fuel + 8 * (n + 1 + 1) = (fuel + 8 * (n + 1)) + 8 from by omega,
        hrun1 (fuel + 8 * (n + 1))]
      exact hrun2 fuel
    · rw [hdst1, List.append_assoc] at hsim2
      exact hsim2

theorem length_lzwOverrunStrip : lzwOverrunStrip.length = 337044 := by
  rw [lzwOverrunStrip, List.length_append, length_lzwBlocks]
  rfl

/-- The decoder on `lzwOverrunStrip` with the capacity of `buf`: it returns
262145, having stored that many bytes. -/
theorem decompress_lzw_overrunStrip (fuel : Nat) :
    decompress_lzw (fuel + 299594) 262144 lzwOverrunStrip 337044
      = .done (262145, lzwBlocks [1, 2, 3, 4, 5, 6, 7] 37449 ++ [1, 2]) := by
  have hlen : (lzwBlocks [1, 2, 3, 4, 5, 6, 7] 37449).length = 262143 := by
    rw [length_lzwBlocks]; rfl
  have hrd0 : Reader (lzwInit lzwOverrunStrip 337044)
      (bytesToBits (lzwBlocks [128, 0, 64, 64, 48, 32, 20, 12, 7] (37448 + 1))
        ++ (bitsMSB 9 258 ++ (bitsMSB 9 257 ++ [false, false, false, false, false, false]))) := by
    refine ⟨?_, by simp [lzwInit], ?_, ?_⟩
    · show 337044 = lzwOverrunStrip.length
      rw [length_lzwOverrunStrip]
    · show ∀ b ∈ lzwOverrunStrip, b < 256
      intro b hb
      rw [lzwOverrunStrip, List.mem_append] at hb
      rcases hb with hb | hb
      · exact lzwBlocks_bytes _ (by decide) 37449 b hb
      · revert b; decide
    · show remBits lzwOverrunStrip 0 = _
      rw [remBits_zero, lzwOverrunStrip, bytesToBits_append]
      rw [show bytesToBits [129, 64, 64]
        = bitsMSB 9 258 ++ (bitsMSB 9 257 ++ [false, false, false, false, false, false])
        from by decide]
  obtain ⟨s1, hrun1, hsim1, hrd1⟩ := lzwLoop_blocks 262144 (by decide) 37448
    (lzwInit lzwOverrunStrip 337044) _ hrd0 (by simp [lzwInit]) (by simp [lzwInit])
  have hout : (lzwInit lzwOverrunStrip 337044).dst ++ lzwBlocks [1, 2, 3, 4, 5, 6, 7] (37448 + 1)
      = lzwBlocks [1, 2, 3, 4, 5, 6, 7] 37449 := List.nil_append _
  rw [hout] at hsim1
  have hfin := lzwLoop_overrun 262144 s1 _ (some 7) _ 258 [1, 2]
    [[1, 2], [2, 3], [3, 4], [4, 5], [5, 6], [6, 7], [7, 1]] _ hsim1 hrd1 (by decide)
    (by decide) (by decide) (by rw [hlen]; decide)
    (by rw [List.length_append, hlen]; decide) (by rw [List.length_append, hlen]; decide) fuel
  unfold decompress_lzw
  rw [show fuel + 299594 = (fuel + 2) + 8 * (37448 + 1) from by omega, hrun1 (fuel + 2), hfin,
    List.length_append, hlen]
  rfl

/-- C14 fails on the code.  For the LZW strip `lzwOverrunStrip`, wherever it
lies in the file, `decompress_lzw` returns `n` = 262145 for the strip slice,
one more than `buf` holds: after 262143 bytes the defined-code branch copies
the two bytes of entry 258 with no test of the capacity, the second one to
`buf[0x40000]`.  `dump` hands on no bytes at all, it has left `buf`, whatever
the predictor, the stride and the sample count. -/
theorem dump_lzw_overruns_buf (fuel : Nat) :
    decompress_lzw (fuel + 299594) 262144 lzwOverrunStrip 337044
        = .done (262145, lzwBlocks [1, 2, 3, 4, 5, 6, 7] 37449 ++ [1, 2]) ∧
      (lzwBlocks [1, 2, 3, 4, 5, 6, 7] 37449 ++ [1, 2]).length = 262145 ∧
      ∀ (pre post : List Nat) (predictor stride samples : Nat),
        dump (fuel + 299594) (pre ++ lzwOverrunStrip ++ post) pre.length 337044 5
          predictor stride samples = .fault := by
  have hlen : (lzwBlocks [1, 2, 3, 4, 5, 6, 7] 37449 ++ [1, 2]).length = 262145 := by
    rw [List.length_append, length_lzwBlocks]; rfl
  refine ⟨decompress_lzw_overrunStrip fuel, hlen, ?_⟩
  intro pre post predictor stride samples
  have hdrop : (pre ++ lzwOverrunStrip ++ post).drop pre.length = lzwOverrunStrip ++ post := by
    rw [List.append_assoc, List.drop_left]
  have htake : (lzwOverrunStrip ++ post).take 337044 = lzwOverrunStrip := by
    rw [← length_lzwOverrunStrip, List.take_left]
  have hd : decompress_lzw (fuel + 299594) 262144
      ((pre ++ lzwOverrunStrip ++ post).drop pre.length) 337044
      = .done (262145, lzwBlocks [1, 2, 3, 4, 5, 6, 7] 37449 ++ [1, 2]) := by
    rw [hdrop, decompress_lzw_slice _ _ _ _ (by
      rw [List.length_append, length_lzwOverrunStrip]; omega), htake]
    exact decompress_lzw_overrunStrip fuel
  exact dump_lzw_beyond_buf _ _ _ _ predictor stride samples _ _ hd (by rw [hlen]; decide)

/-! ## The code-width loop -/

/-- C17.  Whenever a pass of the main loop of `decompress_lzw` begins with
`table_count ≥ 512`, input left and capacity left, the guard
`x = table_count >> 9` of the code-width loop is positive and is never changed,
so that loop never exits and `decompress_lzw` never returns.  The state is
reached: on CLEAR followed by 255 literal 9-bit codes and one more input byte,
with a capacity of 256, `decompress_lzw` never returns.  With
`table_count < 512` the loop body runs zero times and 9 bits are asked for. -/
theorem lzw_width_loop_never_exits :
    (∀ (dst_size : Nat) (s : LzwState), 512 ≤ s.table_count → 0 < s.len →
        s.total_write < dst_size →
        0 < s.table_count >>> 9 ∧
          (∀ fuel need_bits tc, widthLoop fuel (s.table_count >>> 9) need_bits tc = none) ∧
          ∀ fuel, lzwLoop dst_size fuel s = .timeout) ∧
      (∀ fuel, decompress_lzw fuel 256 (lzwPrefix255 ++ [0]) (lzwPrefix255 ++ [0]).length
        = .timeout) ∧
      (∀ tc, tc < 512 → widthLoop 0 (tc >>> 9) 9 tc = some (9, tc) ∧
        ∀ fuel, widthLoop fuel (tc >>> 9) 9 tc = some (9, tc)) := by
  refine ⟨?_, ?_, ?_⟩
  · intro dst_size s htc hlen htw
    have hx : 0 < s.table_count >>> 9 := by
      rw [Nat.shiftRight_eq_div_pow]
      exact Nat.div_pos htc (by decide)
    exact ⟨hx, fun fuel nb tc => widthLoop_hang _ hx fuel nb tc,
      lzwLoop_hang_state dst_size s htc hlen htw⟩
  · refine decompress_lzw_hangs (List.range 254) 127 (bytesToBits [0]) (lzwPrefix255 ++ [0]) 256
      (List.range 254) [127] ((List.range 253).map fun i => [i, i + 1])
      (((List.range 253).map fun i => [i, i + 1]) ++ [[253, 127]])
      ?_ ?_ (by decide) specCodes_range254 (by simp) (by decide!) (by simp) (by decide)
    · intro x hx
      rcases List.mem_append.mp hx with h | h
      · exact lzwPrefix255_bytes x h
      · simp only [List.mem_singleton] at h
        omega
    · rw [bytesToBits_append, bits_lzwPrefix255]
  · intro tc htc
    exact ⟨widthLoop_small 0 tc htc, fun fuel => widthLoop_small fuel tc htc⟩

/-- C17 at a state with 512 table entries and one byte of input, and at 511
entries. -/
theorem lzw_width_loop_never_exits_witness :
    (∀ fuel, lzwLoop 1 fuel { lzwInit [0] 1 with table_count := 512 } = .timeout) ∧
      widthLoop 0 (511 >>> 9) 9 511 = some (9, 511) :=
  ⟨(lzw_width_loop_never_exits.1 1 { lzwInit [0] 1 with table_count := 512 } (by decide)
      (by decide) (by decide)).2.2,
    (lzw_width_loop_never_exits.2.2 511 (by decide)).1⟩

/-! ## Termination of predictor reversal -/

theorem rdInner_index : ∀ (n : Nat) (buf : List Nat) (len back i : Nat),
    i ≤ (rdInner n buf len back i).2 ∧
      (i ≤ len → (rdInner n buf len back i).2 ≤ len) ∧
      (0 < n → i < len → i < (rdInner n buf len back i).2) := by
  intro n
  induction n with
  | zero =>
    intro buf len back i
    exact ⟨le_refl _, fun h => h, fun h => absurd h (lt_irrefl 0)⟩
  | succ n ih =>
    intro buf len back i
    by_cases hlt : i < len
    · simp only [rdInner, hlt, if_true]
      obtain ⟨h1, h2, _⟩ := ih (buf.set i ((buf.getD i 0 + buf.getD back 0) % 256)) len
        (back + 1) (i + 1)
      exact ⟨by omega, fun _ => h2 (by omega), fun _ _ => by omega⟩
    · have hr : rdInner (n + 1) buf len back i = (buf, i) := by
        simp only [rdInner, hlt, if_false]
      rw [hr]
      exact ⟨le_refl _, fun h => h, fun _ h => absurd h hlt⟩

/-- The outer loop returns when each pass moves the index: when `samples ≥ 1`,
or when the inner loop runs at least once. -/
theorem rdOuter_terminates (len stride samples : Nat) (hprog : 1 ≤ samples ∨ samples < stride)
    (hnw : len + samples < U32) : ∀ (fuel : Nat) (buf : List Nat) (i : Nat),
    i ≤ len → len - i < fuel → ∃ out, rdOuter len stride samples fuel buf i = some out := by
  intro fuel
  induction fuel with
  | zero => intro buf i _ h; omega
  | succ fuel ih =>
    intro buf i hle hf
    have hmod : (i + samples) % U32 = i + samples := Nat.mod_eq_of_lt (by omega)
    simp only [rdOuter, hmod]
    by_cases hg : i + samples < len
    · simp only [hg, if_true]
      obtain ⟨h1, h2, h3⟩ := rdInner_index (stride - samples) buf len i (i + samples)
      have hgt : i < (rdInner (stride - samples) buf len i (i + samples)).2 := by
        rcases hprog with hs | hs
        · omega
        · have := h3 (by omega) hg
          omega
      exact ih _ _ (h2 (by omega)) (by omega)
    · simp only [hg, if_false]
      exact ⟨buf, rfl⟩

/-- C20.  For a buffer of length `len < 2^31` and `u32` values of `stride` and
`samples`, `reverse_differencing` returns if and only if it is not the case
that `samples = 0`, `stride = 0` and `len > 0`; in that case the index never
advances and no amount of fuel suffices, which `main` reaches on a file with
SamplesPerPixel = 0 (`tiffSamplesZero`).  For `samples ≥ 1` it always
returns. -/
theorem reverse_differencing_terminates_iff (buf : List Nat) (stride samples : Nat)
    (hlen : buf.length < 2147483648) (_hst : stride < U32) (hsa : samples < U32) :
    ((∃ fuel out, reverse_differencing fuel buf buf.length stride samples = some out) ↔
        ¬ (samples = 0 ∧ stride = 0 ∧ 0 < buf.length)) ∧
      (samples = 0 → stride = 0 → 0 < buf.length →
        ∀ fuel buf1, rdOuter buf.length stride samples fuel buf1 0 = none) ∧
      (1 ≤ samples → ∀ fuel, buf.length < fuel →
        ∃ out, reverse_differencing fuel buf buf.length stride samples = some out) ∧
      ¬ ∃ fuel r, main fuel tiffSamplesZero = .done r := by
  have hterm : ¬ (samples = 0 ∧ stride = 0 ∧ 0 < buf.length) → ∀ fuel, buf.length < fuel →
      ∃ out, reverse_differencing fuel buf buf.length stride samples = some out := by
    intro hne fuel hf
    obtain ⟨f, rfl⟩ : ∃ f, fuel = f + 1 := ⟨fuel - 1, by omega⟩
    by_cases hsl : samples < buf.length
    · have hprog : 1 ≤ samples ∨ samples < stride := by
        by_cases h0 : samples = 0
        · right
          by_contra hc
          exact hne ⟨h0, by omega, by omega⟩
        · left; omega
      exact rdOuter_terminates buf.length stride samples hprog (by unfold U32; omega) (f + 1) buf 0
        (Nat.zero_le _) (by omega)
    · have hmod : (0 + samples) % U32 = samples := by
        rw [Nat.zero_add]; exact Nat.mod_eq_of_lt hsa
      exact ⟨buf, by simp only [reverse_differencing, rdOuter, hmod, if_neg hsl]⟩
  refine ⟨⟨?_, ?_⟩, ?_, ?_, ?_⟩
  · rintro ⟨fuel, out, h⟩ ⟨h1, h2, h3⟩
    subst h1 h2
    rw [reverse_differencing, rdOuter_stuck buf.length h3] at h
    exact Option.noConfusion h
  · intro hne
    obtain ⟨out, h⟩ := hterm hne (buf.length + 1) (by omega)
    exact ⟨_, out, h⟩
  · intro h1 h2 h3 fuel buf1
    subst h1 h2
    exact rdOuter_stuck buf.length h3 fuel buf1
  · intro hs fuel hf
    exact hterm (fun h => by omega) fuel hf
  · rintro ⟨fuel, r, h⟩
    exact main_samplesZero_never fuel r h

/-- C20 at a one-byte buffer with `stride = 0` and `samples = 1`. -/
theorem reverse_differencing_terminates_iff_witness :
    ∃ out, reverse_differencing 2 [65] [65].length 0 1 = some out :=
  (reverse_differencing_terminates_iff [65] 0 1 (by decide) (by decide) (by decide)).2.2.1
    (by decide) 2 (by decide)

/-! ## Directory chains that never reach 0 -/

/-- The directory loop never returns from a set of non-zero offsets that the
next pointers do not leave, when every pass over them completes. -/
theorem ifdLoop_closed (mem : List Nat) (S : Nat → Prop)
    (hS : ∀ o, S o → o ≠ 0 ∧ ∃ f0 next evs, ifdBody f0 mem o = .done (next, evs) ∧ S next) :
    ∀ (fuel o : Nat) (tr : List Event), S o → ifdLoop mem fuel o tr = .timeout := by
  intro fuel
  induction fuel with
  | zero => intro o tr _; rfl
  | succ f ih =>
    intro o tr ho
    obtain ⟨hnz, f0, next, evs, hbody, hnext⟩ := hS o ho
    simp only [ifdLoop, hnz, ne_eq, not_false_eq_true, if_true]
    cases hb : ifdBody f mem o with
    | timeout => rfl
    | fault =>
      exfalso
      have h1 := ifdBody_stable f (max f f0) mem o (le_max_left _ _) (by rw [hb]; simp)
      have h2 := ifdBody_stable f0 (max f f0) mem o (le_max_right _ _) (by rw [hbody]; simp)
      rw [h1, hb, hbody] at h2
      exact Outcome.noConfusion h2
    | done r =>
      have h1 := ifdBody_stable f (max f f0) mem o (le_max_left _ _) (by rw [hb]; simp)
      have h2 := ifdBody_stable f0 (max f f0) mem o (le_max_right _ _) (by rw [hbody]; simp)
      rw [h1, hb, hbody] at h2
      cases h2
      exact ih next _ hnext

theorem chainTo_mem (mem : List Nat) : ∀ (dirs : List (Nat × Nat)) (p q : Nat),
    ChainTo mem dirs p q → ∀ d ∈ dirs,
      d.1 ≠ 0 ∧ read16 mem d.1 = some d.2 ∧
        ∃ next, read32 mem (d.1 + 2 + 12 * d.2) = some next ∧
          (next = q ∨ next ∈ dirs.map Prod.fst) := by
  intro dirs
  induction dirs with
  | nil => intro p q _ d hd; simp at hd
  | cons d0 ds ih =>
    intro p q hch d hd
    obtain ⟨_, hnz, hk, next, hnext, hrest⟩ := hch
    rcases List.mem_cons.mp hd with rfl | hd
    · refine ⟨hnz, hk, next, hnext, ?_⟩
      cases ds with
      | nil => exact Or.inl hrest
      | cons d1 ds1 =>
        right
        have : next = d1.1 := hrest.1
        simp [this]
    · obtain ⟨a1, a2, nx, a3, a4⟩ := ih next q hrest d hd
      refine ⟨a1, a2, nx, a3, ?_⟩
      rcases a4 with a4 | a4
      · exact Or.inl a4
      · exact Or.inr (by simp only [List.map_cons, List.mem_cons]; exact Or.inr a4)

/-- The directory loop on a chain that returns to one of its own offsets. -/
theorem ifdLoop_cycle (mem : List Nat) (dirs : List (Nat × Nat)) (o1 q fuel0 : Nat)
    (hchain : ChainTo mem dirs o1 q) (hq : q ∈ dirs.map Prod.fst)
    (hbody : ∀ d ∈ dirs, ∃ r, ifdBody fuel0 mem d.1 = .done r) :
    ∀ (fuel : Nat) (tr : List Event), ifdLoop mem fuel o1 tr = .timeout := by
  intro fuel tr
  apply ifdLoop_closed mem (fun o => o ∈ dirs.map Prod.fst)
  · intro o ho
    obtain ⟨d, hd, rfl⟩ := List.mem_map.mp ho
    obtain ⟨hnz, hk, next, hnext, hmem⟩ := chainTo_mem mem dirs o1 q hchain d hd
    obtain ⟨r, hr⟩ := hbody d hd
    obtain ⟨nx, evs⟩ := r
    obtain ⟨h32, _, _⟩ := ifdBody_events fuel0 mem d nx evs hk hr
    rw [hnext] at h32
    cases h32
    refine ⟨hnz, fuel0, next, evs, hr, ?_⟩
    rcases hmem with rfl | hmem
    · exact hq
    · exact hmem
  · cases dirs with
    | nil => simp at hq
    | cons d ds =>
      have : o1 = d.1 := hchain.1
      simp [this]

/-- C11, as amended.  `main` has no cycle guard and no CorruptDirectory result:
its walk stops only at a next-directory offset of 0.  For a buffer with a
little-endian header and magic 42 whose directory chain o1..oN (the processing
of every directory completing) ends in a next-directory offset that repeats one
of o1..oN, the walk never terminates. -/
theorem main_cycle_never_returns (mem : List Nat) (dirs : List (Nat × Nat)) (o1 q fuel0 : Nat)
    (hbo : read16 mem 0 = some 0x4949) (h42 : read16 mem 2 = some 42)
    (hfirst : read32 mem 4 = some o1) (hchain : ChainTo mem dirs o1 q)
    (hq : q ∈ dirs.map Prod.fst)
    (hbody : ∀ d ∈ dirs, ∃ r, ifdBody fuel0 mem d.1 = .done r) :
    ∀ fuel, main fuel mem = .timeout := by
  intro fuel
  simp only [main, hbo, if_true, h42, ne_eq, not_true_eq_false, if_false, hfirst,
    ifdLoop_cycle mem dirs o1 q fuel0 hchain hq hbody fuel []]

/-- The amended C11 at a file whose two directories point at each other. -/
theorem main_cycle_never_returns_witness :
    ChainTo tiffTwoCycle [(8, 0), (14, 0)] 8 8 ∧ ∀ fuel, main fuel tiffTwoCycle = .timeout :=
  ⟨⟨rfl, by decide, by decide, 14, by decide, rfl, by decide, by decide, 8, by decide, rfl⟩,
    main_cycle_never_returns tiffTwoCycle [(8, 0), (14, 0)] 8 8 0 (by decide) (by decide)
      (by decide)
      ⟨rfl, by decide, by decide, 14, by decide, rfl, by decide, by decide, 8, by decide, rfl⟩
      (by decide)
      (fun d hd => by
        simp only [List.mem_cons, List.mem_singleton, List.not_mem_nil, or_false] at hd
        rcases hd with rfl | rfl
        · exact ⟨_, rfl⟩
        · exact ⟨_, rfl⟩)⟩

/-- C11 fails as stated: in `tiffSelfLoop` the next-directory offset of the
directory at offset 8 is 8 again, and the walk of `main` neither rejects the
file nor returns. -/
theorem main_self_loop_never_returns :
    read32 tiffSelfLoop 4 = some 8 ∧ ChainTo tiffSelfLoop [(8, 0)] 8 8 ∧
      ¬ ∃ fuel r, main fuel tiffSelfLoop = .done r := by
  refine ⟨by decide, ⟨rfl, by decide, by decide, 8, by decide, rfl⟩, ?_⟩
  rintro ⟨fuel, r, h⟩
  have hloop := ifdLoop_cycle tiffSelfLoop [(8, 0)] 8 8 0
    ⟨rfl, by decide, by decide, 8, by decide, rfl⟩ (by decide)
    (fun d hd => by
      simp only [List.mem_singleton] at hd
      subst hd
      exact ⟨_, rfl⟩) fuel []
  simp only [main, show read16 tiffSelfLoop 0 = some 0x4949 by decide, if_true,
    show read16 tiffSelfLoop 2 = some 42 by decide, ne_eq, not_true_eq_false, if_false,
    show read32 tiffSelfLoop 4 = some 8 by decide, hloop] at h
  exact Outcome.noConfusion h

end TiffAnalysis
